import Mathlib

/-!
# Verification of the meteor-to-node package conversion core

This development gives a shallow embedding, in Lean, of the core algorithms of
the meteor-to-node repository and proves (or refutes) the specification claims
about them:

* `src/meteor-lite/convert-meteor-package-to-npm.js` — the `MeteorPackage`
  conversion state machine (`setBasic`, `addMeteorDependencies`, `toJSON`,
  `getImportedGlobalsMaps`, `sortImports` / `getImportStr`, the
  `ensurePackage` registry and the `writeToNpmModule` write guard);
* `src/meteor-lite/conversion/meteor-arch.js` — the `MeteorArch` build-target
  inheritance tree (`getImports`, `isNoop`);
* `src/helpers/globals.js` — the AST rewriter
  (`rewriteFileForPackageGlobals`).

JavaScript collections are embedded explicitly: a JS `Map` / plain object with
string keys is an association list where assignment updates an existing key in
place (keeping its position) and otherwise appends, and a JS `Set` is a list
where `add` appends only when the element is absent.  Machine-level JS values
that matter to the claims (the `undefined` returned by `isNoop`, the
placeholder `Symbol`) are embedded as explicit constructors.
-/

namespace MeteorToNode

/-- JS `Map.prototype.set` / object property assignment on a string-keyed
object: update the existing entry in place (keeping its insertion position),
otherwise append a new entry. -/
def jsSet {α : Type} (m : List (String × α)) (k : String) (v : α) : List (String × α) :=
  if m.any (fun p => p.1 = k) then
    m.map (fun p => if p.1 = k then (k, v) else p)
  else
    m ++ [(k, v)]

/-- JS `Map.prototype.get` / object property read: value of the first (unique)
entry with the given key. -/
def jsGet {α : Type} (m : List (String × α)) (k : String) : Option α :=
  (m.find? (fun p => p.1 = k)).map (fun p => p.2)

/-- JS `Set.prototype.add`: append iff absent (insertion order preserved). -/
def setAdd (s : List String) (x : String) : List String :=
  if s.contains x then s else s ++ [x]

theorem jsGet_jsSet_self {α : Type} (m : List (String × α)) (k : String) (v : α) :
    jsGet (jsSet m k v) k = some v := by
  unfold jsSet jsGet
  by_cases h : m.any (fun p => p.1 = k)
  · rw [if_pos h]
    induction m with
    | nil => simp at h
    | cons q rest ih =>
      by_cases hq : q.1 = k
      · rw [List.map_cons, if_pos hq, List.find?_cons_of_pos _ (by simp)]
        rfl
      · rw [List.map_cons, if_neg hq, List.find?_cons_of_neg _ (by simp [hq])]
        apply ih
        simp only [List.any_cons, Bool.or_eq_true, decide_eq_true_eq] at h
        rcases h with h | h
        · exact absurd h hq
        · exact h
  · rw [if_neg h, List.find?_append]
    have hm : m.find? (fun p => p.1 = k) = none := by
      rw [List.find?_eq_none]
      intro x hx
      simp only [decide_eq_true_eq]
      intro hxk
      exact h (List.any_eq_true.mpr ⟨x, hx, by simp [hxk]⟩)
    rw [hm]
    simp [List.find?]

theorem mem_setAdd_self (s : List String) (x : String) : x ∈ setAdd s x := by
  unfold setAdd
  by_cases h : s.contains x
  · rw [if_pos h]; exact List.mem_of_elem_eq_true h
  · rw [if_neg h]; simp

theorem mem_setAdd_of_mem (s : List String) (x y : String) (h : x ∈ s) :
    x ∈ setAdd s y := by
  unfold setAdd
  by_cases hc : s.contains y
  · rwa [if_pos hc]
  · rw [if_neg hc]; exact List.mem_append_left _ h

/-!
## `MeteorPackage.setBasic` — version normalization (claim C8)

Source (`convert-meteor-package-to-npm.js`, lines 169–176):
```
    // semver doesn't support _
    this.#version = version.replace('_', '-');
```
JS `String.prototype.replace` with a *string* pattern replaces only the first
occurrence.
-/

/-- JS `s.replace(pat, repl)` with one-character string pattern and
replacement: replace the first occurrence only. -/
def jsReplaceFirst (pat repl : Char) : List Char → List Char
  | [] => []
  | c :: cs => if c = pat then repl :: cs else c :: jsReplaceFirst pat repl cs

/-- The version stored by `MeteorPackage.setBasic`:
`version.replace('_', '-')`. -/
def setBasicVersion (version : String) : String :=
  String.mk (jsReplaceFirst '_' '-' version.toList)

theorem count_jsReplaceFirst_underscore (l : List Char) (h : l.count '_' ≤ 1) :
    (jsReplaceFirst '_' '-' l).count '_' = 0 := by
  induction l with
  | nil => simp [jsReplaceFirst]
  | cons c cs ih =>
    by_cases hc : c = '_'
    · subst hc
      rw [jsReplaceFirst, if_pos rfl]
      rw [List.count_cons] at h ⊢
      have hne : (('-' : Char) == '_') = false := by decide
      rw [hne]
      simp only [beq_self_eq_true, if_pos] at h
      simp only [Bool.false_eq_true, if_false, add_zero]
      omega
    · rw [jsReplaceFirst, if_neg hc]
      have hne : (c == '_') = false := by simpa using hc
      rw [List.count_cons] at h ⊢
      rw [hne] at h ⊢
      simp only [Bool.false_eq_true, if_false, add_zero] at h ⊢
      exact ih h

/-- C8 counterexample: the claim says every underscore in the input version is
replaced, leaving none in the stored version.  `setBasic` uses
`version.replace('_', '-')`, which replaces only the first occurrence, so the
input `1_2_3` is stored as `1-2_3`, which still contains an underscore. -/
theorem c8_counterexample :
    setBasicVersion ("1_2_3") = "1-2_3" ∧
      (setBasicVersion ("1_2_3")).toList.count '_' ≠ 0 := by
  constructor
  · rfl
  · decide

/-- C8 (amended): `setBasic` replaces only the first underscore of the input
version, so the stored version is underscore-free whenever the input contains
at most one underscore (the Meteor wrap-number form `x.y.z_n`). -/
theorem c8_amended (version : String) (h : version.toList.count '_' ≤ 1) :
    (setBasicVersion version).toList.count '_' = 0 := by
  unfold setBasicVersion
  exact count_jsReplaceFirst_underscore version.toList h

/-- Witness for `c8_amended` at the concrete version `1.2.3_4`. -/
theorem c8_amended_witness :
    ("1.2.3_4" : String).toList.count '_' ≤ 1 ∧
      (setBasicVersion ("1.2.3_4")).toList.count '_' = 0 :=
  ⟨by decide, c8_amended ("1.2.3_4") (by decide)⟩

/-!
## `MeteorArch` — the build-target inheritance tree (claims C6, C9)

Source: `src/meteor-lite/conversion/meteor-arch.js`.  A node holds its own
exports/imports/assets/main-module plus a `#modified` flag and an optional
parent pointer; queries default to ancestor-merged views.  The embedding
snapshots a node as its own data plus its parent chain.
-/

/-- The own (non-inherited) data of one `MeteorArch` node. -/
structure ArchData where
  archName : String
  exports : List String
  archImports : List (String × Nat)
  assets : List String
  mainModule : Option String
  modified : Bool

/-- A `MeteorArch` node: own data plus the optional parent. -/
inductive MeteorArch where
  | mk (data : ArchData) (parentArch : Option MeteorArch)

def MeteorArch.data : MeteorArch → ArchData
  | .mk d _ => d

def MeteorArch.parentArch : MeteorArch → Option MeteorArch
  | .mk _ p => p

/-- `new MeteorArch(archName, parentArch)`: all own fields empty, not
modified. -/
def MeteorArch.new (archName : String) (parentArch : Option MeteorArch) : MeteorArch :=
  .mk { archName := archName
        exports := []
        archImports := []
        assets := []
        mainModule := none
        modified := false } parentArch

/-- `MeteorArch.addImport(item, importOrder)`: record in the own
specifier-to-order map and mark modified. -/
def MeteorArch.addImport (a : MeteorArch) (item : String) (importOrder : Nat) : MeteorArch :=
  .mk { a.data with
        archImports := jsSet a.data.archImports item importOrder
        modified := true } a.parentArch

/-- `MeteorArch.addExport(symbol)`: push on the own export list and mark
modified. -/
def MeteorArch.addExport (a : MeteorArch) (symbol : String) : MeteorArch :=
  .mk { a.data with
        exports := a.data.exports ++ [symbol]
        modified := true } a.parentArch

/-- `MeteorArch.#getImportsEntries()`: this node's own (specifier, order)
entries followed by every ancestor's, by walking the parent chain. -/
def MeteorArch.getImportsEntries : MeteorArch → List (String × Nat)
  | .mk d none => d.archImports
  | .mk d (some p) => d.archImports ++ p.getImportsEntries

/-- JS `new Set(list)` construction: insert in order, keeping first
occurrences. -/
def jsSetOfList (l : List String) : List String :=
  l.foldl setAdd []

/-- The comparator `(a, b) => a[1] - b[1]` used by `getImports`: sort entries
by ascending insertion-order index. -/
def archImportOrderLE (x y : String × Nat) : Prop := x.2 ≤ y.2

instance : DecidableRel archImportOrderLE := fun x y => Nat.decLe x.2 y.2

instance : IsTotal (String × Nat) archImportOrderLE := ⟨fun a b => Nat.le_total a.2 b.2⟩

instance : IsTrans (String × Nat) archImportOrderLE := ⟨fun _ _ _ hab hbc => Nat.le_trans hab hbc⟩

/-- `MeteorArch.getImports(justOwn)`: own keys when `justOwn`; otherwise the
merged own-plus-ancestors entries, stably sorted by order index (JS
`Array.prototype.sort` is stable; a stable sort by a total preorder is modelled
by insertion sort), deduplicated by `new Set(...)`. -/
def MeteorArch.getImports (a : MeteorArch) (justOwn : Bool) : List String :=
  if justOwn then jsSetOfList (a.data.archImports.map Prod.fst)
  else jsSetOfList ((List.insertionSort archImportOrderLE a.getImportsEntries).map Prod.fst)

/-- A JS value that is either a boolean or `undefined` (the possible results
of `isNoop`). -/
inductive JsBoolVal where
  | jsBool (b : Bool)
  | jsUndefined
deriving DecidableEq

/-- JS truthiness of a boolean-or-undefined value. -/
def truthy : JsBoolVal → Bool
  | .jsBool b => b
  | .jsUndefined => false

/-- `MeteorArch.isNoop(justOwn = true)`:
`if (!justOwn) return !this.#modified && this.parentArch?.isNoop();` —
note the recursive call passes no argument, so it uses the default
`justOwn = true`, and `parentArch?.` on a root yields `undefined`. -/
def MeteorArch.isNoop (a : MeteorArch) (justOwn : Bool) : JsBoolVal :=
  if justOwn then .jsBool (!a.data.modified)
  else if a.data.modified then .jsBool false
  else
    match a.parentArch with
    | none => .jsUndefined
    | some p => .jsBool (!p.data.modified)

/-- The claim's predicate for C9: was this node or any transitive ancestor
ever modified? -/
def MeteorArch.selfOrAncestorModified : MeteorArch → Bool
  | .mk d none => d.modified
  | .mk d (some p) => d.modified || p.selfOrAncestorModified

theorem mem_setAdd_iff (s : List String) (x y : String) :
    x ∈ setAdd s y ↔ x ∈ s ∨ x = y := by
  unfold setAdd
  by_cases h : s.contains y
  · rw [if_pos h]
    have hy : y ∈ s := List.mem_of_elem_eq_true h
    constructor
    · exact Or.inl
    · rintro (hx | rfl)
      · exact hx
      · exact hy
  · rw [if_neg h]
    simp [List.mem_append]

theorem mem_jsSetOfList_aux (l init : List String) (x : String) :
    x ∈ l.foldl setAdd init ↔ x ∈ init ∨ x ∈ l := by
  induction l generalizing init with
  | nil => simp
  | cons a as ih =>
    rw [List.foldl_cons, ih, mem_setAdd_iff]
    simp only [List.mem_cons]
    tauto

theorem mem_jsSetOfList (l : List String) (x : String) :
    x ∈ jsSetOfList l ↔ x ∈ l := by
  unfold jsSetOfList
  rw [mem_jsSetOfList_aux]
  simp

/-- Concrete parent architecture with imports `a` (order 0) and `b`
(order 1). -/
def c6Parent : MeteorArch :=
  ((MeteorArch.new ("server") none).addImport ("a") 0).addImport ("b") 1

/-- Concrete child architecture with import `c` (order 2). -/
def c6Child : MeteorArch :=
  (MeteorArch.new ("child") (some c6Parent)).addImport ("c") 2

/-- C6: `getImports` without the own-only flag merges this node's entries with
every ancestor's and returns the specifiers sorted by insertion-order index:
the sorted entry list is ordered by index, is a permutation of the merged
own-plus-ancestor entries, the returned specifiers are exactly those of the
merged entries, and for parent imports `[a, b]` (orders 0, 1) and child import
`[c]` (order 2) the child's inherited sequence is `[a, b, c]`. -/
theorem c6_getImports_merges_and_sorts :
    (∀ a : MeteorArch,
        List.Sorted archImportOrderLE
          (List.insertionSort archImportOrderLE a.getImportsEntries)) ∧
    (∀ a : MeteorArch,
        (List.insertionSort archImportOrderLE a.getImportsEntries).Perm
          a.getImportsEntries) ∧
    (∀ (a : MeteorArch) (s : String),
        s ∈ a.getImports false ↔ ∃ o : Nat, (s, o) ∈ a.getImportsEntries) ∧
    c6Child.getImports false = ["a", "b", "c"] := by
  refine ⟨fun a => List.sorted_insertionSort _ _,
    fun a => List.perm_insertionSort _ _, fun a s => ?_, by decide⟩
  unfold MeteorArch.getImports
  rw [if_neg (by simp)]
  rw [mem_jsSetOfList]
  constructor
  · intro hs
    rcases List.mem_map.mp hs with ⟨⟨s1, o⟩, hmem, hfst⟩
    cases hfst
    exact ⟨o, (List.perm_insertionSort archImportOrderLE _).mem_iff.mp hmem⟩
  · rintro ⟨o, ho⟩
    exact List.mem_map.mpr ⟨(s, o),
      (List.perm_insertionSort archImportOrderLE _).mem_iff.mpr ho, rfl⟩

/-- Concrete three-level chain for C9: the root is modified, the middle and
leaf nodes are not. -/
def c9Root : MeteorArch := (MeteorArch.new ("server") none).addExport ("G")

/-- Middle node (unmodified) whose parent is the modified root. -/
def c9Mid : MeteorArch := MeteorArch.new ("mid") (some c9Root)

/-- Leaf node (unmodified) whose parent is the unmodified middle node. -/
def c9Leaf : MeteorArch := MeteorArch.new ("leaf") (some c9Mid)

/-- Unmodified root node with no parent. -/
def c9Lone : MeteorArch := MeteorArch.new ("client") none

/-- C9 counterexample: the claim says `isNoop(false)` is true exactly when
neither the node nor any transitive ancestor was modified.  On a leaf whose
grandparent is modified the call returns `true` (the recursion consults only
the immediate parent, because `parentArch?.isNoop()` uses the `justOwn = true`
default), and on an unmodified root it returns `undefined` (falsy) rather than
`true`. -/
theorem c9_counterexample :
    truthy (c9Leaf.isNoop false) ≠ (!c9Leaf.selfOrAncestorModified) ∧
      truthy (c9Lone.isNoop false) ≠ (!c9Lone.selfOrAncestorModified) := by
  decide

/-- C9 (amended): `isNoop` with `justOwn = false` is truthy exactly when the
node is unmodified, has a parent, and that immediate parent is unmodified:
deeper ancestors are never consulted (the recursive call uses the default
`justOwn = true`), and on a root the result is `undefined` or `false`, never
truthy. -/
theorem c9_amended (a : MeteorArch) :
    truthy (a.isNoop false) =
      (!a.data.modified &&
        (match a.parentArch with
          | none => false
          | some p => !p.data.modified)) := by
  unfold MeteorArch.isNoop
  rw [if_neg (by simp)]
  by_cases hm : a.data.modified
  · rw [if_pos hm, hm]
    simp [truthy]
  · rw [if_neg hm]
    cases hp : a.parentArch with
    | none => simp [truthy, Bool.eq_false_iff.mpr hm]
    | some p => simp [truthy, Bool.eq_false_iff.mpr hm]

/-!
## `MeteorPackage` — the conversion state machine
Source: `src/meteor-lite/convert-meteor-package-to-npm.js`.
-/

/-- A value stored in a dependency map: the internal placeholder sentinel
(`meteorVersionPlaceholderSymbol`), a concrete version string, or JS
`undefined` (possible in `toJSON` output when a looked-up package has no
version yet). -/
inductive DepValue where
  | placeholder
  | str (v : String)
  | undefinedValue
deriving DecidableEq, Repr

/-- The `commonJS` set: packages emitted in the legacy-interop dialect. -/
def commonJS : List String :=
  ["jquery", "underscore", "momentjs:moment", "softwarerero:accounts-t9n"]

/-- The `excludes` set: build-tool pseudo-packages skipped everywhere. -/
def excludes : List String :=
  ["ecmascript", "typescript", "modules", "less", "minifiers",
   "isobuild:compiler-plugin", "isobuild:dynamic-import",
   "ecmascript-runtime-client", "ecmascript-runtime-server",
   "isobuild:minifier-plugin", "standard-minifier-css",
   "standard-minifier-js", "hot-module-replacement"]

def meteorNodeName : String := "@meteor/meteor"

def meteorNameStr : String := "meteor"

/-- The mutable private state of one `MeteorPackage` instance. -/
structure MeteorPackageState where
  meteorName : String
  nodeName : Option String
  version : Option String
  description : Option String
  dependencies : List (String × DepValue)
  peerDependencies : List (String × DepValue)
  optionalDependencies : List (String × DepValue)
  serverJsExports : List String
  clientJsExports : List String
  clientJsImports : List String
  serverJsImports : List String
  impliedClientPackages : List String
  impliedServerPackages : List String
  allPackages : List String
  immediateDependencies : List String
  clientAssets : List String
  serverAssets : List String
deriving DecidableEq, Repr

/-- `new MeteorPackage(meteorName)`: every collection starts empty and
`#nodeName` / `#version` are still `undefined`. -/
def freshPackage (meteorName : String) : MeteorPackageState :=
  { meteorName := meteorName
    nodeName := none
    version := none
    description := none
    dependencies := []
    peerDependencies := []
    optionalDependencies := []
    serverJsExports := []
    clientJsExports := []
    clientJsImports := []
    serverJsImports := []
    impliedClientPackages := []
    impliedServerPackages := []
    allPackages := []
    immediateDependencies := []
    clientAssets := []
    serverAssets := [] }

/-- `MeteorPackage.isCommon()`. -/
def MeteorPackageState.isCommon (p : MeteorPackageState) : Bool :=
  commonJS.contains p.meteorName

/-- JS `String.prototype.split` with a one-character separator, over the
character list: zero-length pieces are kept, and the empty string splits to
one empty piece. -/
def splitOnChar (sep : Char) : List Char → List (List Char)
  | [] => [[]]
  | c :: cs =>
    if c = sep then [] :: splitOnChar sep cs
    else
      match splitOnChar sep cs with
      | [] => [[c]]
      | hd :: tl => (c :: hd) :: tl

/-- JS `s.split(sep)` for a one-character separator string. -/
def jsSplit (s : String) (sep : Char) : List String :=
  (splitOnChar sep s.toList).map (fun l => String.mk l)

/-- JS `s.startsWith(pre)`, computed on the character lists. -/
def jsStartsWith (s pre : String) : Bool :=
  pre.toList.isPrefixOf s.toList

/-- Modelled from the spec: `meteorNameToNodeName` lives in
`meteor-lite/helpers/helpers.js`, which is not among the provided sources.
Per the spec's target-ecosystem naming scheme — and as the inverse of
`nodeNameToMeteorName` below, which is in the sources — `org:pkg` maps to
`@org/pkg` and a plain core name `pkg` maps to `@meteor/pkg`. -/
def meteorNameToNodeName (name : String) : String :=
  if (jsSplit name ':').length > 1 then
    "@" ++ String.intercalate ("/") (jsSplit name ':')
  else
    "@meteor/" ++ name

/-- `MeteorPackage.nodeNameToMeteorName` (lines 158–163): `@meteor/x` maps to
`x` (`name.split('/')[1]`); any other `@org/p...` drops the `@` and joins the
path with `:`. -/
def nodeNameToMeteorName (name : String) : String :=
  if jsStartsWith name ("@meteor/") then
    (jsSplit name '/').getD 1 ""
  else
    String.intercalate (":") (jsSplit (name.drop 1) '/')

/-- `MeteorPackage.addImport(item, archs)`: add to the server import set when
`archs` is empty/absent or contains `server`, and to the client import set
when it is empty/absent or contains `client` / `web` / `web.browser`. -/
def MeteorPackageState.addImport (p : MeteorPackageState) (item : String)
    (archs : List String) : MeteorPackageState :=
  let p1 :=
    if archs.isEmpty || archs.contains ("server") then
      { p with serverJsImports := setAdd p.serverJsImports item }
    else p
  if archs.isEmpty || archs.contains ("client") || archs.contains ("web")
      || archs.contains ("web.browser") then
    { p1 with clientJsImports := setAdd p1.clientJsImports item }
  else p1

/-- The `opts` bag of `addMeteorDependencies`. -/
structure DepOpts where
  unordered : Bool
  weak : Bool
deriving DecidableEq, Repr

/-- Which dependency object the local `deps` alias points at:
`peerDependencies` when `opts?.unordered`, `optionalDependencies` when
`opts?.weak`, else `dependencies`. -/
inductive DepTarget where
  | strong
  | peer
  | optionalDeps
deriving DecidableEq

def targetOf (opts : DepOpts) : DepTarget :=
  if opts.unordered then .peer else if opts.weak then .optionalDeps else .strong

/-- Assignment `deps[nodeName] = value` through the selected alias. -/
def MeteorPackageState.setDep (p : MeteorPackageState) (t : DepTarget)
    (k : String) (v : DepValue) : MeteorPackageState :=
  match t with
  | .strong => { p with dependencies := jsSet p.dependencies k v }
  | .peer => { p with peerDependencies := jsSet p.peerDependencies k v }
  | .optionalDeps => { p with optionalDependencies := jsSet p.optionalDependencies k v }

/-- The body of the `packages.forEach((dep) => ...)` loop of
`addMeteorDependencies` for one declared dependency string. -/
def addOneMeteorDep (opts : DepOpts) (archs : List String)
    (p : MeteorPackageState) (dep : String) : MeteorPackageState :=
  let name := (jsSplit dep '@').headD ""
  if excludes.contains name then p
  else
    let p1 := if !opts.weak then { p with allPackages := setAdd p.allPackages name } else p
    let nodeName := meteorNameToNodeName name
    let p2 := p1.setDep (targetOf opts) nodeName DepValue.placeholder
    if !opts.unordered && !opts.weak then
      let p3 := p2.addImport nodeName archs
      { p3 with immediateDependencies := setAdd p3.immediateDependencies name }
    else p2

/-- The `qualia:` Mongo hack at the top of `addMeteorDependencies` (lines
214–222). -/
def qualiaStep (p : MeteorPackageState) : MeteorPackageState :=
  if jsStartsWith p.meteorName ("qualia:") then
    let pa :=
      { p with
        dependencies := jsSet p.dependencies ("@meteor/mongo") DepValue.placeholder
        allPackages := setAdd p.allPackages ("mongo")
        immediateDependencies := setAdd p.immediateDependencies ("mongo") }
    if !pa.isCommon then pa.addImport ("@meteor/mongo") ["client", "server"] else pa
  else p

/-- The unconditional `@meteor/meteor` auto-dependency step of
`addMeteorDependencies` (lines 223–234), applied to every package whose
`#nodeName` is not `@meteor/meteor`. -/
def meteorAutoStep (p : MeteorPackageState) : MeteorPackageState :=
  if p.nodeName ≠ some meteorNodeName then
    let pb :=
      { p with
        dependencies := jsSet p.dependencies meteorNodeName DepValue.placeholder
        allPackages := setAdd p.allPackages meteorNameStr
        immediateDependencies := setAdd p.immediateDependencies meteorNameStr }
    if !pb.isCommon then pb.addImport meteorNodeName ["client", "server"] else pb
  else p

/-- `MeteorPackage.addMeteorDependencies(packages, archs, opts)` (lines
213–261): the `qualia:` Mongo hack, the unconditional `@meteor/meteor`
auto-dependency for every package other than `@meteor/meteor` itself, then the
per-dependency loop writing through the `deps` alias. -/
def MeteorPackageState.addMeteorDependencies (p : MeteorPackageState)
    (packages : List String) (archs : List String) (opts : DepOpts) : MeteorPackageState :=
  packages.foldl (addOneMeteorDep opts archs) (meteorAutoStep (qualiaStep p))

/-- The manifest object produced by `MeteorPackage.toJSON` (the fields the
claims are about; the conditional-export map is a fixed shape determined by
`typeIsCommonJs`). -/
structure PackageJson where
  name : Option String
  version : Option String
  description : Option String
  dependencies : List (String × DepValue)
  peerDependencies : List (String × DepValue)
  optionalDependencies : List (String × DepValue)
  exportedVarsServer : List String
  exportedVarsClient : List String
  assetsClient : List String
  assetsServer : List String
  typeIsCommonJs : Bool
  impliesClient : List String
  impliesServer : List String
deriving DecidableEq, Repr

/-- The process-wide `packageMap` registry used by `toJSON` and
`getImportedGlobalsMaps` to look up other loaded units. -/
def lookupPackage (pm : List (String × MeteorPackageState)) (n : String) :
    Option MeteorPackageState :=
  jsGet pm n

/-- Reading `importedPackage.#version` in `toJSON`: a missing version is JS
`undefined`. -/
def depValueOfVersion : Option String → DepValue
  | some v => DepValue.str v
  | none => DepValue.undefinedValue

/-- The `Object.entries(this.#dependencies).map(...)` loop of `toJSON`:
placeholders are replaced by the looked-up package's own version, a missing
package throws. -/
def resolveDeps (pm : List (String × MeteorPackageState)) :
    List (String × DepValue) → Except String (List (String × DepValue))
  | [] => Except.ok []
  | (k, DepValue.placeholder) :: rest =>
    match lookupPackage pm (nodeNameToMeteorName k) with
    | none => Except.error ("depending on missing package " ++ nodeNameToMeteorName k)
    | some ip => (resolveDeps pm rest).map (fun r => (k, depValueOfVersion ip.version) :: r)
  | (k, v) :: rest => (resolveDeps pm rest).map (fun r => (k, v) :: r)

/-- `MeteorPackage.toJSON()` (lines 296–343): resolve the required-dependency
placeholders, pass `peerDependencies` and `optionalDependencies` through
unchanged, and assemble the manifest. -/
def MeteorPackageState.toJSON (pm : List (String × MeteorPackageState))
    (p : MeteorPackageState) : Except String PackageJson :=
  match resolveDeps pm p.dependencies with
  | Except.error e => Except.error e
  | Except.ok newDependencies =>
    Except.ok
      { name := p.nodeName
        version := p.version
        description := p.description
        dependencies := newDependencies
        peerDependencies := p.peerDependencies
        optionalDependencies := p.optionalDependencies
        exportedVarsServer := p.serverJsExports
        exportedVarsClient := p.clientJsExports
        assetsClient := p.clientAssets
        assetsServer := p.serverAssets
        typeIsCommonJs := commonJS.contains p.meteorName
        impliesClient := p.impliedClientPackages
        impliesServer := p.impliedServerPackages }

/-!
## `sortImports` / `getImportStr` — the entry-wrapper import lines (claim C7)
Source lines 42–69.  The JS comparator returns a negative number exactly when
the first specifier is absolute (starts with `@` or `/`) and the second is
not, and `0` otherwise; `Array.prototype.sort` is stable, so the sort is the
stable absolute-first partition, modelled by a stable insertion sort on the
two-valued rank.
-/

/-- `a.match(/^[@\/]/)`: does the specifier start with `@` or `/`? -/
def isAbsoluteSpecifier (s : String) : Bool :=
  jsStartsWith s ("@") || jsStartsWith s ("/")

/-- Comparator rank: absolute specifiers sort before relative ones. -/
def specifierRank (s : String) : Nat :=
  if isAbsoluteSpecifier s then 0 else 1

def specifierOrderLE (a b : String) : Prop := specifierRank a ≤ specifierRank b

instance : DecidableRel specifierOrderLE := fun a b => Nat.decLe _ _

instance : IsTotal String specifierOrderLE := ⟨fun a b => Nat.le_total _ _⟩

instance : IsTrans String specifierOrderLE := ⟨fun _ _ _ hab hbc => Nat.le_trans hab hbc⟩

/-- `sortImports(imports)`: stable sort whose comparator puts absolute
specifiers first and otherwise keeps declaration order. -/
def sortImports (l : List String) : List String :=
  List.insertionSort specifierOrderLE l

/-- `getImportStr(importsSet, isCommon)`: one `require("...")` line per import
for legacy-interop packages, one `import "..."` line otherwise, in
`sortImports` order. -/
def getImportStr (importsSet : List String) (isCommon : Bool) : String :=
  if isCommon then
    String.intercalate ("\n")
      ((sortImports importsSet).map (fun imp => "require(\"" ++ imp ++ "\");"))
  else
    String.intercalate ("\n")
      ((sortImports importsSet).map (fun imp => "import \"" ++ imp ++ "\";"))

theorem jsGet_jsSet_ne {α : Type} (m : List (String × α)) (k k' : String) (v : α)
    (hne : k' ≠ k) : jsGet (jsSet m k' v) k = jsGet m k := by
  unfold jsSet jsGet
  by_cases h : m.any (fun p => p.1 = k')
  · rw [if_pos h]
    clear h
    induction m with
    | nil => simp
    | cons q rest ih =>
      by_cases hq : q.1 = k'
      · rw [List.map_cons, if_pos hq]
        rw [List.find?_cons_of_neg _ (by simp [hne]),
          List.find?_cons_of_neg _ (by simp [hq, hne])]
        exact ih
      · rw [List.map_cons, if_neg hq]
        by_cases hqk : q.1 = k
        · rw [List.find?_cons_of_pos _ (by simp [hqk]),
            List.find?_cons_of_pos _ (by simp [hqk])]
        · rw [List.find?_cons_of_neg _ (by simp [hqk]),
            List.find?_cons_of_neg _ (by simp [hqk])]
          exact ih
  · rw [if_neg h, List.find?_append]
    have hone : List.find? (fun p => p.1 = k) [(k', v)] = none := by
      simp [List.find?, hne]
    rw [hone, Option.or_none]

theorem addImport_meteorName (p : MeteorPackageState) (item : String) (archs : List String) :
    (p.addImport item archs).meteorName = p.meteorName := by
  simp only [MeteorPackageState.addImport]
  split_ifs <;> rfl

theorem addImport_nodeName (p : MeteorPackageState) (item : String) (archs : List String) :
    (p.addImport item archs).nodeName = p.nodeName := by
  simp only [MeteorPackageState.addImport]
  split_ifs <;> rfl

theorem addImport_dependencies (p : MeteorPackageState) (item : String) (archs : List String) :
    (p.addImport item archs).dependencies = p.dependencies := by
  simp only [MeteorPackageState.addImport]
  split_ifs <;> rfl

theorem addImport_allPackages (p : MeteorPackageState) (item : String) (archs : List String) :
    (p.addImport item archs).allPackages = p.allPackages := by
  simp only [MeteorPackageState.addImport]
  split_ifs <;> rfl

theorem addImport_immediate (p : MeteorPackageState) (item : String) (archs : List String) :
    (p.addImport item archs).immediateDependencies = p.immediateDependencies := by
  simp only [MeteorPackageState.addImport]
  split_ifs <;> rfl

theorem mem_addImport_server (p : MeteorPackageState) (item : String) (archs : List String)
    (x : String) (h : x ∈ p.serverJsImports) : x ∈ (p.addImport item archs).serverJsImports := by
  simp only [MeteorPackageState.addImport]
  split_ifs <;> first
    | exact mem_setAdd_of_mem _ _ _ h
    | exact h

theorem mem_addImport_client (p : MeteorPackageState) (item : String) (archs : List String)
    (x : String) (h : x ∈ p.clientJsImports) : x ∈ (p.addImport item archs).clientJsImports := by
  simp only [MeteorPackageState.addImport]
  split_ifs <;> first
    | exact mem_setAdd_of_mem _ _ _ h
    | exact h

theorem addImport_cs_self_server (p : MeteorPackageState) (item : String) :
    item ∈ (p.addImport item ["client", "server"]).serverJsImports := by
  simp only [MeteorPackageState.addImport]
  rw [if_pos (by decide), if_pos (by decide)]
  exact mem_setAdd_self _ _

theorem addImport_cs_self_client (p : MeteorPackageState) (item : String) :
    item ∈ (p.addImport item ["client", "server"]).clientJsImports := by
  simp only [MeteorPackageState.addImport]
  rw [if_pos (by decide), if_pos (by decide)]
  exact mem_setAdd_self _ _

theorem setDep_meteorName (p : MeteorPackageState) (t : DepTarget) (k : String) (v : DepValue) :
    (p.setDep t k v).meteorName = p.meteorName := by
  cases t <;> rfl

theorem setDep_allPackages (p : MeteorPackageState) (t : DepTarget) (k : String) (v : DepValue) :
    (p.setDep t k v).allPackages = p.allPackages := by
  cases t <;> rfl

theorem setDep_immediate (p : MeteorPackageState) (t : DepTarget) (k : String) (v : DepValue) :
    (p.setDep t k v).immediateDependencies = p.immediateDependencies := by
  cases t <;> rfl

theorem setDep_server (p : MeteorPackageState) (t : DepTarget) (k : String) (v : DepValue) :
    (p.setDep t k v).serverJsImports = p.serverJsImports := by
  cases t <;> rfl

theorem setDep_client (p : MeteorPackageState) (t : DepTarget) (k : String) (v : DepValue) :
    (p.setDep t k v).clientJsImports = p.clientJsImports := by
  cases t <;> rfl

theorem setDep_placeholder_get (p : MeteorPackageState) (t : DepTarget) (k : String)
    (h : jsGet p.dependencies meteorNodeName = some DepValue.placeholder) :
    jsGet (p.setDep t k DepValue.placeholder).dependencies meteorNodeName
      = some DepValue.placeholder := by
  cases t with
  | strong =>
    show jsGet (jsSet p.dependencies k DepValue.placeholder) meteorNodeName
      = some DepValue.placeholder
    by_cases hk : k = meteorNodeName
    · subst hk
      exact jsGet_jsSet_self _ _ _
    · rw [jsGet_jsSet_ne _ _ _ _ hk]
      exact h
  | peer => exact h
  | optionalDeps => exact h

/-- The per-dependency loop body preserves the facts established by the
`@meteor/meteor` auto-add step. -/
theorem addOneMeteorDep_preserves (opts : DepOpts) (archs : List String)
    (p : MeteorPackageState) (dep : String)
    (h1 : jsGet p.dependencies meteorNodeName = some DepValue.placeholder)
    (h2 : meteorNameStr ∈ p.allPackages)
    (h3 : meteorNameStr ∈ p.immediateDependencies)
    (h4 : ∀ x, x ∈ p.serverJsImports → x ∈ p.serverJsImports)
    (h5 : ∀ x, x ∈ p.clientJsImports → x ∈ p.clientJsImports) :
    jsGet (addOneMeteorDep opts archs p dep).dependencies meteorNodeName
        = some DepValue.placeholder ∧
      meteorNameStr ∈ (addOneMeteorDep opts archs p dep).allPackages ∧
      meteorNameStr ∈ (addOneMeteorDep opts archs p dep).immediateDependencies ∧
      (∀ x, x ∈ p.serverJsImports → x ∈ (addOneMeteorDep opts archs p dep).serverJsImports) ∧
      (∀ x, x ∈ p.clientJsImports → x ∈ (addOneMeteorDep opts archs p dep).clientJsImports) := by
  clear h4 h5
  simp only [addOneMeteorDep]
  by_cases hexc : excludes.contains ((jsSplit dep '@').headD "") = true
  · rw [if_pos hexc]
    exact ⟨h1, h2, h3, fun _ hx => hx, fun _ hx => hx⟩
  · rw [if_neg hexc]
    obtain ⟨u, w⟩ := opts
    cases u <;> cases w <;>
      simp only [Bool.not_true, Bool.not_false, Bool.and_true, Bool.and_false,
        Bool.and_self, Bool.true_and, Bool.false_and, eq_self_iff_true,
        Bool.false_eq_true, ite_true, ite_false] <;>
      refine ⟨?_, ?_, ?_, fun x hx => ?_, fun x hx => ?_⟩
    · rw [addImport_dependencies]
      exact setDep_placeholder_get _ _ _ h1
    · rw [addImport_allPackages, setDep_allPackages]
      exact mem_setAdd_of_mem _ _ _ h2
    · refine mem_setAdd_of_mem _ _ _ ?_
      rw [addImport_immediate, setDep_immediate]
      exact h3
    · apply mem_addImport_server
      rw [setDep_server]
      exact hx
    · apply mem_addImport_client
      rw [setDep_client]
      exact hx
    · exact setDep_placeholder_get _ _ _ h1
    · rw [setDep_allPackages]
      exact h2
    · rw [setDep_immediate]
      exact h3
    · rw [setDep_server]
      exact hx
    · rw [setDep_client]
      exact hx
    · exact setDep_placeholder_get _ _ _ h1
    · rw [setDep_allPackages]
      exact mem_setAdd_of_mem _ _ _ h2
    · rw [setDep_immediate]
      exact h3
    · rw [setDep_server]
      exact hx
    · rw [setDep_client]
      exact hx
    · exact setDep_placeholder_get _ _ _ h1
    · rw [setDep_allPackages]
      exact h2
    · rw [setDep_immediate]
      exact h3
    · rw [setDep_server]
      exact hx
    · rw [setDep_client]
      exact hx

theorem qualiaStep_meteorName (p : MeteorPackageState) :
    (qualiaStep p).meteorName = p.meteorName := by
  simp only [qualiaStep]
  split_ifs <;> first | rfl | rw [addImport_meteorName]

theorem qualiaStep_nodeName (p : MeteorPackageState) :
    (qualiaStep p).nodeName = p.nodeName := by
  simp only [qualiaStep]
  split_ifs <;> first | rfl | rw [addImport_nodeName]

theorem qualiaStep_isCommon (p : MeteorPackageState) :
    (qualiaStep p).isCommon = p.isCommon := by
  unfold MeteorPackageState.isCommon
  rw [qualiaStep_meteorName]

/-- The `@meteor/meteor` auto-add step establishes every fact the C10 claim
asserts. -/
theorem meteorAutoStep_establishes (p : MeteorPackageState)
    (h : p.nodeName ≠ some meteorNodeName) :
    jsGet (meteorAutoStep p).dependencies meteorNodeName = some DepValue.placeholder ∧
      meteorNameStr ∈ (meteorAutoStep p).allPackages ∧
      meteorNameStr ∈ (meteorAutoStep p).immediateDependencies ∧
      (p.isCommon = false →
        meteorNodeName ∈ (meteorAutoStep p).serverJsImports ∧
        meteorNodeName ∈ (meteorAutoStep p).clientJsImports) := by
  simp only [meteorAutoStep]
  rw [if_pos h]
  by_cases hc : p.isCommon
  · rw [if_neg (by simp [MeteorPackageState.isCommon] at hc ⊢; exact hc)]
    refine ⟨jsGet_jsSet_self _ _ _, mem_setAdd_self _ _, mem_setAdd_self _ _, ?_⟩
    intro hfalse
    rw [hc] at hfalse
    cases hfalse
  · rw [if_pos (by simp [MeteorPackageState.isCommon] at hc ⊢; exact hc)]
    refine ⟨?_, ?_, ?_, fun _ => ⟨addImport_cs_self_server _ _, addImport_cs_self_client _ _⟩⟩
    · rw [addImport_dependencies]
      exact jsGet_jsSet_self _ _ _
    · rw [addImport_allPackages]
      exact mem_setAdd_self _ _
    · rw [addImport_immediate]
      exact mem_setAdd_self _ _

theorem foldl_addOne_preserves {P : MeteorPackageState → Prop} (opts : DepOpts)
    (archs : List String)
    (hstep : ∀ q dep, P q → P (addOneMeteorDep opts archs q dep)) :
    ∀ (l : List String) (q : MeteorPackageState), P q → P (l.foldl (addOneMeteorDep opts archs) q)
  | [], _, hq => hq
  | d :: tl, q, hq =>
    foldl_addOne_preserves opts archs hstep tl (addOneMeteorDep opts archs q d) (hstep q d hq)

/-- C10: for every package unit whose node name is not `@meteor/meteor`, any
`addMeteorDependencies` call (whatever the declared packages, archs and opts)
adds `@meteor/meteor` to the dependency map as a placeholder, adds `meteor` to
the all-packages set and to the immediate strong-dependency set, and — for
non-commonJS packages — adds an `@meteor/meteor` import on both the client
and the server architecture. -/
theorem c10_auto_meteor_dependency (p : MeteorPackageState)
    (packages archs : List String) (opts : DepOpts)
    (h : p.nodeName ≠ some meteorNodeName) :
    jsGet (p.addMeteorDependencies packages archs opts).dependencies meteorNodeName
        = some DepValue.placeholder ∧
      meteorNameStr ∈ (p.addMeteorDependencies packages archs opts).allPackages ∧
      meteorNameStr ∈ (p.addMeteorDependencies packages archs opts).immediateDependencies ∧
      (p.isCommon = false →
        meteorNodeName ∈ (p.addMeteorDependencies packages archs opts).serverJsImports ∧
        meteorNodeName ∈ (p.addMeteorDependencies packages archs opts).clientJsImports) := by
  have hq : (qualiaStep p).nodeName ≠ some meteorNodeName := by
    rw [qualiaStep_nodeName]
    exact h
  have hbase := meteorAutoStep_establishes (qualiaStep p) hq
  rw [qualiaStep_isCommon] at hbase
  unfold MeteorPackageState.addMeteorDependencies
  refine foldl_addOne_preserves (P := fun s =>
      jsGet s.dependencies meteorNodeName = some DepValue.placeholder ∧
        meteorNameStr ∈ s.allPackages ∧
        meteorNameStr ∈ s.immediateDependencies ∧
        (p.isCommon = false →
          meteorNodeName ∈ s.serverJsImports ∧ meteorNodeName ∈ s.clientJsImports))
    opts archs ?_ packages (meteorAutoStep (qualiaStep p)) hbase
  intro q dep hP
  have hstep := addOneMeteorDep_preserves opts archs q dep hP.1 hP.2.1 hP.2.2.1
    (fun _ hx => hx) (fun _ hx => hx)
  refine ⟨hstep.1, hstep.2.1, hstep.2.2.1, ?_⟩
  intro hcom
  obtain ⟨hs, hc⟩ := hP.2.2.2 hcom
  exact ⟨hstep.2.2.2.1 _ hs, hstep.2.2.2.2 _ hc⟩

/-- Witness for `c10_auto_meteor_dependency`: a freshly constructed package
`foo` (node name still unset) with one declared dependency that is not
`@meteor/meteor`. -/
theorem c10_auto_meteor_dependency_witness :
    (freshPackage ("foo")).nodeName ≠ some meteorNodeName ∧
      (jsGet ((freshPackage ("foo")).addMeteorDependencies ["blaze"] []
            { unordered := false, weak := false }).dependencies meteorNodeName
          = some DepValue.placeholder ∧
        meteorNameStr ∈ ((freshPackage ("foo")).addMeteorDependencies ["blaze"] []
            { unordered := false, weak := false }).allPackages ∧
        meteorNameStr ∈ ((freshPackage ("foo")).addMeteorDependencies ["blaze"] []
            { unordered := false, weak := false }).immediateDependencies ∧
        ((freshPackage ("foo")).isCommon = false →
          meteorNodeName ∈ ((freshPackage ("foo")).addMeteorDependencies ["blaze"] []
              { unordered := false, weak := false }).serverJsImports ∧
          meteorNodeName ∈ ((freshPackage ("foo")).addMeteorDependencies ["blaze"] []
              { unordered := false, weak := false }).clientJsImports)) :=
  ⟨by decide,
    c10_auto_meteor_dependency (freshPackage ("foo")) ["blaze"] []
      { unordered := false, weak := false } (by decide)⟩

theorem depValueOfVersion_ne_placeholder (v : Option String) :
    depValueOfVersion v ≠ DepValue.placeholder := by
  cases v <;> simp [depValueOfVersion]

theorem resolveDeps_ok_no_placeholder (pm : List (String × MeteorPackageState))
    (deps r : List (String × DepValue)) (h : resolveDeps pm deps = Except.ok r) :
    ∀ e ∈ r, e.2 ≠ DepValue.placeholder := by
  induction deps generalizing r with
  | nil =>
    simp only [resolveDeps] at h
    injection h with h
    subst h
    intro e he
    cases he
  | cons hd tl ih =>
    obtain ⟨k, v⟩ := hd
    cases v with
    | placeholder =>
      simp only [resolveDeps] at h
      cases hlk : lookupPackage pm (nodeNameToMeteorName k) with
      | none =>
        rw [hlk] at h
        cases h
      | some ip =>
        rw [hlk] at h
        cases hr : resolveDeps pm tl with
        | error e =>
          rw [hr] at h
          cases h
        | ok r' =>
          rw [hr] at h
          injection h with h
          subst h
          intro e he
          rcases List.mem_cons.mp he with he | he
          · subst he
            exact depValueOfVersion_ne_placeholder _
          · exact ih r' hr e he
    | str s =>
      simp only [resolveDeps] at h
      cases hr : resolveDeps pm tl with
      | error e =>
        rw [hr] at h
        cases h
      | ok r' =>
        rw [hr] at h
        injection h with h
        subst h
        intro e he
        rcases List.mem_cons.mp he with he | he
        · subst he
          simp
        · exact ih r' hr e he
    | undefinedValue =>
      simp only [resolveDeps] at h
      cases hr : resolveDeps pm tl with
      | error e =>
        rw [hr] at h
        cases h
      | ok r' =>
        rw [hr] at h
        injection h with h
        subst h
        intro e he
        rcases List.mem_cons.mp he with he | he
        · subst he
          simp
        · exact ih r' hr e he

theorem resolveDeps_ok_resolves (pm : List (String × MeteorPackageState))
    (deps r : List (String × DepValue)) (h : resolveDeps pm deps = Except.ok r)
    (k : String) (hk : (k, DepValue.placeholder) ∈ deps) :
    ∃ ip, lookupPackage pm (nodeNameToMeteorName k) = some ip ∧
      (k, depValueOfVersion ip.version) ∈ r := by
  induction deps generalizing r with
  | nil => cases hk
  | cons hd tl ih =>
    obtain ⟨k', v'⟩ := hd
    cases v' with
    | placeholder =>
      simp only [resolveDeps] at h
      cases hlk : lookupPackage pm (nodeNameToMeteorName k') with
      | none =>
        rw [hlk] at h
        cases h
      | some ip =>
        rw [hlk] at h
        cases hr : resolveDeps pm tl with
        | error e =>
          rw [hr] at h
          cases h
        | ok r' =>
          rw [hr] at h
          injection h with h
          subst h
          rcases List.mem_cons.mp hk with hk | hk
          · obtain ⟨hk1, _⟩ := Prod.mk.injEq .. ▸ hk
            injection hk with hk1 hk2
            subst hk1
            exact ⟨ip, hlk, List.mem_cons_self _ _⟩
          · obtain ⟨ip', hip1, hip2⟩ := ih r' hr hk
            exact ⟨ip', hip1, List.mem_cons_of_mem _ hip2⟩
    | str s =>
      simp only [resolveDeps] at h
      cases hr : resolveDeps pm tl with
      | error e =>
        rw [hr] at h
        cases h
      | ok r' =>
        rw [hr] at h
        injection h with h
        subst h
        rcases List.mem_cons.mp hk with hk | hk
        · cases hk
        · obtain ⟨ip', hip1, hip2⟩ := ih r' hr hk
          exact ⟨ip', hip1, List.mem_cons_of_mem _ hip2⟩
    | undefinedValue =>
      simp only [resolveDeps] at h
      cases hr : resolveDeps pm tl with
      | error e =>
        rw [hr] at h
        cases h
      | ok r' =>
        rw [hr] at h
        injection h with h
        subst h
        rcases List.mem_cons.mp hk with hk | hk
        · cases hk
        · obtain ⟨ip', hip1, hip2⟩ := ih r' hr hk
          exact ⟨ip', hip1, List.mem_cons_of_mem _ hip2⟩

theorem toJSON_ok_dependencies (pm : List (String × MeteorPackageState))
    (p : MeteorPackageState) (m : PackageJson)
    (h : MeteorPackageState.toJSON pm p = Except.ok m) :
    resolveDeps pm p.dependencies = Except.ok m.dependencies := by
  unfold MeteorPackageState.toJSON at h
  cases hr : resolveDeps pm p.dependencies with
  | error e =>
    rw [hr] at h
    cases h
  | ok r =>
    rw [hr] at h
    injection h with h
    rw [← h]

/-- C2 (amended): when `toJSON` succeeds, the *required*-dependency map of the
manifest never contains the placeholder sentinel, and every placeholder entry
of the unit's dependency map is resolved by looking up the loaded dependency's
own version; the peer and optional maps, by contrast, are passed through
unchanged (see the counterexample: they can retain the placeholder, which the
later JSON serialization of the manifest silently drops). -/
theorem c2_toJSON_required_deps_resolved (pm : List (String × MeteorPackageState))
    (p : MeteorPackageState) (m : PackageJson)
    (h : MeteorPackageState.toJSON pm p = Except.ok m) :
    (∀ e ∈ m.dependencies, e.2 ≠ DepValue.placeholder) ∧
      (∀ k, (k, DepValue.placeholder) ∈ p.dependencies →
        ∃ ip, lookupPackage pm (nodeNameToMeteorName k) = some ip ∧
          (k, depValueOfVersion ip.version) ∈ m.dependencies) ∧
      m.peerDependencies = p.peerDependencies ∧
      m.optionalDependencies = p.optionalDependencies := by
  have hdeps := toJSON_ok_dependencies pm p m h
  refine ⟨resolveDeps_ok_no_placeholder pm p.dependencies m.dependencies hdeps,
    fun k hk => resolveDeps_ok_resolves pm p.dependencies m.dependencies hdeps k hk,
    ?_, ?_⟩
  · unfold MeteorPackageState.toJSON at h
    cases hr : resolveDeps pm p.dependencies with
    | error e =>
      rw [hr] at h
      cases h
    | ok r =>
      rw [hr] at h
      injection h with h
      rw [← h]
  · unfold MeteorPackageState.toJSON at h
    cases hr : resolveDeps pm p.dependencies with
    | error e =>
      rw [hr] at h
      cases h
    | ok r =>
      rw [hr] at h
      injection h with h
      rw [← h]

/-- The unit used in the C2 counterexample and witness: a fresh package
`alpha` with one weak (optional) declared dependency `bar`. -/
def c2pkg : MeteorPackageState :=
  (freshPackage ("alpha")).addMeteorDependencies ["bar"] []
    { unordered := false, weak := true }

/-- A registry in which `alpha`'s dependency graph is fully loaded: the
auto-added `meteor` dependency is present with a concrete version. -/
def c2pm : List (String × MeteorPackageState) :=
  [("meteor", { freshPackage ("meteor") with
                  nodeName := some meteorNodeName
                  version := some ("1.2.3") })]

/-- C2 counterexample: the claim says no dependency value in the manifest
produced by `toJSON` — in the required, peer, *or optional* dependency maps —
equals the placeholder sentinel.  But `toJSON` resolves placeholders only in
the required map: for a unit with one weak dependency the emitted
`optionalDependencies` map still holds the placeholder, even though every
referenced package is loaded with a concrete version. -/
theorem c2_counterexample :
    (MeteorPackageState.toJSON c2pm c2pkg).map PackageJson.optionalDependencies
        = Except.ok [("@meteor/bar", DepValue.placeholder)] ∧
      (MeteorPackageState.toJSON c2pm c2pkg).map PackageJson.dependencies
        = Except.ok [(meteorNodeName, DepValue.str ("1.2.3"))] := by
  constructor
  · rfl
  · rfl

/-- The manifest `toJSON` produces for `c2pkg` against `c2pm`. -/
def c2manifest : PackageJson :=
  { name := none
    version := none
    description := none
    dependencies := [(meteorNodeName, DepValue.str ("1.2.3"))]
    peerDependencies := []
    optionalDependencies := [("@meteor/bar", DepValue.placeholder)]
    exportedVarsServer := []
    exportedVarsClient := []
    assetsClient := []
    assetsServer := []
    typeIsCommonJs := false
    impliesClient := []
    impliesServer := [] }

/-- Witness for `c2_toJSON_required_deps_resolved` at the concrete unit
`c2pkg` and registry `c2pm`: the resolved `@meteor/meteor` entry of the
emitted required-dependency map is not the placeholder. -/
theorem c2_toJSON_required_deps_resolved_witness :
    (meteorNodeName, DepValue.str ("1.2.3")).2 ≠ DepValue.placeholder :=
  (c2_toJSON_required_deps_resolved c2pm c2pkg c2manifest (by rfl)).1
    (meteorNodeName, DepValue.str ("1.2.3")) (by simp [c2manifest])

theorem orderedInsert_abs_head (a : String) (ha : isAbsoluteSpecifier a = true)
    (l : List String) : List.orderedInsert specifierOrderLE a l = a :: l := by
  cases l with
  | nil => rfl
  | cons b t =>
    rw [List.orderedInsert, if_pos]
    simp [specifierOrderLE, specifierRank, ha]

theorem orderedInsert_rel_after_abs (a : String) (ha : isAbsoluteSpecifier a = false)
    (fa fr : List String) (hfa : ∀ b ∈ fa, isAbsoluteSpecifier b = true)
    (hfr : ∀ b ∈ fr, isAbsoluteSpecifier b = false) :
    List.orderedInsert specifierOrderLE a (fa ++ fr) = fa ++ a :: fr := by
  induction fa with
  | nil =>
    simp only [List.nil_append]
    cases fr with
    | nil => rfl
    | cons b t =>
      rw [List.orderedInsert, if_pos]
      have hb := hfr b (List.mem_cons_self _ _)
      simp [specifierOrderLE, specifierRank, ha, hb]
  | cons c fa' ih =>
    have hc := hfa c (List.mem_cons_self _ _)
    rw [List.cons_append, List.orderedInsert, if_neg]
    · rw [ih (fun b hb => hfa b (List.mem_cons_of_mem _ hb))]
      rfl
    · simp [specifierOrderLE, specifierRank, ha, hc]

/-- `sortImports` is the stable absolute-first partition: absolute specifiers
(in declaration order) followed by relative specifiers (in declaration
order). -/
theorem sortImports_partition (l : List String) :
    sortImports l = l.filter (fun s => isAbsoluteSpecifier s)
      ++ l.filter (fun s => !isAbsoluteSpecifier s) := by
  induction l with
  | nil => rfl
  | cons a t ih =>
    unfold sortImports at ih ⊢
    rw [List.insertionSort, ih]
    by_cases ha : isAbsoluteSpecifier a = true
    · rw [orderedInsert_abs_head a ha (t.filter (fun s => isAbsoluteSpecifier s)
        ++ t.filter (fun s => !isAbsoluteSpecifier s))]
      rw [List.filter_cons_of_pos (by simpa using ha),
        List.filter_cons_of_neg (by simpa using ha)]
      rfl
    · have ha' : isAbsoluteSpecifier a = false := by simpa using ha
      rw [orderedInsert_rel_after_abs a ha' _ _
        (fun b hb => (List.mem_filter.mp hb).2)
        (fun b hb => by simpa using (List.mem_filter.mp hb).2)]
      rw [List.filter_cons_of_neg (by simpa using ha'),
        List.filter_cons_of_pos (by simpa using ha')]

/-- C7 (amended): the entry wrapper emits exactly one import line per
declared import — the emitted sequence is a permutation of the declared set —
but not in raw declaration order: absolute specifiers (starting with `@` or
`/`) are placed before relative ones, with declaration order preserved inside
each group (so a homogeneous import set is emitted in declaration order), in
value-import form for native-dialect packages and require-call form for
legacy-interop (commonJS) packages. -/
theorem c7_wrapper_line_per_import (l : List String) :
    ((sortImports l).Perm l) ∧
      (sortImports l = l.filter (fun s => isAbsoluteSpecifier s)
        ++ l.filter (fun s => !isAbsoluteSpecifier s)) ∧
      ((∀ s ∈ l, isAbsoluteSpecifier s = true) → sortImports l = l) ∧
      ((∀ s ∈ l, isAbsoluteSpecifier s = false) → sortImports l = l) ∧
      (getImportStr l true = String.intercalate ("\n")
        ((sortImports l).map (fun imp => "require(\"" ++ imp ++ "\");"))) ∧
      (getImportStr l false = String.intercalate ("\n")
        ((sortImports l).map (fun imp => "import \"" ++ imp ++ "\";"))) := by
  refine ⟨List.perm_insertionSort _ _, sortImports_partition l, ?_, ?_, rfl, rfl⟩
  · intro hall
    rw [sortImports_partition l, List.filter_eq_self.mpr (by simpa using hall),
      List.filter_eq_nil_iff.mpr (by intro a hmem; simp [hall a hmem]), List.append_nil]
  · intro hall
    rw [sortImports_partition l,
      List.filter_eq_nil_iff.mpr (by intro a hmem; simp [hall a hmem]),
      List.filter_eq_self.mpr (by intro a hmem; simp [hall a hmem]), List.nil_append]

/-- Witness for `c7_wrapper_line_per_import`: a homogeneous (all-absolute)
set of imports is emitted in declaration order. -/
theorem c7_wrapper_line_per_import_witness :
    sortImports ["@meteor/meteor", "@x/y"] = ["@meteor/meteor", "@x/y"] :=
  (c7_wrapper_line_per_import ["@meteor/meteor", "@x/y"]).2.2.1 (by decide)

/-- C7 counterexample: the claim says the wrapper contains the import
statements in the original declaration order.  For the declared order
`./a.js` then `@x/y`, `sortImports` moves the absolute specifier first, so the
emitted wrapper starts with `@x/y` — not the declared order. -/
theorem c7_counterexample :
    sortImports ["./a.js", "@x/y"] = ["@x/y", "./a.js"] ∧
      sortImports ["./a.js", "@x/y"] ≠ ["./a.js", "@x/y"] ∧
      getImportStr ["./a.js", "@x/y"] false
        ≠ "import \"./a.js\";" ++ "\n" ++ "import \"@x/y\";" := by
  refine ⟨by decide, by decide, by decide⟩

/-!
## `MeteorPackage.getImportedGlobalsMaps` — global resolution (claim C1)

Source lines 345–406.  The function walks `Object.keys(this.#dependencies)`
in insertion (declaration) order; for each dependency that is a known meteor
package it first merges the dependency's own recursively-resolved maps, then
binds the exports of every package the dependency implies, then the
dependency's own exports — each step via `Map.set`, which *overwrites* any
existing binding.  The recursion through the registry is embedded with
explicit fuel; a missing implied package, which throws in JS, is `none`. -/

/-- `globalStaticImports` from `src/helpers/globals.js`: framework-reserved
names unconditionally mapped to one fixed module. -/
def globalStaticImports : List (String × String) :=
  [("Meteor", meteorNodeName)]

/-- The `globals.forEach(...)` pre-pass: seed both maps from
`globalStaticImports`, skipping entries that point at this package itself. -/
def igmPrepass (nodeName : Option String) (globals : List String) :
    List (String × String) × List (String × String) :=
  globals.foldl
    (fun maps gl =>
      match jsGet globalStaticImports gl with
      | some tgt => if nodeName ≠ some tgt then (jsSet maps.1 gl tgt, jsSet maps.2 gl tgt) else maps
      | none => maps)
    ([], [])

/-- `exportedVars.forEach((exp) => { if (globals.has(exp)) map.set(exp, v) })`. -/
def setFromExports (globals : List String) (m : List (String × String))
    (exps : List String) (v : String) : List (String × String) :=
  exps.foldl (fun acc exp => if globals.contains exp then jsSet acc exp v else acc) m

/-- `depMap.forEach((providingDep, exp) => map.set(exp, providingDep))`. -/
def mergeJsMap (dst src : List (String × String)) : List (String × String) :=
  src.foldl (fun d e => jsSet d e.1 e.2) dst

/-- `getImplies(side).forEach((imp) => ...)`: bind each implied package's
matching exports; a missing implied package throws in JS (`none` here). -/
def setFromImplied (pm : List (String × MeteorPackageState)) (globals : List String)
    (exportsOf : MeteorPackageState → List String)
    (m : List (String × String)) (implied : List String) :
    Option (List (String × String)) :=
  implied.foldlM
    (fun acc imp =>
      match lookupPackage pm (nodeNameToMeteorName imp) with
      | none => none
      | some ip => some (setFromExports globals acc (exportsOf ip) imp))
    m

/-- The body of the `Object.keys(this.#dependencies).forEach((dep) => ...)`
loop for one dependency key: skip non-meteor deps; otherwise recurse, merge,
bind implied exports, then bind the dependency's own exports (client then
server). -/
def igmProcessDep
    (recur : MeteorPackageState → Option (List (String × String) × List (String × String)))
    (pm : List (String × MeteorPackageState)) (globals : List String)
    (maps : List (String × String) × List (String × String)) (dep : String) :
    Option (List (String × String) × List (String × String)) :=
  match lookupPackage pm (nodeNameToMeteorName dep) with
  | none => some maps
  | some mp =>
    match recur mp with
    | none => none
    | some sub =>
      let cm := mergeJsMap maps.1 sub.1
      let sm := mergeJsMap maps.2 sub.2
      match setFromImplied pm globals (fun q => q.clientJsExports) cm mp.impliedClientPackages with
      | none => none
      | some cm1 =>
        let cm2 := setFromExports globals cm1 mp.clientJsExports dep
        match setFromImplied pm globals (fun q => q.serverJsExports) sm mp.impliedServerPackages with
        | none => none
        | some sm1 =>
          let sm2 := setFromExports globals sm1 mp.serverJsExports dep
          some (cm2, sm2)

/-- `MeteorPackage.getImportedGlobalsMaps(globals)` with explicit recursion
fuel (the JS recursion is bounded by the acyclic dependency graph): returns
`(clientMap, serverMap)`. -/
def getImportedGlobalsMaps (fuel : Nat) (pm : List (String × MeteorPackageState))
    (globals : List String) (p : MeteorPackageState) :
    Option (List (String × String) × List (String × String)) :=
  match fuel with
  | 0 => none
  | Nat.succ n =>
    (p.dependencies.map Prod.fst).foldlM
      (igmProcessDep (getImportedGlobalsMaps n pm globals) pm globals)
      (igmPrepass p.nodeName globals)

/-- A loaded package with the given names exported on both sides. -/
def mkExportPkg (mn nn : String) (exps : List String) : MeteorPackageState :=
  { freshPackage mn with
      nodeName := some nn
      version := some ("1.0.0")
      serverJsExports := exps
      clientJsExports := exps }

/-- Scenario 1, dependency A (declared first), exporting `X`. -/
def c1pkgA : MeteorPackageState := mkExportPkg ("aaa") ("@meteor/aaa") ["X"]

/-- Scenario 1, dependency B (declared second), also exporting `X`. -/
def c1pkgB : MeteorPackageState := mkExportPkg ("bbb") ("@meteor/bbb") ["X"]

/-- Scenario 1, the resolving package P with strong dependencies A then B. -/
def c1pkgP : MeteorPackageState :=
  { freshPackage ("ppp") with
      nodeName := some ("@meteor/ppp")
      dependencies := [("@meteor/aaa", DepValue.placeholder),
        ("@meteor/bbb", DepValue.placeholder)] }

/-- Scenario 1 registry. -/
def c1pm : List (String × MeteorPackageState) :=
  [("ppp", c1pkgP), ("aaa", c1pkgA), ("bbb", c1pkgB)]

/-- Scenario 2, package C implied by B, exporting `X`. -/
def c1pkgC2 : MeteorPackageState := mkExportPkg ("ccc") ("@meteor/ccc") ["X"]

/-- Scenario 2, direct dependency B exporting `X` itself and implying C (an
implied package is also recorded as a dependency, as `addImplies` does). -/
def c1pkgB2 : MeteorPackageState :=
  { mkExportPkg ("bb2") ("@meteor/bb2") ["X"] with
      dependencies := [("@meteor/ccc", DepValue.placeholder)]
      impliedClientPackages := ["@meteor/ccc"]
      impliedServerPackages := ["@meteor/ccc"] }

/-- Scenario 2, the resolving package with the single direct dependency B. -/
def c1pkgP2 : MeteorPackageState :=
  { freshPackage ("pp2") with
      nodeName := some ("@meteor/pp2")
      dependencies := [("@meteor/bb2", DepValue.placeholder)] }

/-- Scenario 2 registry. -/
def c1pm2 : List (String × MeteorPackageState) :=
  [("pp2", c1pkgP2), ("bb2", c1pkgB2), ("ccc", c1pkgC2)]

/-- C1 counterexample: the claim says the *first-declared* dependency's
specifier wins when two strong dependencies provide the same name.  With A
declared before B, both exporting `X`, the code's `Map.set` overwrites A's
binding while processing B: the result binds `X` to `@meteor/bbb`, not
`@meteor/aaa`. -/
theorem c1_counterexample :
    ((getImportedGlobalsMaps 5 c1pm ["X"] c1pkgP).map (fun r => jsGet r.1 ("X"))
        = some (some ("@meteor/bbb"))) ∧
      ((getImportedGlobalsMaps 5 c1pm ["X"] c1pkgP).map (fun r => jsGet r.2 ("X"))
        = some (some ("@meteor/bbb"))) ∧
      ("@meteor/bbb") ≠ ("@meteor/aaa") := by
  refine ⟨by decide, by decide, by decide⟩

theorem igm_nil_deps (n : Nat) (pm : List (String × MeteorPackageState))
    (g : List String) (p : MeteorPackageState) (hdeps : p.dependencies = []) :
    getImportedGlobalsMaps (Nat.succ n) pm g p = some (igmPrepass p.nodeName g) := by
  unfold getImportedGlobalsMaps
  rw [hdeps]
  rfl

theorem setFromExports_singleX (g : List String) (m : List (String × String)) (v : String)
    (hg : g.contains ("X") = true) :
    setFromExports g m ["X"] v = jsSet m ("X") v := by
  unfold setFromExports
  rw [List.foldl_cons, List.foldl_nil, hg]
  rfl

theorem setFromImplied_nil (pm : List (String × MeteorPackageState)) (g : List String)
    (f : MeteorPackageState → List String) (m : List (String × String)) :
    setFromImplied pm g f m [] = some m := rfl

theorem setFromImplied_single (pm : List (String × MeteorPackageState)) (g : List String)
    (f : MeteorPackageState → List String) (m : List (String × String)) (imp : String)
    (ip : MeteorPackageState) (hlk : lookupPackage pm (nodeNameToMeteorName imp) = some ip) :
    setFromImplied pm g f m [imp] = some (setFromExports g m (f ip) imp) := by
  unfold setFromImplied
  rw [List.foldlM_cons, hlk]
  rfl

theorem igmProcessDep_eval
    (recur : MeteorPackageState → Option (List (String × String) × List (String × String)))
    (pm : List (String × MeteorPackageState)) (g : List String)
    (maps : List (String × String) × List (String × String)) (dep : String)
    (mp : MeteorPackageState) (sub : List (String × String) × List (String × String))
    (cm1 sm1 : List (String × String))
    (hlk : lookupPackage pm (nodeNameToMeteorName dep) = some mp)
    (hrec : recur mp = some sub)
    (himpC : setFromImplied pm g (fun q => q.clientJsExports)
      (mergeJsMap maps.1 sub.1) mp.impliedClientPackages = some cm1)
    (himpS : setFromImplied pm g (fun q => q.serverJsExports)
      (mergeJsMap maps.2 sub.2) mp.impliedServerPackages = some sm1) :
    igmProcessDep recur pm g maps dep
      = some (setFromExports g cm1 mp.clientJsExports dep,
          setFromExports g sm1 mp.serverJsExports dep) := by
  unfold igmProcessDep
  rw [hlk]
  dsimp only
  rw [hrec]
  dsimp only
  rw [himpC]
  dsimp only
  rw [himpS]

/-- C1 (amended): resolution binds each name by *last* match in first-declared
dependency order — when two strong dependencies both provide the same name,
the later-declared dependency's specifier overwrites the earlier one — while
within a single dependency the dependency's own exports are bound after the
exports of packages it implies or transitively provides, so a name exported
both by a direct dependency B and by a package C implied by B is still bound
to B's specifier (the nearer provider).  Stated for any globals set containing
the symbol `X` and any sufficient fuel. -/
theorem c1_last_match_wins (fuel : Nat) (g : List String)
    (hg : g.contains ("X") = true) :
    ((getImportedGlobalsMaps (Nat.succ (Nat.succ fuel)) c1pm g c1pkgP).map
        (fun r => jsGet r.1 ("X")) = some (some ("@meteor/bbb"))) ∧
      ((getImportedGlobalsMaps (Nat.succ (Nat.succ fuel)) c1pm g c1pkgP).map
        (fun r => jsGet r.2 ("X")) = some (some ("@meteor/bbb"))) ∧
      ((getImportedGlobalsMaps (Nat.succ (Nat.succ (Nat.succ fuel))) c1pm2 g c1pkgP2).map
        (fun r => jsGet r.1 ("X")) = some (some ("@meteor/bb2"))) ∧
      ((getImportedGlobalsMaps (Nat.succ (Nat.succ (Nat.succ fuel))) c1pm2 g c1pkgP2).map
        (fun r => jsGet r.2 ("X")) = some (some ("@meteor/bb2"))) := by
  have hA : lookupPackage c1pm (nodeNameToMeteorName ("@meteor/aaa")) = some c1pkgA := by rfl
  have hB : lookupPackage c1pm (nodeNameToMeteorName ("@meteor/bbb")) = some c1pkgB := by rfl
  have hrecA : getImportedGlobalsMaps (Nat.succ fuel) c1pm g c1pkgA
      = some (igmPrepass c1pkgA.nodeName g) := igm_nil_deps fuel c1pm g c1pkgA rfl
  have hrecB : getImportedGlobalsMaps (Nat.succ fuel) c1pm g c1pkgB
      = some (igmPrepass c1pkgB.nodeName g) := igm_nil_deps fuel c1pm g c1pkgB rfl
  have hstepA := igmProcessDep_eval (getImportedGlobalsMaps (Nat.succ fuel) c1pm g)
    c1pm g (igmPrepass c1pkgP.nodeName g) ("@meteor/aaa") c1pkgA
    (igmPrepass c1pkgA.nodeName g) _ _ hA hrecA (setFromImplied_nil _ _ _ _)
    (setFromImplied_nil _ _ _ _)
  have hscen1 : getImportedGlobalsMaps (Nat.succ (Nat.succ fuel)) c1pm g c1pkgP
      = some
        (jsSet (mergeJsMap
            (jsSet (mergeJsMap (igmPrepass c1pkgP.nodeName g).1 (igmPrepass c1pkgA.nodeName g).1)
              ("X") ("@meteor/aaa"))
            (igmPrepass c1pkgB.nodeName g).1) ("X") ("@meteor/bbb"),
          jsSet (mergeJsMap
            (jsSet (mergeJsMap (igmPrepass c1pkgP.nodeName g).2 (igmPrepass c1pkgA.nodeName g).2)
              ("X") ("@meteor/aaa"))
            (igmPrepass c1pkgB.nodeName g).2) ("X") ("@meteor/bbb")) := by
    unfold getImportedGlobalsMaps
    have hd : c1pkgP.dependencies.map Prod.fst = ["@meteor/aaa", "@meteor/bbb"] := rfl
    rw [hd, List.foldlM_cons, hstepA]
    rw [show c1pkgA.clientJsExports = ["X"] from rfl,
      show c1pkgA.serverJsExports = ["X"] from rfl]
    rw [setFromExports_singleX g _ _ hg, setFromExports_singleX g _ _ hg]
    simp only [Option.bind_eq_bind, Option.some_bind]
    have hstepB := igmProcessDep_eval (getImportedGlobalsMaps (Nat.succ fuel) c1pm g)
      c1pm g (jsSet (mergeJsMap (igmPrepass c1pkgP.nodeName g).1 (igmPrepass c1pkgA.nodeName g).1)
              ("X") ("@meteor/aaa"),
          jsSet (mergeJsMap (igmPrepass c1pkgP.nodeName g).2 (igmPrepass c1pkgA.nodeName g).2)
              ("X") ("@meteor/aaa")) ("@meteor/bbb") c1pkgB (igmPrepass c1pkgB.nodeName g) _ _
      hB hrecB (setFromImplied_nil _ _ _ _) (setFromImplied_nil _ _ _ _)
    rw [List.foldlM_cons, hstepB]
    rw [show c1pkgB.clientJsExports = ["X"] from rfl,
      show c1pkgB.serverJsExports = ["X"] from rfl]
    rw [setFromExports_singleX g _ _ hg, setFromExports_singleX g _ _ hg]
    simp only [Option.bind_eq_bind, Option.some_bind, List.foldlM_nil]
    rfl
  have hC : lookupPackage c1pm2 (nodeNameToMeteorName ("@meteor/ccc")) = some c1pkgC2 := by rfl
  have hB2 : lookupPackage c1pm2 (nodeNameToMeteorName ("@meteor/bb2")) = some c1pkgB2 := by rfl
  have hrecC : getImportedGlobalsMaps (Nat.succ fuel) c1pm2 g c1pkgC2
      = some (igmPrepass c1pkgC2.nodeName g) := igm_nil_deps fuel c1pm2 g c1pkgC2 rfl
  have hstepC := igmProcessDep_eval (getImportedGlobalsMaps (Nat.succ fuel) c1pm2 g)
    c1pm2 g (igmPrepass c1pkgB2.nodeName g) ("@meteor/ccc") c1pkgC2
    (igmPrepass c1pkgC2.nodeName g) _ _ hC hrecC (setFromImplied_nil _ _ _ _)
    (setFromImplied_nil _ _ _ _)
  have hrecB2 : getImportedGlobalsMaps (Nat.succ (Nat.succ fuel)) c1pm2 g c1pkgB2
      = some
        (jsSet (mergeJsMap (igmPrepass c1pkgB2.nodeName g).1 (igmPrepass c1pkgC2.nodeName g).1)
          ("X") ("@meteor/ccc"),
         jsSet (mergeJsMap (igmPrepass c1pkgB2.nodeName g).2 (igmPrepass c1pkgC2.nodeName g).2)
          ("X") ("@meteor/ccc")) := by
    unfold getImportedGlobalsMaps
    have hd : c1pkgB2.dependencies.map Prod.fst = ["@meteor/ccc"] := rfl
    rw [hd, List.foldlM_cons, hstepC]
    rw [show c1pkgC2.clientJsExports = ["X"] from rfl,
      show c1pkgC2.serverJsExports = ["X"] from rfl]
    rw [setFromExports_singleX g _ _ hg, setFromExports_singleX g _ _ hg]
    simp only [Option.bind_eq_bind, Option.some_bind, List.foldlM_nil]
    rfl
  have himpC2 : setFromImplied c1pm2 g (fun q => q.clientJsExports)
      (mergeJsMap (igmPrepass c1pkgP2.nodeName g).1
        (jsSet (mergeJsMap (igmPrepass c1pkgB2.nodeName g).1 (igmPrepass c1pkgC2.nodeName g).1)
          ("X") ("@meteor/ccc")))
      c1pkgB2.impliedClientPackages
      = some (jsSet (mergeJsMap (igmPrepass c1pkgP2.nodeName g).1
          (jsSet (mergeJsMap (igmPrepass c1pkgB2.nodeName g).1 (igmPrepass c1pkgC2.nodeName g).1)
            ("X") ("@meteor/ccc"))) ("X") ("@meteor/ccc")) := by
    rw [show c1pkgB2.impliedClientPackages = ["@meteor/ccc"] from rfl]
    rw [setFromImplied_single c1pm2 g _ _ ("@meteor/ccc") c1pkgC2 hC]
    rw [show c1pkgC2.clientJsExports = ["X"] from rfl]
    rw [setFromExports_singleX g _ _ hg]
  have himpS2 : setFromImplied c1pm2 g (fun q => q.serverJsExports)
      (mergeJsMap (igmPrepass c1pkgP2.nodeName g).2
        (jsSet (mergeJsMap (igmPrepass c1pkgB2.nodeName g).2 (igmPrepass c1pkgC2.nodeName g).2)
          ("X") ("@meteor/ccc")))
      c1pkgB2.impliedServerPackages
      = some (jsSet (mergeJsMap (igmPrepass c1pkgP2.nodeName g).2
          (jsSet (mergeJsMap (igmPrepass c1pkgB2.nodeName g).2 (igmPrepass c1pkgC2.nodeName g).2)
            ("X") ("@meteor/ccc"))) ("X") ("@meteor/ccc")) := by
    rw [show c1pkgB2.impliedServerPackages = ["@meteor/ccc"] from rfl]
    rw [setFromImplied_single c1pm2 g _ _ ("@meteor/ccc") c1pkgC2 hC]
    rw [show c1pkgC2.serverJsExports = ["X"] from rfl]
    rw [setFromExports_singleX g _ _ hg]
  have hstepB2 := igmProcessDep_eval (getImportedGlobalsMaps (Nat.succ (Nat.succ fuel)) c1pm2 g)
    c1pm2 g (igmPrepass c1pkgP2.nodeName g) ("@meteor/bb2") c1pkgB2 _ _ _
    hB2 hrecB2 himpC2 himpS2
  have hscen2 : getImportedGlobalsMaps (Nat.succ (Nat.succ (Nat.succ fuel))) c1pm2 g c1pkgP2
      = some
        (jsSet (jsSet (mergeJsMap (igmPrepass c1pkgP2.nodeName g).1
            (jsSet (mergeJsMap (igmPrepass c1pkgB2.nodeName g).1 (igmPrepass c1pkgC2.nodeName g).1)
              ("X") ("@meteor/ccc"))) ("X") ("@meteor/ccc")) ("X") ("@meteor/bb2"),
          jsSet (jsSet (mergeJsMap (igmPrepass c1pkgP2.nodeName g).2
            (jsSet (mergeJsMap (igmPrepass c1pkgB2.nodeName g).2 (igmPrepass c1pkgC2.nodeName g).2)
              ("X") ("@meteor/ccc"))) ("X") ("@meteor/ccc")) ("X") ("@meteor/bb2")) := by
    unfold getImportedGlobalsMaps
    have hd : c1pkgP2.dependencies.map Prod.fst = ["@meteor/bb2"] := rfl
    rw [hd, List.foldlM_cons, hstepB2]
    rw [show c1pkgB2.clientJsExports = ["X"] from rfl,
      show c1pkgB2.serverJsExports = ["X"] from rfl]
    rw [setFromExports_singleX g _ _ hg, setFromExports_singleX g _ _ hg]
    simp only [Option.bind_eq_bind, Option.some_bind, List.foldlM_nil]
    rfl
  refine ⟨?_, ?_, ?_, ?_⟩
  · rw [hscen1]
    simp only [Option.map_some']
    rw [jsGet_jsSet_self]
  · rw [hscen1]
    simp only [Option.map_some']
    rw [jsGet_jsSet_self]
  · rw [hscen2]
    simp only [Option.map_some']
    rw [jsGet_jsSet_self]
  · rw [hscen2]
    simp only [Option.map_some']
    rw [jsGet_jsSet_self]

/-- Witness for `c1_last_match_wins` at fuel 0 and the globals set `[X]`. -/
theorem c1_last_match_wins_witness :
    ((["X"] : List String).contains ("X") = true) ∧
      ((getImportedGlobalsMaps 2 c1pm ["X"] c1pkgP).map
        (fun r => jsGet r.1 ("X")) = some (some ("@meteor/bbb"))) :=
  ⟨by decide, (c1_last_match_wins 0 ["X"] (by decide)).1⟩

/-!
## `ensurePackage` / `writeToNpmModule` — at-most-once semantics (claim C3)

`writeToNpmModule` (lines 428–437) first awaits `#loadedPromise`; the
`#alreadyWritten` check and the assignment `this.#alreadyWritten = true` that
follows have no suspension point between them, so under the single-threaded
cooperative scheduler the check-then-set is one atomic step.  A caller that
finds the flag already set awaits `#writtenPromise` — resolved in the first
caller's `finally` — and returns without any write work.  `ensurePackage`
(lines 845–856) runs `packageMap.has(name)` and `packageMap.set(name, ...)`
synchronously, so check-and-register is likewise one atomic step, and the unit
registered for a name is loaded exactly once, right after its registration.

The embedding is a small-step transition system over the program counters of
N cooperative callers of one unit's `writeToNpmModule` (taken after the shared
load signal): a schedule is an arbitrary list of task indices, and a step on a
task that is not currently runnable (e.g. one awaiting a still-unresolved
promise) is a no-op.
-/

/-- Program counter of one `writeToNpmModule` caller. -/
inductive WriterPC where
  | atGuard
  | working
  | awaitingWritten
  | finishedWork
  | finishedNoWork
deriving DecidableEq, Repr

/-- Shared state of one unit plus the callers' program counters. -/
structure WriteState where
  alreadyWritten : Bool
  written : Bool
  workCount : Nat
  tasks : List WriterPC
deriving DecidableEq, Repr

/-- N callers, all past `await this.#loadedPromise`, none yet at the guard. -/
def writeInit (n : Nat) : WriteState :=
  { alreadyWritten := false
    written := false
    workCount := 0
    tasks := List.replicate n WriterPC.atGuard }

/-- One cooperative step of task `i`: the guard check-then-set, the write
sequence followed by resolving the written signal, or the return of a caller
that awaited the signal; a step on a task that cannot run is a no-op. -/
def writeStep (s : WriteState) (i : Nat) : WriteState :=
  if s.tasks.get? i = some WriterPC.atGuard then
    (if s.alreadyWritten then { s with tasks := s.tasks.set i WriterPC.awaitingWritten }
     else { s with alreadyWritten := true, tasks := s.tasks.set i WriterPC.working })
  else if s.tasks.get? i = some WriterPC.working then
    { s with
        workCount := s.workCount + 1
        written := true
        tasks := s.tasks.set i WriterPC.finishedWork }
  else if s.tasks.get? i = some WriterPC.awaitingWritten then
    (if s.written then { s with tasks := s.tasks.set i WriterPC.finishedNoWork } else s)
  else s

/-- Run an arbitrary schedule. -/
def writeRun (n : Nat) (sched : List Nat) : WriteState :=
  sched.foldl writeStep (writeInit n)

/-- Every caller has returned. -/
def allFinished (s : WriteState) : Bool :=
  s.tasks.all (fun pc => pc = WriterPC.finishedWork || pc = WriterPC.finishedNoWork)

theorem count_set_eq (l : List WriterPC) (i : Nat) (a b : WriterPC)
    (h : l.get? i = some a) (x : WriterPC) :
    (l.set i b).count x + (if a = x then 1 else 0)
      = l.count x + (if b = x then 1 else 0) := by
  induction l generalizing i with
  | nil => cases h
  | cons hd tl ih =>
    cases i with
    | zero =>
      injection h with h
      subst h
      simp only [List.set, List.count_cons, beq_iff_eq]
      omega
    | succ j =>
      simp only [List.get?] at h
      simp only [List.set, List.count_cons, beq_iff_eq]
      have := ih j h
      omega

theorem count_set_of_ne (l : List WriterPC) (i : Nat) (a b x : WriterPC)
    (h : l.get? i = some a) (ha : a ≠ x) (hb : b ≠ x) :
    (l.set i b).count x = l.count x := by
  have h0 := count_set_eq l i a b h x
  rw [if_neg ha, if_neg hb] at h0
  omega

theorem count_set_incr (l : List WriterPC) (i : Nat) (a b x : WriterPC)
    (h : l.get? i = some a) (ha : a ≠ x) (hb : b = x) :
    (l.set i b).count x = l.count x + 1 := by
  have h0 := count_set_eq l i a b h x
  rw [if_neg ha, if_pos hb] at h0
  omega

theorem count_set_decr (l : List WriterPC) (i : Nat) (a b x : WriterPC)
    (h : l.get? i = some a) (ha : a = x) (hb : b ≠ x) :
    (l.set i b).count x + 1 = l.count x := by
  have h0 := count_set_eq l i a b h x
  rw [if_pos ha, if_neg hb] at h0
  omega

/-- The write-guard invariant: the work counter counts the tasks that
completed the write sequence; at most one task ever passes the guard (exactly
one once the flag is set); the written signal implies the write sequence ran
exactly once; and a caller can only have returned without work after the
signal. -/
def WriteInv (s : WriteState) : Prop :=
  s.workCount = s.tasks.count WriterPC.finishedWork ∧
    s.tasks.count WriterPC.working + s.tasks.count WriterPC.finishedWork
      = (if s.alreadyWritten then 1 else 0) ∧
    (s.written = true → s.tasks.count WriterPC.finishedWork = 1) ∧
    (0 < s.tasks.count WriterPC.finishedNoWork → s.written = true)

theorem writeInv_init (n : Nat) : WriteInv (writeInit n) := by
  refine ⟨?_, ?_, ?_, ?_⟩ <;>
    simp [writeInit, List.count_replicate]

theorem writeInv_step (s : WriteState) (i : Nat) (h : WriteInv s) :
    WriteInv (writeStep s i) := by
  obtain ⟨h1, h2, h3, h4⟩ := h
  unfold writeStep
  by_cases hg : s.tasks.get? i = some WriterPC.atGuard
  · rw [if_pos hg]
    have hcW := count_set_of_ne s.tasks i WriterPC.atGuard WriterPC.awaitingWritten
      WriterPC.working hg (by decide) (by decide)
    have hcF := count_set_of_ne s.tasks i WriterPC.atGuard WriterPC.awaitingWritten
      WriterPC.finishedWork hg (by decide) (by decide)
    have hcN := count_set_of_ne s.tasks i WriterPC.atGuard WriterPC.awaitingWritten
      WriterPC.finishedNoWork hg (by decide) (by decide)
    have hdW := count_set_incr s.tasks i WriterPC.atGuard WriterPC.working
      WriterPC.working hg (by decide) rfl
    have hdF := count_set_of_ne s.tasks i WriterPC.atGuard WriterPC.working
      WriterPC.finishedWork hg (by decide) (by decide)
    have hdN := count_set_of_ne s.tasks i WriterPC.atGuard WriterPC.working
      WriterPC.finishedNoWork hg (by decide) (by decide)
    by_cases hw : s.alreadyWritten
    · rw [if_pos hw]
      refine ⟨?_, ?_, fun hwr => ?_, fun hpos => ?_⟩
      · show s.workCount = (s.tasks.set i WriterPC.awaitingWritten).count WriterPC.finishedWork
        rw [hcF]
        exact h1
      · show (s.tasks.set i WriterPC.awaitingWritten).count WriterPC.working
            + (s.tasks.set i WriterPC.awaitingWritten).count WriterPC.finishedWork
          = (if s.alreadyWritten then 1 else 0)
        rw [hcW, hcF]
        exact h2
      · show (s.tasks.set i WriterPC.awaitingWritten).count WriterPC.finishedWork = 1
        rw [hcF]
        exact h3 hwr
      · refine h4 ?_
        rw [hcN] at hpos
        exact hpos
    · rw [if_neg hw]
      have hw' : s.alreadyWritten = false := by simpa using hw
      refine ⟨?_, ?_, fun hwr => ?_, fun hpos => ?_⟩
      · show s.workCount = (s.tasks.set i WriterPC.working).count WriterPC.finishedWork
        rw [hdF]
        exact h1
      · show (s.tasks.set i WriterPC.working).count WriterPC.working
            + (s.tasks.set i WriterPC.working).count WriterPC.finishedWork
          = (if true then 1 else 0)
        rw [hdW, hdF]
        rw [hw'] at h2
        have h2' : s.tasks.count WriterPC.working + s.tasks.count WriterPC.finishedWork = 0 := by
          simpa using h2
        rw [if_pos (rfl : true = true)]
        omega
      · show (s.tasks.set i WriterPC.working).count WriterPC.finishedWork = 1
        rw [hdF]
        exact h3 hwr
      · refine h4 ?_
        rw [hdN] at hpos
        exact hpos
  · rw [if_neg hg]
    by_cases hg2 : s.tasks.get? i = some WriterPC.working
    · rw [if_pos hg2]
      have hflag : (if s.alreadyWritten then 1 else 0) = 1 := by
        have hmem : WriterPC.working ∈ s.tasks := List.get?_mem hg2
        have hposc : 0 < s.tasks.count WriterPC.working := List.count_pos_iff.mpr hmem
        by_cases hw : s.alreadyWritten
        · rw [if_pos hw]
        · rw [if_neg hw] at h2 ⊢
          omega
      have hdW := count_set_decr s.tasks i WriterPC.working WriterPC.finishedWork
        WriterPC.working hg2 rfl (by decide)
      have hdF := count_set_incr s.tasks i WriterPC.working WriterPC.finishedWork
        WriterPC.finishedWork hg2 (by decide) rfl
      have hdN := count_set_of_ne s.tasks i WriterPC.working WriterPC.finishedWork
        WriterPC.finishedNoWork hg2 (by decide) (by decide)
      rw [hflag] at h2
      refine ⟨?_, ?_, fun _ => ?_, fun _ => rfl⟩
      · show s.workCount + 1 = (s.tasks.set i WriterPC.finishedWork).count WriterPC.finishedWork
        rw [hdF]
        omega
      · show (s.tasks.set i WriterPC.finishedWork).count WriterPC.working
            + (s.tasks.set i WriterPC.finishedWork).count WriterPC.finishedWork
          = (if s.alreadyWritten then 1 else 0)
        rw [hflag, hdF]
        omega
      · show (s.tasks.set i WriterPC.finishedWork).count WriterPC.finishedWork = 1
        rw [hdF]
        omega
    · rw [if_neg hg2]
      by_cases hg3 : s.tasks.get? i = some WriterPC.awaitingWritten
      · rw [if_pos hg3]
        by_cases hw : s.written
        · rw [if_pos hw]
          have hcW := count_set_of_ne s.tasks i WriterPC.awaitingWritten WriterPC.finishedNoWork
            WriterPC.working hg3 (by decide) (by decide)
          have hcF := count_set_of_ne s.tasks i WriterPC.awaitingWritten WriterPC.finishedNoWork
            WriterPC.finishedWork hg3 (by decide) (by decide)
          refine ⟨?_, ?_, fun hwr => ?_, fun _ => hw⟩
          · show s.workCount = (s.tasks.set i WriterPC.finishedNoWork).count WriterPC.finishedWork
            rw [hcF]
            exact h1
          · show (s.tasks.set i WriterPC.finishedNoWork).count WriterPC.working
                + (s.tasks.set i WriterPC.finishedNoWork).count WriterPC.finishedWork
              = (if s.alreadyWritten then 1 else 0)
            rw [hcW, hcF]
            exact h2
          · show (s.tasks.set i WriterPC.finishedNoWork).count WriterPC.finishedWork = 1
            rw [hcF]
            exact h3 hwr
        · rw [if_neg hw]
          exact ⟨h1, h2, h3, h4⟩
      · rw [if_neg hg3]
        exact ⟨h1, h2, h3, h4⟩

theorem writeInv_run_aux (sched : List Nat) (s : WriteState) (h : WriteInv s) :
    WriteInv (sched.foldl writeStep s) := by
  induction sched generalizing s with
  | nil => exact h
  | cons i tl ih => exact ih (writeStep s i) (writeInv_step s i h)

theorem writeInv_run (n : Nat) (sched : List Nat) : WriteInv (writeRun n sched) :=
  writeInv_run_aux sched (writeInit n) (writeInv_init n)

theorem writeStep_length (s : WriteState) (i : Nat) :
    (writeStep s i).tasks.length = s.tasks.length := by
  unfold writeStep
  cases hget : s.tasks.get? i with
  | none => rfl
  | some pc =>
    cases pc <;> first
      | rfl
      | (split_ifs <;> simp [List.length_set])

theorem writeRun_length (n : Nat) (sched : List Nat) :
    (writeRun n sched).tasks.length = n := by
  unfold writeRun
  have haux : ∀ (l : List Nat) (s : WriteState),
      (l.foldl writeStep s).tasks.length = s.tasks.length := by
    intro l
    induction l with
    | nil => intro s; rfl
    | cons i tl ih =>
      intro s
      rw [List.foldl_cons, ih, writeStep_length]
  rw [haux]
  simp [writeInit]

/-- The `packageMap` registry with unit identities: `reg` maps a package name
to the id of the unit registered for it, `next` is the next fresh unit id, and
`creations` logs every `new MeteorPackage` + `packageMap.set` + load that
`ensurePackage` performed. -/
structure RegistryState where
  reg : List (String × Nat)
  next : Nat
  creations : List (String × Nat)
deriving DecidableEq, Repr

def regInit : RegistryState :=
  { reg := [], next := 0, creations := [] }

/-- `MeteorPackage.ensurePackage(name, ...)`: the `packageMap.has` check and
`packageMap.set` run with no suspension point between them, so the
check-and-register is one atomic step; an already-present name is left
untouched and the caller reuses the registered unit. -/
def ensurePackageStep (s : RegistryState) (name : String) : RegistryState :=
  if (jsGet s.reg name).isSome then s
  else
    { reg := jsSet s.reg name s.next
      next := s.next + 1
      creations := s.creations ++ [(name, s.next)] }

/-- Run a sequence of `ensurePackage` requests (any interleaving of N
cooperative callers is some such sequence, registration being atomic). -/
def runEnsures (s : RegistryState) (reqs : List String) : RegistryState :=
  reqs.foldl ensurePackageStep s

/-- Registry invariant: a name has been created-and-loaded exactly once iff it
is registered, and never more than once. -/
def RegInv (s : RegistryState) : Prop :=
  ∀ name, (s.creations.filter (fun e => e.1 = name)).length
    = if (jsGet s.reg name).isSome then 1 else 0

theorem regInv_init : RegInv regInit := by
  intro name
  simp [regInit, jsGet]

theorem regInv_step (s : RegistryState) (name : String) (h : RegInv s) :
    RegInv (ensurePackageStep s name) := by
  unfold ensurePackageStep
  by_cases hs : (jsGet s.reg name).isSome
  · rw [if_pos hs]
    exact h
  · rw [if_neg hs]
    intro n
    show ((s.creations ++ [(name, s.next)]).filter (fun e => e.1 = n)).length
      = if (jsGet (jsSet s.reg name s.next) n).isSome then 1 else 0
    rw [List.filter_append, List.length_append]
    by_cases hn : name = n
    · subst hn
      rw [jsGet_jsSet_self]
      have h0 := h name
      rw [if_neg hs] at h0
      simp [h0]
    · rw [jsGet_jsSet_ne s.reg n name s.next hn]
      have hfilter : ([(name, s.next)].filter (fun e => e.1 = n)).length = 0 := by
        simp [hn]
      rw [hfilter]
      have h0 := h n
      omega

theorem regInv_run (s : RegistryState) (reqs : List String) (h : RegInv s) :
    RegInv (runEnsures s reqs) := by
  unfold runEnsures
  induction reqs generalizing s with
  | nil => exact h
  | cons r tl ih => exact ih (ensurePackageStep s r) (regInv_step s r h)

theorem jsGet_ensure_mono (s : RegistryState) (req name : String) (v : Nat)
    (h : jsGet s.reg name = some v) :
    jsGet (ensurePackageStep s req).reg name = some v := by
  unfold ensurePackageStep
  by_cases hs : (jsGet s.reg req).isSome
  · rw [if_pos hs]
    exact h
  · rw [if_neg hs]
    by_cases hn : req = name
    · subst hn
      rw [h] at hs
      simp at hs
    · show jsGet (jsSet s.reg req s.next) name = some v
      rw [jsGet_jsSet_ne s.reg name req s.next hn]
      exact h

theorem runEnsures_mono (s : RegistryState) (reqs : List String) (name : String) (v : Nat)
    (h : jsGet s.reg name = some v) :
    jsGet (runEnsures s reqs).reg name = some v := by
  unfold runEnsures
  induction reqs generalizing s with
  | nil => exact h
  | cons r tl ih => exact ih (ensurePackageStep s r) (jsGet_ensure_mono s r name v h)

theorem mem_runEnsures_isSome (s : RegistryState) (reqs : List String) (name : String)
    (h : name ∈ reqs) : (jsGet (runEnsures s reqs).reg name).isSome = true := by
  induction reqs generalizing s with
  | nil => cases h
  | cons r tl ih =>
    rcases List.mem_cons.mp h with heq | hmem
    · subst heq
      have hsome : ∃ v, jsGet (ensurePackageStep s name).reg name = some v := by
        unfold ensurePackageStep
        by_cases hs : (jsGet s.reg name).isSome
        · rw [if_pos hs]
          exact Option.isSome_iff_exists.mp hs
        · rw [if_neg hs]
          exact ⟨s.next, jsGet_jsSet_self s.reg name s.next⟩
      obtain ⟨v, hv⟩ := hsome
      have := runEnsures_mono (ensurePackageStep s name) tl name v hv
      show (jsGet (runEnsures (ensurePackageStep s name) tl).reg name).isSome = true
      rw [this]
      rfl
    · exact ih (ensurePackageStep s r) hmem

/-- C3: under the cooperative single-threaded scheduler, for every schedule of
N concurrent `writeToNpmModule` callers of one unit, at most one write
sequence ever executes; when all callers have returned (and N ≥ 1) exactly
one executed; any caller that returned without doing write work did so only
after the first caller's completion signal was resolved; and for every
sequence of `ensurePackage` requests, a requested name is registered and
loaded exactly once, with every later request observing the same registered
unit. -/
theorem c3_write_once_and_register_once :
    (∀ (n : Nat) (sched : List Nat), (writeRun n sched).workCount ≤ 1) ∧
      (∀ (n : Nat) (sched : List Nat), allFinished (writeRun n sched) = true → 1 ≤ n →
        (writeRun n sched).workCount = 1) ∧
      (∀ (n : Nat) (sched : List Nat),
        0 < (writeRun n sched).tasks.count WriterPC.finishedNoWork →
        (writeRun n sched).written = true) ∧
      (∀ (reqs : List String) (name : String), name ∈ reqs →
        ((runEnsures regInit reqs).creations.filter (fun e => e.1 = name)).length = 1) ∧
      (∀ (reqs more : List String) (name : String) (v : Nat),
        jsGet (runEnsures regInit reqs).reg name = some v →
        jsGet (runEnsures (runEnsures regInit reqs) more).reg name = some v) := by
  refine ⟨?_, ?_, ?_, ?_, ?_⟩
  · intro n sched
    obtain ⟨h1, h2, _, _⟩ := writeInv_run n sched
    by_cases hw : (writeRun n sched).alreadyWritten
    · rw [if_pos hw] at h2
      omega
    · rw [if_neg hw] at h2
      omega
  · intro n sched hfin hn
    obtain ⟨h1, h2, h3, h4⟩ := writeInv_run n sched
    have hlen : (writeRun n sched).tasks.length = n := writeRun_length n sched
    have hne : (writeRun n sched).tasks ≠ [] := by
      intro hempty
      rw [hempty] at hlen
      simp at hlen
      omega
    obtain ⟨pc, hmem⟩ := List.exists_mem_of_ne_nil _ hne
    have hpc : pc = WriterPC.finishedWork ∨ pc = WriterPC.finishedNoWork := by
      simpa using List.all_eq_true.mp hfin pc hmem
    have hFW : (writeRun n sched).tasks.count WriterPC.finishedWork = 1 := by
      rcases hpc with heq | heq
      · subst heq
        have hposc := List.count_pos_iff.mpr hmem
        by_cases hflag : (writeRun n sched).alreadyWritten
        · rw [if_pos hflag] at h2
          omega
        · rw [if_neg hflag] at h2
          omega
      · subst heq
        have hposc := List.count_pos_iff.mpr hmem
        exact h3 (h4 hposc)
    omega
  · intro n sched hpos
    obtain ⟨_, _, _, h4⟩ := writeInv_run n sched
    exact h4 hpos
  · intro reqs name hmem
    have hinv := regInv_run regInit reqs regInv_init name
    have hsome := mem_runEnsures_isSome regInit reqs name hmem
    rw [hsome] at hinv
    simpa using hinv
  · intro reqs more name v hv
    exact runEnsures_mono (runEnsures regInit reqs) more name v hv

/-- Witness for `c3_write_once_and_register_once`: two callers scheduled
first-runs-to-completion-then-second, and two `ensurePackage` requests for the
same name. -/
theorem c3_write_once_and_register_once_witness :
    ((writeRun 2 [0, 0, 1, 1]).workCount = 1) ∧
      (((runEnsures regInit ["pkg", "pkg"]).creations.filter
        (fun e => e.1 = "pkg")).length = 1) :=
  ⟨c3_write_once_and_register_once.2.1 2 [0, 0, 1, 1] (by decide) (by decide),
    c3_write_once_and_register_once.2.2.2.1 ["pkg", "pkg"] ("pkg") (by decide)⟩


/-!
## `rewriteFileForPackageGlobals` — the AST rewriter (claims C4, C5)

Source: `src/helpers/globals.js`, lines 149–198.  The function returns the
contents unchanged when the owned-globals set is empty; otherwise it parses
the file, runs escope with `ecmaVersion: 6, nodejsScope: true`, then walks
the tree keeping `currentScope` in sync on `/Function/` nodes *only*; on
leaving an identifier node it mutates the node in place into
`__package_globals__.<name>` when the identifier

* is not the child of a `VariableDeclarator`,
* is not the child of a `MemberExpression` other than as its object,
* is not the child of a `Property`,
* is in the owned-globals set,
* is not in `currentScope.set`, and
* no reference passing through `currentScope` resolved to a binding of that
  name (`!currentScope.through.find((ref) => ref.resolved?.name === node.name)`).

The embedding covers the JS fragment with plain identifiers, non-computed
member accesses, assignments, binary operators, single-argument calls,
single-property object literals, literals, anonymous function expressions,
statement lists of expression statements, single `var` declarations, single
`let` declarations, function declarations, block statements, labelled
statements and returns.

Scope analysis for this fragment follows escope with `ecmaVersion: 6`:
`var` declarations hoist through blocks and labels to the enclosing function
body; `let` declarations and function declarations bind in the scope of the
statement list that immediately holds them (the function scope for a
function body's top level, a *block scope* for a nested block); a function
scope binds its parameters, `arguments`, its hoisted `var` names and its
body's top-level lexical names.  Because the walker updates `currentScope`
only on function nodes, block scopes are invisible to the rewrite
condition; they participate only in reference resolution, i.e. in which
references appear (resolved) in a function scope's `through` collection.
A reference passing through a function scope has a non-null `resolved`
exactly when its name is declared in some scope enclosing that function.

Statement labels and function-declaration names occupy identifier-only
syntactic slots.  escope creates no reference for them, but the walker's
parent checks do not skip them (their parents are `LabeledStatement` and
`FunctionDeclaration`), so they can be mutated into member expressions —
output that no longer parses.  These slots are therefore modelled as
`JsExpr` positions, and `jsParse` (the reparse the next pass performs)
succeeds only when every such slot is a plain identifier.  A function
declaration's name is tested against the function's *own* scope, because
the walker enters the function (and acquires its scope) before visiting
the name node.

Two further details of the source are modelled exactly: at top level
escope's `acquire(ast)` yields the *global* scope, whose `set` is empty
under `nodejsScope` and whose `through` holds only unresolved references
(top-level declarations live in the module function scope and therefore do
not block a top-level rewrite), while inside a function the module scope's
bindings are visible through `through`-resolution; and the mutation happens
on `leave`, so the identifiers of a freshly created member expression are
not revisited within the same pass. -/

mutual
inductive JsExpr where
  | ident (name : String)
  | member (obj : JsExpr) (prop : JsExpr)
  | assign (left : JsExpr) (right : JsExpr)
  | binop (left : JsExpr) (right : JsExpr)
  | call (callee : JsExpr) (arg : JsExpr)
  | objectLit (key : String) (value : JsExpr)
  | lit (value : Nat)
  | func (params : List String) (body : JsBody)
inductive JsStmt where
  | exprStmt (e : JsExpr)
  | varDecl (name : String) (init : Option JsExpr)
  | letDecl (name : String) (init : Option JsExpr)
  | funcDecl (nameNode : JsExpr) (params : List String) (body : JsBody)
  | block (body : JsBody)
  | labeled (label : JsExpr) (stmt : JsStmt)
  | ret (arg : Option JsExpr)
inductive JsBody where
  | nil
  | cons (s : JsStmt) (rest : JsBody)
end

/-- The name held by an identifier-only declaration slot (a function
declaration's name node); empty if the slot has been mutated away from an
identifier. -/
def declName : JsExpr → List String
  | .ident n => [n]
  | _ => []

/-! `var` names hoist through blocks and labels to the enclosing function
(or module) body; they never cross a function boundary. -/

mutual
def JsStmt.varNames : JsStmt → List String
  | .exprStmt _ => []
  | .varDecl n _ => [n]
  | .letDecl _ _ => []
  | .funcDecl _ _ _ => []
  | .block b => b.varNames
  | .labeled _ s => s.varNames
  | .ret _ => []
def JsBody.varNames : JsBody → List String
  | .nil => []
  | .cons s rest => s.varNames ++ rest.varNames
end

/-- Lexical (`let` and function-declaration) names bound at the immediate
level of a statement list: they belong to that list's own scope (the block
scope, or the function scope for a function body's top level).  A label is
transparent. -/
def JsStmt.lexNames : JsStmt → List String
  | .letDecl n _ => [n]
  | .funcDecl nm _ _ => declName nm
  | .labeled _ s => s.lexNames
  | _ => []

def JsBody.lexNames : JsBody → List String
  | .nil => []
  | .cons s rest => s.lexNames ++ rest.lexNames

/-- The variable set of a function scope: parameters, `arguments`, the
body's hoisted `var` names, and the body's top-level lexical names. -/
def functionScopeSet (ps : List String) (b : JsBody) : List String :=
  ps ++ ("arguments" :: (b.varNames ++ b.lexNames))

/-- The variable set of a block scope: the block's immediate lexical
names. -/
def blockScopeSet (b : JsBody) : List String := b.lexNames

/-- The variable set of the module (nodejs wrapper) function scope. -/
def moduleScopeSet (b : JsBody) : List String := b.varNames ++ b.lexNames

/-- The synthetic per-file namespace identifier. -/
def pgName : String := "__package_globals__"

/-- Is the name bound by some scope of the chain? -/
def boundInChain (chain : List (List String)) (n : String) : Bool :=
  chain.any (fun s => s.contains n)

/-- The walker's rewrite condition at an identifier in a rewritable
position: owned, not in the current function scope's `set`, and not the
resolved name of any reference passing through the current function scope.
At top level both collections are empty (the global scope under
`nodejsScope`). -/
def shouldRewrite (fs ft : List String) (g : List String) (n : String) : Bool :=
  g.contains n && !fs.contains n && !ft.contains n

/-- Is this expression node a plain identifier? -/
def JsExpr.isIdent : JsExpr → Bool
  | .ident _ => true
  | _ => false

/-! escope references of a subtree that are not bound within the given
stacked chain of local scopes: these are the references that *escape* the
scope at the chain's base and appear in its `through` collection.
Reference positions follow escope: a non-computed member property, an
object-literal key, a label and a declaration name are not references; a
variable initializer, an object-literal value and both sides of an
assignment are.  Nested functions and blocks push their own scope sets. -/

mutual
def escExpr (lc : List (List String)) : JsExpr → List String
  | .ident n => if boundInChain lc n then [] else [n]
  | .member o p => escExpr lc o ++ escProp lc p
  | .assign l r => escExpr lc l ++ escExpr lc r
  | .binop l r => escExpr lc l ++ escExpr lc r
  | .call f a => escExpr lc f ++ escExpr lc a
  | .objectLit _ v => escExpr lc v
  | .lit _ => []
  | .func ps b => escBody (functionScopeSet ps b :: lc) b
def escProp (lc : List (List String)) : JsExpr → List String
  | .ident _ => []
  | e => escExpr lc e
def escStmt (lc : List (List String)) : JsStmt → List String
  | .exprStmt e => escExpr lc e
  | .varDecl _ none => []
  | .varDecl _ (some e) => escExpr lc e
  | .letDecl _ none => []
  | .letDecl _ (some e) => escExpr lc e
  | .funcDecl _ ps b => escBody (functionScopeSet ps b :: lc) b
  | .block b => escBody (blockScopeSet b :: lc) b
  | .labeled _ s => escStmt lc s
  | .ret none => []
  | .ret (some e) => escExpr lc e
def escBody (lc : List (List String)) : JsBody → List String
  | .nil => []
  | .cons s rest => escStmt lc s ++ escBody lc rest
end

/-- The resolved part of a function scope's `through` collection: names of
references escaping the function that are declared in the chain of
enclosing scopes. -/
def throughOf (chain : List (List String)) (ps : List String) (b : JsBody) : List String :=
  (escBody [functionScopeSet ps b] b).filter (fun n => boundInChain chain n)

/-! The walk itself.  `fs`/`ft` are the tracked function scope's `set` and
resolved-`through` names (both empty at top level); `chain` is the full
lexical chain of enclosing scope sets (module scope innermost-last), used
only to compute the `through` collection of each function on entry.
`rewriteSkipTop` handles positions whose *direct* identifier child the
walker's parent checks skip (member property, object-literal value,
variable initializer). -/

mutual
def rewriteExpr (fs ft : List String) (chain : List (List String)) (g : List String) :
    JsExpr → JsExpr
  | .ident n =>
      if shouldRewrite fs ft g n then .member (.ident pgName) (.ident n) else .ident n
  | .member o p => .member (rewriteExpr fs ft chain g o) (rewriteSkipTop fs ft chain g p)
  | .assign l r => .assign (rewriteExpr fs ft chain g l) (rewriteExpr fs ft chain g r)
  | .binop l r => .binop (rewriteExpr fs ft chain g l) (rewriteExpr fs ft chain g r)
  | .call f a => .call (rewriteExpr fs ft chain g f) (rewriteExpr fs ft chain g a)
  | .objectLit k v => .objectLit k (rewriteSkipTop fs ft chain g v)
  | .lit v => .lit v
  | .func ps b =>
      .func ps (rewriteBody (functionScopeSet ps b) (throughOf chain ps b)
        (functionScopeSet ps b :: chain) g b)
def rewriteSkipTop (fs ft : List String) (chain : List (List String)) (g : List String) :
    JsExpr → JsExpr
  | .ident n => .ident n
  | e => rewriteExpr fs ft chain g e
def rewriteStmt (fs ft : List String) (chain : List (List String)) (g : List String) :
    JsStmt → JsStmt
  | .exprStmt e => .exprStmt (rewriteExpr fs ft chain g e)
  | .varDecl n none => .varDecl n none
  | .varDecl n (some e) => .varDecl n (some (rewriteSkipTop fs ft chain g e))
  | .letDecl n none => .letDecl n none
  | .letDecl n (some e) => .letDecl n (some (rewriteSkipTop fs ft chain g e))
  | .funcDecl nm ps b =>
      .funcDecl
        (rewriteExpr (functionScopeSet ps b) (throughOf chain ps b)
          (functionScopeSet ps b :: chain) g nm)
        ps
        (rewriteBody (functionScopeSet ps b) (throughOf chain ps b)
          (functionScopeSet ps b :: chain) g b)
  | .block b => .block (rewriteBody fs ft (blockScopeSet b :: chain) g b)
  | .labeled l s =>
      .labeled (rewriteExpr fs ft chain g l) (rewriteStmt fs ft chain g s)
  | .ret none => .ret none
  | .ret (some e) => .ret (some (rewriteExpr fs ft chain g e))
def rewriteBody (fs ft : List String) (chain : List (List String)) (g : List String) :
    JsBody → JsBody
  | .nil => .nil
  | .cons s rest => .cons (rewriteStmt fs ft chain g s) (rewriteBody fs ft chain g rest)
end

/-! Parseability of the loose tree: every identifier-only slot (a label, a
function declaration's name) actually holds an identifier.  The rewriter's
in-place mutation can violate this, and the violating output no longer
parses. -/

mutual
def JsExpr.wf : JsExpr → Bool
  | .ident _ => true
  | .member o p => o.wf && p.wf
  | .assign l r => l.wf && r.wf
  | .binop l r => l.wf && r.wf
  | .call f a => f.wf && a.wf
  | .objectLit _ v => v.wf
  | .lit _ => true
  | .func _ b => b.wf
def JsStmt.wf : JsStmt → Bool
  | .exprStmt e => e.wf
  | .varDecl _ none => true
  | .varDecl _ (some e) => e.wf
  | .letDecl _ none => true
  | .letDecl _ (some e) => e.wf
  | .funcDecl nm _ b => nm.isIdent && b.wf
  | .block b => b.wf
  | .labeled l s => l.isIdent && s.wf
  | .ret none => true
  | .ret (some e) => e.wf
def JsBody.wf : JsBody → Bool
  | .nil => true
  | .cons s rest => s.wf && rest.wf
end

/-- The parse step the next pass performs on the printed output: it
succeeds exactly when every identifier-only slot still holds an
identifier. -/
def jsParse (b : JsBody) : Option JsBody := if b.wf then some b else none

/-- `rewriteFileForPackageGlobals` from `src/helpers/globals.js` (lines
149–198): return the contents unchanged for an empty owned set, otherwise
parse and walk, starting with the global scope (empty `set`, no resolved
`through` under `nodejsScope`) and the module function scope on the
chain. -/
def rewriteFileForPackageGlobals (prog : JsBody) (g : List String) : Option JsBody :=
  if g.isEmpty then some prog
  else (jsParse prog).map (fun ast => rewriteBody [] [] [moduleScopeSet ast] g ast)

/-! Identifier-only slots and a given owned set: no label and no function
declaration name is an owned name (and each such slot is an identifier). -/

mutual
def exprSlotsSafe (g : List String) : JsExpr → Bool
  | .ident _ => true
  | .member o p => exprSlotsSafe g o && exprSlotsSafe g p
  | .assign l r => exprSlotsSafe g l && exprSlotsSafe g r
  | .binop l r => exprSlotsSafe g l && exprSlotsSafe g r
  | .call f a => exprSlotsSafe g f && exprSlotsSafe g a
  | .objectLit _ v => exprSlotsSafe g v
  | .lit _ => true
  | .func _ b => bodySlotsSafe g b
def stmtSlotsSafe (g : List String) : JsStmt → Bool
  | .exprStmt e => exprSlotsSafe g e
  | .varDecl _ none => true
  | .varDecl _ (some e) => exprSlotsSafe g e
  | .letDecl _ none => true
  | .letDecl _ (some e) => exprSlotsSafe g e
  | .funcDecl (.ident m) _ b => !g.contains m && bodySlotsSafe g b
  | .funcDecl _ _ _ => false
  | .block b => bodySlotsSafe g b
  | .labeled (.ident m) s => !g.contains m && stmtSlotsSafe g s
  | .labeled _ _ => false
  | .ret none => true
  | .ret (some e) => exprSlotsSafe g e
def bodySlotsSafe (g : List String) : JsBody → Bool
  | .nil => true
  | .cons s rest => stmtSlotsSafe g s && bodySlotsSafe g rest
end

/-! For a single name: the subtree uses it in no lexical-declaration or
identifier-only slot — no block-level `let` of that name, no function
declaration named it, no label named it.  (`var` declarations and
parameters of that name are allowed.) -/

mutual
def exprNoLex (name : String) : JsExpr → Bool
  | .ident _ => true
  | .member o p => exprNoLex name o && exprNoLex name p
  | .assign l r => exprNoLex name l && exprNoLex name r
  | .binop l r => exprNoLex name l && exprNoLex name r
  | .call f a => exprNoLex name f && exprNoLex name a
  | .objectLit _ v => exprNoLex name v
  | .lit _ => true
  | .func _ b => bodyNoLex name b
def stmtNoLex (name : String) : JsStmt → Bool
  | .exprStmt e => exprNoLex name e
  | .varDecl _ none => true
  | .varDecl _ (some e) => exprNoLex name e
  | .letDecl n none => n != name
  | .letDecl n (some e) => n != name && exprNoLex name e
  | .funcDecl (.ident m) _ b => m != name && bodyNoLex name b
  | .funcDecl _ _ _ => false
  | .block b => bodyNoLex name b
  | .labeled (.ident m) s => m != name && stmtNoLex name s
  | .labeled _ _ => false
  | .ret none => true
  | .ret (some e) => exprNoLex name e
def bodyNoLex (name : String) : JsBody → Bool
  | .nil => true
  | .cons s rest => stmtNoLex name s && bodyNoLex name rest
end

theorem contains_eq_decide_mem (l : List String) (n : String) :
    l.contains n = decide (n ∈ l) := by
  by_cases h : n ∈ l
  · have h1 : l.contains n = true := List.elem_iff.mpr h
    rw [h1]
    simp [h]
  · have h1 : ¬l.contains n = true := fun hc => h (List.elem_iff.mp hc)
    have h2 : l.contains n = false := Bool.eq_false_iff.mpr h1
    rw [h2]
    simp [h]

theorem contains_of_mem (l : List String) (n : String) (h : n ∈ l) :
    l.contains n = true := by
  rw [contains_eq_decide_mem]
  simp [h]

theorem mem_of_contains (l : List String) (n : String) (h : l.contains n = true) :
    n ∈ l := by
  rw [contains_eq_decide_mem] at h
  simpa using h

theorem contains_eq_false_of_not_mem (l : List String) (n : String) (h : n ∉ l) :
    l.contains n = false :=
  Bool.eq_false_iff.mpr (fun hc => h (mem_of_contains l n hc))

theorem contains_filter_ne (g : List String) (name n : String) (h : n ≠ name) :
    (g.filter (fun x => x ≠ name)).contains n = g.contains n := by
  rw [contains_eq_decide_mem, contains_eq_decide_mem]
  by_cases hm : n ∈ g
  · have h1 : n ∈ g.filter (fun x => x ≠ name) := List.mem_filter.mpr ⟨hm, by simp [h]⟩
    simp [h1, hm, h]
  · have h1 : n ∉ g.filter (fun x => x ≠ name) := fun hc => hm (List.mem_filter.mp hc).1
    simp [h1, hm]

theorem filter_ne_not_contains (g : List String) (name : String) :
    (g.filter (fun x => x ≠ name)).contains name = false := by
  have h1 : name ∉ g.filter (fun x => x ≠ name) := by
    intro hc
    have h2 := (List.mem_filter.mp hc).2
    simp at h2
  exact contains_eq_false_of_not_mem _ _ h1

theorem shouldRewrite_filter (fs ft g : List String) (name n : String) (h : n ≠ name) :
    shouldRewrite fs ft (g.filter (fun x => x ≠ name)) n = shouldRewrite fs ft g n := by
  unfold shouldRewrite
  rw [contains_filter_ne g name n h]

theorem shouldRewrite_of_fs (fs ft g : List String) (n : String)
    (h : fs.contains n = true) : shouldRewrite fs ft g n = false := by
  unfold shouldRewrite
  rw [h]
  simp

theorem shouldRewrite_of_ft (fs ft g : List String) (n : String)
    (h : ft.contains n = true) : shouldRewrite fs ft g n = false := by
  unfold shouldRewrite
  rw [h]
  simp

theorem shouldRewrite_of_not_g (fs ft g : List String) (n : String)
    (h : g.contains n = false) : shouldRewrite fs ft g n = false := by
  unfold shouldRewrite
  rw [h]
  simp

theorem shouldRewrite_false_mono (fs ft ftb g : List String) (n : String)
    (h : shouldRewrite fs ft g n = false)
    (hsub : ft.contains n = true → ftb.contains n = true) :
    shouldRewrite fs ftb g n = false := by
  unfold shouldRewrite at h ⊢
  cases hg : g.contains n with
  | false => simp [hg]
  | true =>
    cases hfs : fs.contains n with
    | true => simp [hfs]
    | false =>
      cases hft2 : ftb.contains n with
      | true => simp [hft2]
      | false =>
        exfalso
        rw [hg, hfs] at h
        simp at h
        have h3 := hsub (contains_of_mem ft n h)
        rw [hft2] at h3
        exact Bool.false_ne_true h3

theorem boundInChain_cons_eq (s : List String) (chain : List (List String)) (n : String) :
    boundInChain (s :: chain) n = (s.contains n || boundInChain chain n) := by
  unfold boundInChain
  simp only [List.any_cons]

theorem boundInChain_head (s : List String) (chain : List (List String)) (n : String)
    (h : n ∈ s) : boundInChain (s :: chain) n = true := by
  rw [boundInChain_cons_eq, contains_of_mem s n h]
  rfl

theorem boundInChain_tail (s : List String) (chain : List (List String)) (n : String)
    (h : boundInChain chain n = true) : boundInChain (s :: chain) n = true := by
  rw [boundInChain_cons_eq, h]
  simp

theorem boundInChain_singleton (s : List String) (n : String) :
    boundInChain [s] n = s.contains n := by
  unfold boundInChain
  simp only [List.any_cons, List.any_nil, Bool.or_false]

theorem boundInChain_append_left (lc ext : List (List String)) (n : String)
    (h : boundInChain lc n = true) : boundInChain (lc ++ ext) n = true := by
  unfold boundInChain at h ⊢
  rw [List.any_append, h]
  simp

theorem boundInChain_append_false (lc ext : List (List String)) (n : String)
    (h : boundInChain (lc ++ ext) n = false) : boundInChain lc n = false := by
  cases hl : boundInChain lc n with
  | false => rfl
  | true => rw [boundInChain_append_left lc ext n hl] at h; exact h.symm ▸ rfl

theorem esc_or_split (fs ft : List String) (name : String) (l1 l2 : List String)
    (h : fs.contains name = true ∨ ft.contains name = true ∨ name ∉ l1 ++ l2) :
    (fs.contains name = true ∨ ft.contains name = true ∨ name ∉ l1)
    ∧ (fs.contains name = true ∨ ft.contains name = true ∨ name ∉ l2) := by
  rcases h with h | h | h
  · exact ⟨Or.inl h, Or.inl h⟩
  · exact ⟨Or.inr (Or.inl h), Or.inr (Or.inl h)⟩
  · exact ⟨Or.inr (Or.inr (fun hc => h (List.mem_append.mpr (Or.inl hc)))),
      Or.inr (Or.inr (fun hc => h (List.mem_append.mpr (Or.inr hc))))⟩

theorem mem_escProp (lc : List (List String)) (e : JsExpr) (n : String)
    (h : n ∈ escProp lc e) : n ∈ escExpr lc e := by
  cases e with
  | ident m => simp [escProp] at h
  | member o p => simpa [escProp] using h
  | assign l r => simpa [escProp] using h
  | binop l r => simpa [escProp] using h
  | call f a => simpa [escProp] using h
  | objectLit k v => simpa [escProp] using h
  | lit v => simpa [escProp] using h
  | func ps b => simpa [escProp] using h

theorem esc_or_weaken_prop (fs ft : List String) (name : String)
    (lc : List (List String)) (e : JsExpr)
    (h : fs.contains name = true ∨ ft.contains name = true ∨ name ∉ escExpr lc e) :
    fs.contains name = true ∨ ft.contains name = true ∨ name ∉ escProp lc e := by
  rcases h with h | h | h
  · exact Or.inl h
  · exact Or.inr (Or.inl h)
  · exact Or.inr (Or.inr (fun hc => h (mem_escProp lc e name hc)))

theorem rewriteExpr_isIdent (fs ft : List String) (chain : List (List String))
    (g : List String) (e : JsExpr) (h : e.isIdent = false) :
    (rewriteExpr fs ft chain g e).isIdent = false := by
  cases e with
  | ident n => simp [JsExpr.isIdent] at h
  | member o p => simp [rewriteExpr, JsExpr.isIdent]
  | assign l r => simp [rewriteExpr, JsExpr.isIdent]
  | binop l r => simp [rewriteExpr, JsExpr.isIdent]
  | call f a => simp [rewriteExpr, JsExpr.isIdent]
  | objectLit k v => simp [rewriteExpr, JsExpr.isIdent]
  | lit v => simp [rewriteExpr, JsExpr.isIdent]
  | func ps b => simp [rewriteExpr, JsExpr.isIdent]

theorem rewriteSkipTop_of_not_ident (fs ft : List String) (chain : List (List String))
    (g : List String) (e : JsExpr) (h : e.isIdent = false) :
    rewriteSkipTop fs ft chain g e = rewriteExpr fs ft chain g e := by
  cases e with
  | ident n => simp [JsExpr.isIdent] at h
  | member o p => simp [rewriteSkipTop]
  | assign l r => simp [rewriteSkipTop]
  | binop l r => simp [rewriteSkipTop]
  | call f a => simp [rewriteSkipTop]
  | objectLit k v => simp [rewriteSkipTop]
  | lit v => simp [rewriteSkipTop]
  | func ps b => simp [rewriteSkipTop]

theorem escProp_eq_of_not_ident (lc : List (List String)) (e : JsExpr)
    (h : e.isIdent = false) : escProp lc e = escExpr lc e := by
  cases e with
  | ident n => simp [JsExpr.isIdent] at h
  | member o p => simp [escProp]
  | assign l r => simp [escProp]
  | binop l r => simp [escProp]
  | call f a => simp [escProp]
  | objectLit k v => simp [escProp]
  | lit v => simp [escProp]
  | func ps b => simp [escProp]

theorem stmtNoLex_lexNames (name : String) :
    ∀ (s : JsStmt), stmtNoLex name s = true → name ∉ JsStmt.lexNames s
  | .exprStmt e, _ => by simp [JsStmt.lexNames]
  | .varDecl n i, _ => by simp [JsStmt.lexNames]
  | .letDecl n none, h => by
    simp only [stmtNoLex] at h
    simp only [JsStmt.lexNames, List.mem_singleton]
    simp at h
    exact fun hc => h hc.symm
  | .letDecl n (some e), h => by
    simp only [stmtNoLex] at h
    rw [Bool.and_eq_true] at h
    obtain ⟨h1, h2⟩ := h
    simp only [JsStmt.lexNames, List.mem_singleton]
    simp at h1
    exact fun hc => h1 hc.symm
  | .funcDecl nm ps b, h => by
    cases nm with
    | ident m =>
      simp only [stmtNoLex] at h
      rw [Bool.and_eq_true] at h
      obtain ⟨h1, h2⟩ := h
      simp only [JsStmt.lexNames, declName, List.mem_singleton]
      simp at h1
      exact fun hc => h1 hc.symm
    | member o p => simp [stmtNoLex] at h
    | assign l r => simp [stmtNoLex] at h
    | binop l r => simp [stmtNoLex] at h
    | call f a => simp [stmtNoLex] at h
    | objectLit k v => simp [stmtNoLex] at h
    | lit v => simp [stmtNoLex] at h
    | func ps2 b2 => simp [stmtNoLex] at h
  | .block b, _ => by simp [JsStmt.lexNames]
  | .labeled l s, h => by
    cases l with
    | ident m =>
      simp only [stmtNoLex] at h
      rw [Bool.and_eq_true] at h
      obtain ⟨h1, h2⟩ := h
      simp only [JsStmt.lexNames]
      exact stmtNoLex_lexNames name s h2
    | member o p => simp [stmtNoLex] at h
    | assign l2 r => simp [stmtNoLex] at h
    | binop l2 r => simp [stmtNoLex] at h
    | call f a => simp [stmtNoLex] at h
    | objectLit k v => simp [stmtNoLex] at h
    | lit v => simp [stmtNoLex] at h
    | func ps b => simp [stmtNoLex] at h
  | .ret i, _ => by simp [JsStmt.lexNames]

theorem bodyNoLex_lexNames (name : String) :
    ∀ (b : JsBody), bodyNoLex name b = true → name ∉ JsBody.lexNames b
  | .nil, _ => by simp [JsBody.lexNames]
  | .cons s rest, h => by
    simp only [bodyNoLex] at h
    rw [Bool.and_eq_true] at h
    obtain ⟨h1, h2⟩ := h
    simp only [JsBody.lexNames, List.mem_append]
    exact fun hc => hc.elim (stmtNoLex_lexNames name s h1) (bodyNoLex_lexNames name rest h2)

mutual
theorem escExpr_unbound (n : String) :
    ∀ (lc : List (List String)) (e : JsExpr),
      n ∈ escExpr lc e → boundInChain lc n = false
  | lc, .ident m, h => by
    simp only [escExpr] at h
    by_cases hb : boundInChain lc m = true
    · rw [if_pos hb] at h
      simp at h
    · rw [if_neg hb] at h
      simp at h
      subst h
      exact Bool.eq_false_iff.mpr hb
  | lc, .member o p, h => by
    simp only [escExpr] at h
    rcases List.mem_append.mp h with h1 | h1
    · exact escExpr_unbound n lc o h1
    · exact escProp_unbound n lc p h1
  | lc, .assign l r, h => by
    simp only [escExpr] at h
    rcases List.mem_append.mp h with h1 | h1
    · exact escExpr_unbound n lc l h1
    · exact escExpr_unbound n lc r h1
  | lc, .binop l r, h => by
    simp only [escExpr] at h
    rcases List.mem_append.mp h with h1 | h1
    · exact escExpr_unbound n lc l h1
    · exact escExpr_unbound n lc r h1
  | lc, .call f a, h => by
    simp only [escExpr] at h
    rcases List.mem_append.mp h with h1 | h1
    · exact escExpr_unbound n lc f h1
    · exact escExpr_unbound n lc a h1
  | lc, .objectLit k v, h => by
    simp only [escExpr] at h
    exact escExpr_unbound n lc v h
  | lc, .lit v, h => by simp [escExpr] at h
  | lc, .func ps b, h => by
    simp only [escExpr] at h
    have h2 := escBody_unbound n (functionScopeSet ps b :: lc) b h
    rw [boundInChain_cons_eq] at h2
    simp at h2
    exact h2.2
termination_by l e h => (sizeOf e, 1)
theorem escProp_unbound (n : String) :
    ∀ (lc : List (List String)) (e : JsExpr),
      n ∈ escProp lc e → boundInChain lc n = false
  | lc, .ident m, h => by simp [escProp] at h
  | lc, .member o p, h => by
    rw [escProp_eq_of_not_ident lc (.member o p) rfl] at h
    exact escExpr_unbound n lc (.member o p) h
  | lc, .assign l r, h => by
    rw [escProp_eq_of_not_ident lc (.assign l r) rfl] at h
    exact escExpr_unbound n lc (.assign l r) h
  | lc, .binop l r, h => by
    rw [escProp_eq_of_not_ident lc (.binop l r) rfl] at h
    exact escExpr_unbound n lc (.binop l r) h
  | lc, .call f a, h => by
    rw [escProp_eq_of_not_ident lc (.call f a) rfl] at h
    exact escExpr_unbound n lc (.call f a) h
  | lc, .objectLit k v, h => by
    rw [escProp_eq_of_not_ident lc (.objectLit k v) rfl] at h
    exact escExpr_unbound n lc (.objectLit k v) h
  | lc, .lit v, h => by
    rw [escProp_eq_of_not_ident lc (.lit v) rfl] at h
    exact escExpr_unbound n lc (.lit v) h
  | lc, .func ps b, h => by
    rw [escProp_eq_of_not_ident lc (.func ps b) rfl] at h
    exact escExpr_unbound n lc (.func ps b) h
termination_by l e h => (sizeOf e, 2)
theorem escStmt_unbound (n : String) :
    ∀ (lc : List (List String)) (s : JsStmt),
      n ∈ escStmt lc s → boundInChain lc n = false
  | lc, .exprStmt e, h => by
    simp only [escStmt] at h
    exact escExpr_unbound n lc e h
  | lc, .varDecl m none, h => by simp [escStmt] at h
  | lc, .varDecl m (some e), h => by
    simp only [escStmt] at h
    exact escExpr_unbound n lc e h
  | lc, .letDecl m none, h => by simp [escStmt] at h
  | lc, .letDecl m (some e), h => by
    simp only [escStmt] at h
    exact escExpr_unbound n lc e h
  | lc, .funcDecl nm ps b, h => by
    simp only [escStmt] at h
    have h2 := escBody_unbound n (functionScopeSet ps b :: lc) b h
    rw [boundInChain_cons_eq] at h2
    simp at h2
    exact h2.2
  | lc, .block b, h => by
    simp only [escStmt] at h
    have h2 := escBody_unbound n (blockScopeSet b :: lc) b h
    rw [boundInChain_cons_eq] at h2
    simp at h2
    exact h2.2
  | lc, .labeled l s, h => by
    simp only [escStmt] at h
    exact escStmt_unbound n lc s h
  | lc, .ret none, h => by simp [escStmt] at h
  | lc, .ret (some e), h => by
    simp only [escStmt] at h
    exact escExpr_unbound n lc e h
termination_by l s h => (sizeOf s, 0)
theorem escBody_unbound (n : String) :
    ∀ (lc : List (List String)) (b : JsBody),
      n ∈ escBody lc b → boundInChain lc n = false
  | lc, .nil, h => by simp [escBody] at h
  | lc, .cons s rest, h => by
    simp only [escBody] at h
    rcases List.mem_append.mp h with h1 | h1
    · exact escStmt_unbound n lc s h1
    · exact escBody_unbound n lc rest h1
termination_by l b h => (sizeOf b, 0)
end

mutual
theorem escExpr_mono (n : String) :
    ∀ (lc ext : List (List String)) (e : JsExpr),
      n ∈ escExpr (lc ++ ext) e → n ∈ escExpr lc e
  | lc, ext, .ident m, h => by
    simp only [escExpr] at h ⊢
    by_cases hb : boundInChain (lc ++ ext) m = true
    · rw [if_pos hb] at h
      simp at h
    · rw [if_neg hb] at h
      have hb2 : boundInChain lc m = false :=
        boundInChain_append_false lc ext m (Bool.eq_false_iff.mpr hb)
      rw [if_neg (by simp [hb2])]
      exact h
  | lc, ext, .member o p, h => by
    simp only [escExpr] at h ⊢
    rcases List.mem_append.mp h with h1 | h1
    · exact List.mem_append.mpr (Or.inl (escExpr_mono n lc ext o h1))
    · exact List.mem_append.mpr (Or.inr (escProp_mono n lc ext p h1))
  | lc, ext, .assign l r, h => by
    simp only [escExpr] at h ⊢
    rcases List.mem_append.mp h with h1 | h1
    · exact List.mem_append.mpr (Or.inl (escExpr_mono n lc ext l h1))
    · exact List.mem_append.mpr (Or.inr (escExpr_mono n lc ext r h1))
  | lc, ext, .binop l r, h => by
    simp only [escExpr] at h ⊢
    rcases List.mem_append.mp h with h1 | h1
    · exact List.mem_append.mpr (Or.inl (escExpr_mono n lc ext l h1))
    · exact List.mem_append.mpr (Or.inr (escExpr_mono n lc ext r h1))
  | lc, ext, .call f a, h => by
    simp only [escExpr] at h ⊢
    rcases List.mem_append.mp h with h1 | h1
    · exact List.mem_append.mpr (Or.inl (escExpr_mono n lc ext f h1))
    · exact List.mem_append.mpr (Or.inr (escExpr_mono n lc ext a h1))
  | lc, ext, .objectLit k v, h => by
    simp only [escExpr] at h ⊢
    exact escExpr_mono n lc ext v h
  | lc, ext, .lit v, h => by simp [escExpr] at h
  | lc, ext, .func ps b, h => by
    simp only [escExpr] at h ⊢
    rw [← List.cons_append] at h
    exact escBody_mono n (functionScopeSet ps b :: lc) ext b h
termination_by l x e h => (sizeOf e, 1)
theorem escProp_mono (n : String) :
    ∀ (lc ext : List (List String)) (e : JsExpr),
      n ∈ escProp (lc ++ ext) e → n ∈ escProp lc e
  | lc, ext, .ident m, h => by simp [escProp] at h
  | lc, ext, .member o p, h => by
    rw [escProp_eq_of_not_ident (lc ++ ext) (.member o p) rfl] at h
    rw [escProp_eq_of_not_ident lc (.member o p) rfl]
    exact escExpr_mono n lc ext (.member o p) h
  | lc, ext, .assign l r, h => by
    rw [escProp_eq_of_not_ident (lc ++ ext) (.assign l r) rfl] at h
    rw [escProp_eq_of_not_ident lc (.assign l r) rfl]
    exact escExpr_mono n lc ext (.assign l r) h
  | lc, ext, .binop l r, h => by
    rw [escProp_eq_of_not_ident (lc ++ ext) (.binop l r) rfl] at h
    rw [escProp_eq_of_not_ident lc (.binop l r) rfl]
    exact escExpr_mono n lc ext (.binop l r) h
  | lc, ext, .call f a, h => by
    rw [escProp_eq_of_not_ident (lc ++ ext) (.call f a) rfl] at h
    rw [escProp_eq_of_not_ident lc (.call f a) rfl]
    exact escExpr_mono n lc ext (.call f a) h
  | lc, ext, .objectLit k v, h => by
    rw [escProp_eq_of_not_ident (lc ++ ext) (.objectLit k v) rfl] at h
    rw [escProp_eq_of_not_ident lc (.objectLit k v) rfl]
    exact escExpr_mono n lc ext (.objectLit k v) h
  | lc, ext, .lit v, h => by
    rw [escProp_eq_of_not_ident (lc ++ ext) (.lit v) rfl] at h
    rw [escProp_eq_of_not_ident lc (.lit v) rfl]
    exact escExpr_mono n lc ext (.lit v) h
  | lc, ext, .func ps b, h => by
    rw [escProp_eq_of_not_ident (lc ++ ext) (.func ps b) rfl] at h
    rw [escProp_eq_of_not_ident lc (.func ps b) rfl]
    exact escExpr_mono n lc ext (.func ps b) h
termination_by l x e h => (sizeOf e, 2)
theorem escStmt_mono (n : String) :
    ∀ (lc ext : List (List String)) (s : JsStmt),
      n ∈ escStmt (lc ++ ext) s → n ∈ escStmt lc s
  | lc, ext, .exprStmt e, h => by
    simp only [escStmt] at h ⊢
    exact escExpr_mono n lc ext e h
  | lc, ext, .varDecl m none, h => by simp [escStmt] at h
  | lc, ext, .varDecl m (some e), h => by
    simp only [escStmt] at h ⊢
    exact escExpr_mono n lc ext e h
  | lc, ext, .letDecl m none, h => by simp [escStmt] at h
  | lc, ext, .letDecl m (some e), h => by
    simp only [escStmt] at h ⊢
    exact escExpr_mono n lc ext e h
  | lc, ext, .funcDecl nm ps b, h => by
    simp only [escStmt] at h ⊢
    rw [← List.cons_append] at h
    exact escBody_mono n (functionScopeSet ps b :: lc) ext b h
  | lc, ext, .block b, h => by
    simp only [escStmt] at h ⊢
    rw [← List.cons_append] at h
    exact escBody_mono n (blockScopeSet b :: lc) ext b h
  | lc, ext, .labeled l s, h => by
    simp only [escStmt] at h ⊢
    exact escStmt_mono n lc ext s h
  | lc, ext, .ret none, h => by simp [escStmt] at h
  | lc, ext, .ret (some e), h => by
    simp only [escStmt] at h ⊢
    exact escExpr_mono n lc ext e h
termination_by l x s h => (sizeOf s, 0)
theorem escBody_mono (n : String) :
    ∀ (lc ext : List (List String)) (b : JsBody),
      n ∈ escBody (lc ++ ext) b → n ∈ escBody lc b
  | lc, ext, .nil, h => by simp [escBody] at h
  | lc, ext, .cons s rest, h => by
    simp only [escBody] at h ⊢
    rcases List.mem_append.mp h with h1 | h1
    · exact List.mem_append.mpr (Or.inl (escStmt_mono n lc ext s h1))
    · exact List.mem_append.mpr (Or.inr (escBody_mono n lc ext rest h1))
termination_by l x b h => (sizeOf b, 0)
end

mutual
theorem rewriteStmt_varNames :
    ∀ (fs ft : List String) (chain : List (List String)) (g : List String) (s : JsStmt),
      JsStmt.varNames (rewriteStmt fs ft chain g s) = s.varNames
  | fs, ft, chain, g, .exprStmt e => by simp [rewriteStmt, JsStmt.varNames]
  | fs, ft, chain, g, .varDecl n none => by simp [rewriteStmt, JsStmt.varNames]
  | fs, ft, chain, g, .varDecl n (some e) => by simp [rewriteStmt, JsStmt.varNames]
  | fs, ft, chain, g, .letDecl n none => by simp [rewriteStmt, JsStmt.varNames]
  | fs, ft, chain, g, .letDecl n (some e) => by simp [rewriteStmt, JsStmt.varNames]
  | fs, ft, chain, g, .funcDecl nm ps b => by simp [rewriteStmt, JsStmt.varNames]
  | fs, ft, chain, g, .block b => by
    simp only [rewriteStmt, JsStmt.varNames]
    exact rewriteBody_varNames fs ft (blockScopeSet b :: chain) g b
  | fs, ft, chain, g, .labeled l s => by
    simp only [rewriteStmt, JsStmt.varNames]
    exact rewriteStmt_varNames fs ft chain g s
  | fs, ft, chain, g, .ret none => by simp [rewriteStmt, JsStmt.varNames]
  | fs, ft, chain, g, .ret (some e) => by simp [rewriteStmt, JsStmt.varNames]
termination_by f t c g s => (sizeOf s, 0)
theorem rewriteBody_varNames :
    ∀ (fs ft : List String) (chain : List (List String)) (g : List String) (b : JsBody),
      JsBody.varNames (rewriteBody fs ft chain g b) = b.varNames
  | fs, ft, chain, g, .nil => by simp [rewriteBody, JsBody.varNames]
  | fs, ft, chain, g, .cons s rest => by
    simp only [rewriteBody, JsBody.varNames]
    rw [rewriteStmt_varNames fs ft chain g s, rewriteBody_varNames fs ft chain g rest]
termination_by f t c g b => (sizeOf b, 0)
end

theorem rewriteStmt_lexNames :
    ∀ (fs ft : List String) (chain : List (List String)) (g : List String) (s : JsStmt),
      stmtSlotsSafe g s = true →
      JsStmt.lexNames (rewriteStmt fs ft chain g s) = s.lexNames
  | fs, ft, chain, g, .exprStmt e, _ => by simp [rewriteStmt, JsStmt.lexNames]
  | fs, ft, chain, g, .varDecl n none, _ => by simp [rewriteStmt, JsStmt.lexNames]
  | fs, ft, chain, g, .varDecl n (some e), _ => by simp [rewriteStmt, JsStmt.lexNames]
  | fs, ft, chain, g, .letDecl n none, _ => by simp [rewriteStmt, JsStmt.lexNames]
  | fs, ft, chain, g, .letDecl n (some e), _ => by simp [rewriteStmt, JsStmt.lexNames]
  | fs, ft, chain, g, .funcDecl nm ps b, h => by
    cases nm with
    | ident m =>
      simp only [stmtSlotsSafe] at h
      rw [Bool.and_eq_true] at h
      obtain ⟨h1, h2⟩ := h
      have hm : g.contains m = false := by simpa using h1
      simp only [rewriteStmt, JsStmt.lexNames, rewriteExpr]
      rw [shouldRewrite_of_not_g _ _ g m hm]
      simp [declName]
    | member o p => simp [stmtSlotsSafe] at h
    | assign l r => simp [stmtSlotsSafe] at h
    | binop l r => simp [stmtSlotsSafe] at h
    | call f a => simp [stmtSlotsSafe] at h
    | objectLit k v => simp [stmtSlotsSafe] at h
    | lit v => simp [stmtSlotsSafe] at h
    | func ps2 b2 => simp [stmtSlotsSafe] at h
  | fs, ft, chain, g, .block b, _ => by simp [rewriteStmt, JsStmt.lexNames]
  | fs, ft, chain, g, .labeled l s, h => by
    cases l with
    | ident m =>
      simp only [stmtSlotsSafe] at h
      rw [Bool.and_eq_true] at h
      obtain ⟨h1, h2⟩ := h
      simp only [rewriteStmt, JsStmt.lexNames]
      exact rewriteStmt_lexNames fs ft chain g s h2
    | member o p => simp [stmtSlotsSafe] at h
    | assign l2 r => simp [stmtSlotsSafe] at h
    | binop l2 r => simp [stmtSlotsSafe] at h
    | call f a => simp [stmtSlotsSafe] at h
    | objectLit k v => simp [stmtSlotsSafe] at h
    | lit v => simp [stmtSlotsSafe] at h
    | func ps b => simp [stmtSlotsSafe] at h
  | fs, ft, chain, g, .ret none, _ => by simp [rewriteStmt, JsStmt.lexNames]
  | fs, ft, chain, g, .ret (some e), _ => by simp [rewriteStmt, JsStmt.lexNames]

theorem rewriteBody_lexNames :
    ∀ (fs ft : List String) (chain : List (List String)) (g : List String) (b : JsBody),
      bodySlotsSafe g b = true →
      JsBody.lexNames (rewriteBody fs ft chain g b) = b.lexNames
  | fs, ft, chain, g, .nil, _ => by simp [rewriteBody, JsBody.lexNames]
  | fs, ft, chain, g, .cons s rest, h => by
    simp only [bodySlotsSafe] at h
    rw [Bool.and_eq_true] at h
    obtain ⟨h1, h2⟩ := h
    simp only [rewriteBody, JsBody.lexNames]
    rw [rewriteStmt_lexNames fs ft chain g s h1, rewriteBody_lexNames fs ft chain g rest h2]

theorem rewriteBody_functionScopeSet (fs ft : List String) (chain : List (List String))
    (g ps : List String) (b : JsBody) (h : bodySlotsSafe g b = true) :
    functionScopeSet ps (rewriteBody fs ft chain g b) = functionScopeSet ps b := by
  unfold functionScopeSet
  rw [rewriteBody_varNames fs ft chain g b, rewriteBody_lexNames fs ft chain g b h]

theorem rewriteBody_blockScopeSet (fs ft : List String) (chain : List (List String))
    (g : List String) (b : JsBody) (h : bodySlotsSafe g b = true) :
    blockScopeSet (rewriteBody fs ft chain g b) = blockScopeSet b := by
  unfold blockScopeSet
  exact rewriteBody_lexNames fs ft chain g b h

mutual
theorem rewriteExpr_wf :
    ∀ (fs ft : List String) (chain : List (List String)) (g : List String) (e : JsExpr),
      exprSlotsSafe g e = true → JsExpr.wf e = true →
      JsExpr.wf (rewriteExpr fs ft chain g e) = true
  | fs, ft, chain, g, .ident n, _, _ => by
    simp only [rewriteExpr]
    by_cases hc : shouldRewrite fs ft g n = true
    · rw [if_pos hc]
      simp [JsExpr.wf]
    · rw [if_neg hc]
      simp [JsExpr.wf]
  | fs, ft, chain, g, .member o p, hs, hw => by
    simp only [exprSlotsSafe, Bool.and_eq_true] at hs
    simp only [JsExpr.wf, Bool.and_eq_true] at hw
    simp only [rewriteExpr, JsExpr.wf, Bool.and_eq_true]
    exact ⟨rewriteExpr_wf fs ft chain g o hs.1 hw.1,
      rewriteSkipTop_wf fs ft chain g p hs.2 hw.2⟩
  | fs, ft, chain, g, .assign l r, hs, hw => by
    simp only [exprSlotsSafe, Bool.and_eq_true] at hs
    simp only [JsExpr.wf, Bool.and_eq_true] at hw
    simp only [rewriteExpr, JsExpr.wf, Bool.and_eq_true]
    exact ⟨rewriteExpr_wf fs ft chain g l hs.1 hw.1,
      rewriteExpr_wf fs ft chain g r hs.2 hw.2⟩
  | fs, ft, chain, g, .binop l r, hs, hw => by
    simp only [exprSlotsSafe, Bool.and_eq_true] at hs
    simp only [JsExpr.wf, Bool.and_eq_true] at hw
    simp only [rewriteExpr, JsExpr.wf, Bool.and_eq_true]
    exact ⟨rewriteExpr_wf fs ft chain g l hs.1 hw.1,
      rewriteExpr_wf fs ft chain g r hs.2 hw.2⟩
  | fs, ft, chain, g, .call f a, hs, hw => by
    simp only [exprSlotsSafe, Bool.and_eq_true] at hs
    simp only [JsExpr.wf, Bool.and_eq_true] at hw
    simp only [rewriteExpr, JsExpr.wf, Bool.and_eq_true]
    exact ⟨rewriteExpr_wf fs ft chain g f hs.1 hw.1,
      rewriteExpr_wf fs ft chain g a hs.2 hw.2⟩
  | fs, ft, chain, g, .objectLit k v, hs, hw => by
    simp only [exprSlotsSafe] at hs
    simp only [JsExpr.wf] at hw
    simp only [rewriteExpr, JsExpr.wf]
    exact rewriteSkipTop_wf fs ft chain g v hs hw
  | fs, ft, chain, g, .lit v, _, _ => by simp [rewriteExpr, JsExpr.wf]
  | fs, ft, chain, g, .func ps b, hs, hw => by
    simp only [exprSlotsSafe] at hs
    simp only [JsExpr.wf] at hw
    simp only [rewriteExpr, JsExpr.wf]
    exact rewriteBody_wf (functionScopeSet ps b) (throughOf chain ps b)
      (functionScopeSet ps b :: chain) g b hs hw
termination_by f t c g e hs hw => (sizeOf e, 1)
theorem rewriteSkipTop_wf :
    ∀ (fs ft : List String) (chain : List (List String)) (g : List String) (e : JsExpr),
      exprSlotsSafe g e = true → JsExpr.wf e = true →
      JsExpr.wf (rewriteSkipTop fs ft chain g e) = true
  | fs, ft, chain, g, .ident n, _, _ => by simp [rewriteSkipTop, JsExpr.wf]
  | fs, ft, chain, g, .member o p, hs, hw => by
    rw [rewriteSkipTop_of_not_ident fs ft chain g (.member o p) rfl]
    exact rewriteExpr_wf fs ft chain g (.member o p) hs hw
  | fs, ft, chain, g, .assign l r, hs, hw => by
    rw [rewriteSkipTop_of_not_ident fs ft chain g (.assign l r) rfl]
    exact rewriteExpr_wf fs ft chain g (.assign l r) hs hw
  | fs, ft, chain, g, .binop l r, hs, hw => by
    rw [rewriteSkipTop_of_not_ident fs ft chain g (.binop l r) rfl]
    exact rewriteExpr_wf fs ft chain g (.binop l r) hs hw
  | fs, ft, chain, g, .call f a, hs, hw => by
    rw [rewriteSkipTop_of_not_ident fs ft chain g (.call f a) rfl]
    exact rewriteExpr_wf fs ft chain g (.call f a) hs hw
  | fs, ft, chain, g, .objectLit k v, hs, hw => by
    rw [rewriteSkipTop_of_not_ident fs ft chain g (.objectLit k v) rfl]
    exact rewriteExpr_wf fs ft chain g (.objectLit k v) hs hw
  | fs, ft, chain, g, .lit v, hs, hw => by
    rw [rewriteSkipTop_of_not_ident fs ft chain g (.lit v) rfl]
    exact rewriteExpr_wf fs ft chain g (.lit v) hs hw
  | fs, ft, chain, g, .func ps b, hs, hw => by
    rw [rewriteSkipTop_of_not_ident fs ft chain g (.func ps b) rfl]
    exact rewriteExpr_wf fs ft chain g (.func ps b) hs hw
termination_by f t c g e hs hw => (sizeOf e, 2)
theorem rewriteStmt_wf :
    ∀ (fs ft : List String) (chain : List (List String)) (g : List String) (s : JsStmt),
      stmtSlotsSafe g s = true → JsStmt.wf s = true →
      JsStmt.wf (rewriteStmt fs ft chain g s) = true
  | fs, ft, chain, g, .exprStmt e, hs, hw => by
    simp only [stmtSlotsSafe] at hs
    simp only [JsStmt.wf] at hw
    simp only [rewriteStmt, JsStmt.wf]
    exact rewriteExpr_wf fs ft chain g e hs hw
  | fs, ft, chain, g, .varDecl n none, _, _ => by simp [rewriteStmt, JsStmt.wf]
  | fs, ft, chain, g, .varDecl n (some e), hs, hw => by
    simp only [stmtSlotsSafe] at hs
    simp only [JsStmt.wf] at hw
    simp only [rewriteStmt, JsStmt.wf]
    exact rewriteSkipTop_wf fs ft chain g e hs hw
  | fs, ft, chain, g, .letDecl n none, _, _ => by simp [rewriteStmt, JsStmt.wf]
  | fs, ft, chain, g, .letDecl n (some e), hs, hw => by
    simp only [stmtSlotsSafe] at hs
    simp only [JsStmt.wf] at hw
    simp only [rewriteStmt, JsStmt.wf]
    exact rewriteSkipTop_wf fs ft chain g e hs hw
  | fs, ft, chain, g, .funcDecl nm ps b, hs, hw => by
    cases nm with
    | ident m =>
      simp only [stmtSlotsSafe, Bool.and_eq_true] at hs
      simp only [JsStmt.wf, Bool.and_eq_true] at hw
      have hm : g.contains m = false := by simpa using hs.1
      simp only [rewriteStmt, JsStmt.wf, rewriteExpr, Bool.and_eq_true]
      rw [shouldRewrite_of_not_g _ _ g m hm]
      refine ⟨by simp [JsExpr.isIdent], ?_⟩
      exact rewriteBody_wf (functionScopeSet ps b) (throughOf chain ps b)
        (functionScopeSet ps b :: chain) g b hs.2 hw.2
    | member o p => simp [stmtSlotsSafe] at hs
    | assign l r => simp [stmtSlotsSafe] at hs
    | binop l r => simp [stmtSlotsSafe] at hs
    | call f a => simp [stmtSlotsSafe] at hs
    | objectLit k v => simp [stmtSlotsSafe] at hs
    | lit v => simp [stmtSlotsSafe] at hs
    | func ps2 b2 => simp [stmtSlotsSafe] at hs
  | fs, ft, chain, g, .block b, hs, hw => by
    simp only [stmtSlotsSafe] at hs
    simp only [JsStmt.wf] at hw
    simp only [rewriteStmt, JsStmt.wf]
    exact rewriteBody_wf fs ft (blockScopeSet b :: chain) g b hs hw
  | fs, ft, chain, g, .labeled l s, hs, hw => by
    cases l with
    | ident m =>
      simp only [stmtSlotsSafe, Bool.and_eq_true] at hs
      simp only [JsStmt.wf, Bool.and_eq_true] at hw
      have hm : g.contains m = false := by simpa using hs.1
      simp only [rewriteStmt, JsStmt.wf, rewriteExpr, Bool.and_eq_true]
      rw [shouldRewrite_of_not_g fs ft g m hm]
      refine ⟨by simp [JsExpr.isIdent], ?_⟩
      exact rewriteStmt_wf fs ft chain g s hs.2 hw.2
    | member o p => simp [stmtSlotsSafe] at hs
    | assign l2 r => simp [stmtSlotsSafe] at hs
    | binop l2 r => simp [stmtSlotsSafe] at hs
    | call f a => simp [stmtSlotsSafe] at hs
    | objectLit k v => simp [stmtSlotsSafe] at hs
    | lit v => simp [stmtSlotsSafe] at hs
    | func ps b => simp [stmtSlotsSafe] at hs
  | fs, ft, chain, g, .ret none, _, _ => by simp [rewriteStmt, JsStmt.wf]
  | fs, ft, chain, g, .ret (some e), hs, hw => by
    simp only [stmtSlotsSafe] at hs
    simp only [JsStmt.wf] at hw
    simp only [rewriteStmt, JsStmt.wf]
    exact rewriteExpr_wf fs ft chain g e hs hw
termination_by f t c g s hs hw => (sizeOf s, 0)
theorem rewriteBody_wf :
    ∀ (fs ft : List String) (chain : List (List String)) (g : List String) (b : JsBody),
      bodySlotsSafe g b = true → JsBody.wf b = true →
      JsBody.wf (rewriteBody fs ft chain g b) = true
  | fs, ft, chain, g, .nil, _, _ => by simp [rewriteBody, JsBody.wf]
  | fs, ft, chain, g, .cons s rest, hs, hw => by
    simp only [bodySlotsSafe, Bool.and_eq_true] at hs
    simp only [JsBody.wf, Bool.and_eq_true] at hw
    simp only [rewriteBody, JsBody.wf, Bool.and_eq_true]
    exact ⟨rewriteStmt_wf fs ft chain g s hs.1 hw.1,
      rewriteBody_wf fs ft chain g rest hs.2 hw.2⟩
termination_by f t c g b hs hw => (sizeOf b, 0)
end

mutual
theorem rwExpr_filter (name : String) (g : List String) :
    ∀ (fs ft : List String) (chain lc : List (List String)) (e : JsExpr),
      exprNoLex name e = true →
      boundInChain chain name = true →
      boundInChain lc name = fs.contains name →
      (fs.contains name = true ∨ ft.contains name = true ∨ name ∉ escExpr lc e) →
      rewriteExpr fs ft chain g e
        = rewriteExpr fs ft chain (g.filter (fun x => x ≠ name)) e
  | fs, ft, chain, lc, .ident n, hnl, hb, hlc, hft => by
    by_cases hn : n = name
    · subst hn
      have hfalse : shouldRewrite fs ft g n = false := by
        rcases hft with h1 | h1 | h1
        · exact shouldRewrite_of_fs fs ft g n h1
        · exact shouldRewrite_of_ft fs ft g n h1
        · cases hbl : boundInChain lc n with
          | true => exact shouldRewrite_of_fs fs ft g n (by rw [← hlc]; exact hbl)
          | false =>
            exfalso
            apply h1
            simp only [escExpr]
            rw [if_neg (by simp [hbl])]
            simp
      have hfalse2 : shouldRewrite fs ft (g.filter (fun x => x ≠ n)) n = false :=
        shouldRewrite_of_not_g _ _ _ n (filter_ne_not_contains g n)
      simp only [rewriteExpr]
      rw [hfalse, hfalse2]
    · simp only [rewriteExpr]
      rw [shouldRewrite_filter fs ft g name n hn]
  | fs, ft, chain, lc, .member o p, hnl, hb, hlc, hft => by
    simp only [exprNoLex, Bool.and_eq_true] at hnl
    have hsplit := esc_or_split fs ft name (escExpr lc o) (escProp lc p)
      (by simpa only [escExpr] using hft)
    simp only [rewriteExpr]
    rw [rwExpr_filter name g fs ft chain lc o hnl.1 hb hlc hsplit.1,
      rwSkip_filter name g fs ft chain lc p hnl.2 hb hlc hsplit.2]
  | fs, ft, chain, lc, .assign l r, hnl, hb, hlc, hft => by
    simp only [exprNoLex, Bool.and_eq_true] at hnl
    have hsplit := esc_or_split fs ft name (escExpr lc l) (escExpr lc r)
      (by simpa only [escExpr] using hft)
    simp only [rewriteExpr]
    rw [rwExpr_filter name g fs ft chain lc l hnl.1 hb hlc hsplit.1,
      rwExpr_filter name g fs ft chain lc r hnl.2 hb hlc hsplit.2]
  | fs, ft, chain, lc, .binop l r, hnl, hb, hlc, hft => by
    simp only [exprNoLex, Bool.and_eq_true] at hnl
    have hsplit := esc_or_split fs ft name (escExpr lc l) (escExpr lc r)
      (by simpa only [escExpr] using hft)
    simp only [rewriteExpr]
    rw [rwExpr_filter name g fs ft chain lc l hnl.1 hb hlc hsplit.1,
      rwExpr_filter name g fs ft chain lc r hnl.2 hb hlc hsplit.2]
  | fs, ft, chain, lc, .call f a, hnl, hb, hlc, hft => by
    simp only [exprNoLex, Bool.and_eq_true] at hnl
    have hsplit := esc_or_split fs ft name (escExpr lc f) (escExpr lc a)
      (by simpa only [escExpr] using hft)
    simp only [rewriteExpr]
    rw [rwExpr_filter name g fs ft chain lc f hnl.1 hb hlc hsplit.1,
      rwExpr_filter name g fs ft chain lc a hnl.2 hb hlc hsplit.2]
  | fs, ft, chain, lc, .objectLit k v, hnl, hb, hlc, hft => by
    simp only [exprNoLex] at hnl
    simp only [rewriteExpr]
    rw [rwSkip_filter name g fs ft chain lc v hnl hb hlc
      (esc_or_weaken_prop fs ft name lc v (by simpa only [escExpr] using hft))]
  | fs, ft, chain, lc, .lit v, _, _, _, _ => by simp [rewriteExpr]
  | fs, ft, chain, lc, .func ps b, hnl, hb, hlc, hft => by
    simp only [exprNoLex] at hnl
    have hft2 : (functionScopeSet ps b).contains name = true
        ∨ (throughOf chain ps b).contains name = true
        ∨ name ∉ escBody [functionScopeSet ps b] b := by
      by_cases h1 : (functionScopeSet ps b).contains name = true
      · exact Or.inl h1
      · by_cases h2 : name ∈ escBody [functionScopeSet ps b] b
        · refine Or.inr (Or.inl ?_)
          show (throughOf chain ps b).contains name = true
          unfold throughOf
          exact contains_of_mem _ _ (List.mem_filter.mpr ⟨h2, hb⟩)
        · exact Or.inr (Or.inr h2)
    simp only [rewriteExpr]
    rw [rwBody_filter name g (functionScopeSet ps b) (throughOf chain ps b)
      (functionScopeSet ps b :: chain) [functionScopeSet ps b] b hnl
      (boundInChain_tail _ chain name hb) (boundInChain_singleton _ name) hft2]
termination_by f t c l e p1 p2 p3 p4 => (sizeOf e, 1)
theorem rwSkip_filter (name : String) (g : List String) :
    ∀ (fs ft : List String) (chain lc : List (List String)) (e : JsExpr),
      exprNoLex name e = true →
      boundInChain chain name = true →
      boundInChain lc name = fs.contains name →
      (fs.contains name = true ∨ ft.contains name = true ∨ name ∉ escProp lc e) →
      rewriteSkipTop fs ft chain g e
        = rewriteSkipTop fs ft chain (g.filter (fun x => x ≠ name)) e
  | fs, ft, chain, lc, .ident n, _, _, _, _ => by simp [rewriteSkipTop]
  | fs, ft, chain, lc, .member o p, hnl, hb, hlc, hft => by
    rw [rewriteSkipTop_of_not_ident fs ft chain g (.member o p) rfl,
      rewriteSkipTop_of_not_ident fs ft chain (g.filter (fun x => x ≠ name)) (.member o p) rfl]
    refine rwExpr_filter name g fs ft chain lc (.member o p) hnl hb hlc ?_
    rw [← escProp_eq_of_not_ident lc (.member o p) rfl]
    exact hft
  | fs, ft, chain, lc, .assign l r, hnl, hb, hlc, hft => by
    rw [rewriteSkipTop_of_not_ident fs ft chain g (.assign l r) rfl,
      rewriteSkipTop_of_not_ident fs ft chain (g.filter (fun x => x ≠ name)) (.assign l r) rfl]
    refine rwExpr_filter name g fs ft chain lc (.assign l r) hnl hb hlc ?_
    rw [← escProp_eq_of_not_ident lc (.assign l r) rfl]
    exact hft
  | fs, ft, chain, lc, .binop l r, hnl, hb, hlc, hft => by
    rw [rewriteSkipTop_of_not_ident fs ft chain g (.binop l r) rfl,
      rewriteSkipTop_of_not_ident fs ft chain (g.filter (fun x => x ≠ name)) (.binop l r) rfl]
    refine rwExpr_filter name g fs ft chain lc (.binop l r) hnl hb hlc ?_
    rw [← escProp_eq_of_not_ident lc (.binop l r) rfl]
    exact hft
  | fs, ft, chain, lc, .call f a, hnl, hb, hlc, hft => by
    rw [rewriteSkipTop_of_not_ident fs ft chain g (.call f a) rfl,
      rewriteSkipTop_of_not_ident fs ft chain (g.filter (fun x => x ≠ name)) (.call f a) rfl]
    refine rwExpr_filter name g fs ft chain lc (.call f a) hnl hb hlc ?_
    rw [← escProp_eq_of_not_ident lc (.call f a) rfl]
    exact hft
  | fs, ft, chain, lc, .objectLit k v, hnl, hb, hlc, hft => by
    rw [rewriteSkipTop_of_not_ident fs ft chain g (.objectLit k v) rfl,
      rewriteSkipTop_of_not_ident fs ft chain (g.filter (fun x => x ≠ name)) (.objectLit k v) rfl]
    refine rwExpr_filter name g fs ft chain lc (.objectLit k v) hnl hb hlc ?_
    rw [← escProp_eq_of_not_ident lc (.objectLit k v) rfl]
    exact hft
  | fs, ft, chain, lc, .lit v, hnl, hb, hlc, hft => by
    rw [rewriteSkipTop_of_not_ident fs ft chain g (.lit v) rfl,
      rewriteSkipTop_of_not_ident fs ft chain (g.filter (fun x => x ≠ name)) (.lit v) rfl]
    refine rwExpr_filter name g fs ft chain lc (.lit v) hnl hb hlc ?_
    rw [← escProp_eq_of_not_ident lc (.lit v) rfl]
    exact hft
  | fs, ft, chain, lc, .func ps b, hnl, hb, hlc, hft => by
    rw [rewriteSkipTop_of_not_ident fs ft chain g (.func ps b) rfl,
      rewriteSkipTop_of_not_ident fs ft chain (g.filter (fun x => x ≠ name)) (.func ps b) rfl]
    refine rwExpr_filter name g fs ft chain lc (.func ps b) hnl hb hlc ?_
    rw [← escProp_eq_of_not_ident lc (.func ps b) rfl]
    exact hft
termination_by f t c l e p1 p2 p3 p4 => (sizeOf e, 2)
theorem rwStmt_filter (name : String) (g : List String) :
    ∀ (fs ft : List String) (chain lc : List (List String)) (s : JsStmt),
      stmtNoLex name s = true →
      boundInChain chain name = true →
      boundInChain lc name = fs.contains name →
      (fs.contains name = true ∨ ft.contains name = true ∨ name ∉ escStmt lc s) →
      rewriteStmt fs ft chain g s
        = rewriteStmt fs ft chain (g.filter (fun x => x ≠ name)) s
  | fs, ft, chain, lc, .exprStmt e, hnl, hb, hlc, hft => by
    simp only [stmtNoLex] at hnl
    simp only [rewriteStmt]
    rw [rwExpr_filter name g fs ft chain lc e hnl hb hlc
      (by simpa only [escStmt] using hft)]
  | fs, ft, chain, lc, .varDecl n none, _, _, _, _ => by simp [rewriteStmt]
  | fs, ft, chain, lc, .varDecl n (some e), hnl, hb, hlc, hft => by
    simp only [stmtNoLex] at hnl
    simp only [rewriteStmt]
    rw [rwSkip_filter name g fs ft chain lc e hnl hb hlc
      (esc_or_weaken_prop fs ft name lc e (by simpa only [escStmt] using hft))]
  | fs, ft, chain, lc, .letDecl n none, _, _, _, _ => by simp [rewriteStmt]
  | fs, ft, chain, lc, .letDecl n (some e), hnl, hb, hlc, hft => by
    simp only [stmtNoLex, Bool.and_eq_true] at hnl
    simp only [rewriteStmt]
    rw [rwSkip_filter name g fs ft chain lc e hnl.2 hb hlc
      (esc_or_weaken_prop fs ft name lc e (by simpa only [escStmt] using hft))]
  | fs, ft, chain, lc, .funcDecl nm ps b, hnl, hb, hlc, hft => by
    cases nm with
    | ident m =>
      simp only [stmtNoLex, Bool.and_eq_true] at hnl
      have hm : m ≠ name := by simpa using hnl.1
      have hft2 : (functionScopeSet ps b).contains name = true
          ∨ (throughOf chain ps b).contains name = true
          ∨ name ∉ escBody [functionScopeSet ps b] b := by
        by_cases h1 : (functionScopeSet ps b).contains name = true
        · exact Or.inl h1
        · by_cases h2 : name ∈ escBody [functionScopeSet ps b] b
          · refine Or.inr (Or.inl ?_)
            show (throughOf chain ps b).contains name = true
            unfold throughOf
            exact contains_of_mem _ _ (List.mem_filter.mpr ⟨h2, hb⟩)
          · exact Or.inr (Or.inr h2)
      simp only [rewriteStmt, rewriteExpr]
      rw [shouldRewrite_filter (functionScopeSet ps b) (throughOf chain ps b) g name m hm]
      rw [rwBody_filter name g (functionScopeSet ps b) (throughOf chain ps b)
        (functionScopeSet ps b :: chain) [functionScopeSet ps b] b hnl.2
        (boundInChain_tail _ chain name hb) (boundInChain_singleton _ name) hft2]
    | member o p => simp [stmtNoLex] at hnl
    | assign l r => simp [stmtNoLex] at hnl
    | binop l r => simp [stmtNoLex] at hnl
    | call f a => simp [stmtNoLex] at hnl
    | objectLit k v => simp [stmtNoLex] at hnl
    | lit v => simp [stmtNoLex] at hnl
    | func ps2 b2 => simp [stmtNoLex] at hnl
  | fs, ft, chain, lc, .block b, hnl, hb, hlc, hft => by
    simp only [stmtNoLex] at hnl
    have hbs : (blockScopeSet b).contains name = false :=
      contains_eq_false_of_not_mem _ _ (bodyNoLex_lexNames name b hnl)
    simp only [rewriteStmt]
    rw [rwBody_filter name g fs ft (blockScopeSet b :: chain) (blockScopeSet b :: lc) b hnl
      (boundInChain_tail _ chain name hb)
      (by rw [boundInChain_cons_eq, hbs, Bool.false_or]; exact hlc)
      (by simpa only [escStmt] using hft)]
  | fs, ft, chain, lc, .labeled l s, hnl, hb, hlc, hft => by
    cases l with
    | ident m =>
      simp only [stmtNoLex, Bool.and_eq_true] at hnl
      have hm : m ≠ name := by simpa using hnl.1
      simp only [rewriteStmt, rewriteExpr]
      rw [shouldRewrite_filter fs ft g name m hm]
      rw [rwStmt_filter name g fs ft chain lc s hnl.2 hb hlc
        (by simpa only [escStmt] using hft)]
    | member o p => simp [stmtNoLex] at hnl
    | assign l2 r => simp [stmtNoLex] at hnl
    | binop l2 r => simp [stmtNoLex] at hnl
    | call f a => simp [stmtNoLex] at hnl
    | objectLit k v => simp [stmtNoLex] at hnl
    | lit v => simp [stmtNoLex] at hnl
    | func ps b => simp [stmtNoLex] at hnl
  | fs, ft, chain, lc, .ret none, _, _, _, _ => by simp [rewriteStmt]
  | fs, ft, chain, lc, .ret (some e), hnl, hb, hlc, hft => by
    simp only [stmtNoLex] at hnl
    simp only [rewriteStmt]
    rw [rwExpr_filter name g fs ft chain lc e hnl hb hlc
      (by simpa only [escStmt] using hft)]
termination_by f t c l s p1 p2 p3 p4 => (sizeOf s, 0)
theorem rwBody_filter (name : String) (g : List String) :
    ∀ (fs ft : List String) (chain lc : List (List String)) (b : JsBody),
      bodyNoLex name b = true →
      boundInChain chain name = true →
      boundInChain lc name = fs.contains name →
      (fs.contains name = true ∨ ft.contains name = true ∨ name ∉ escBody lc b) →
      rewriteBody fs ft chain g b
        = rewriteBody fs ft chain (g.filter (fun x => x ≠ name)) b
  | fs, ft, chain, lc, .nil, _, _, _, _ => by simp [rewriteBody]
  | fs, ft, chain, lc, .cons s rest, hnl, hb, hlc, hft => by
    simp only [bodyNoLex, Bool.and_eq_true] at hnl
    have hsplit := esc_or_split fs ft name (escStmt lc s) (escBody lc rest)
      (by simpa only [escBody] using hft)
    simp only [rewriteBody]
    rw [rwStmt_filter name g fs ft chain lc s hnl.1 hb hlc hsplit.1,
      rwBody_filter name g fs ft chain lc rest hnl.2 hb hlc hsplit.2]
termination_by f t c l b p1 p2 p3 p4 => (sizeOf b, 0)
end

/-- C4 (amended): a name shadowed by a *function parameter* or a hoisted
*function-scope* (`var`) declaration is protected: as long as the name is
not also used as a block-level `let`, a label or a function-declaration
name inside the body, its presence in the owned-globals set is irrelevant
to the rewrite of the whole function body — removing it from the owned set
changes nothing, so no occurrence inside the function (nested functions
included, where escope's resolved `through` blocks the rewrite) is turned
into a property access.  Moreover any identifier occurrence whose name is
in the tracked function scope's variable set is left unchanged.  Shadowing
by a *block-level* `let`, however, does not protect: see the
counterexample. -/
theorem c4_shadowed_names_untouched :
    (∀ (chain : List (List String)) (g ps : List String) (b : JsBody) (name : String),
        (name ∈ ps ∨ name ∈ JsBody.varNames b) →
        bodyNoLex name b = true →
        rewriteBody (functionScopeSet ps b) (throughOf chain ps b)
            (functionScopeSet ps b :: chain) g b
          = rewriteBody (functionScopeSet ps b) (throughOf chain ps b)
              (functionScopeSet ps b :: chain) (g.filter (fun x => x ≠ name)) b)
    ∧ (∀ (fs ft : List String) (chain : List (List String)) (g : List String) (name : String),
        name ∈ fs →
        rewriteExpr fs ft chain g (JsExpr.ident name) = JsExpr.ident name) := by
  constructor
  · intro chain g ps b name hshadow hnl
    have hfs : name ∈ functionScopeSet ps b := by
      unfold functionScopeSet
      rcases hshadow with h | h
      · exact List.mem_append.mpr (Or.inl h)
      · exact List.mem_append.mpr (Or.inr (List.mem_cons.mpr
          (Or.inr (List.mem_append.mpr (Or.inl h)))))
    exact rwBody_filter name g (functionScopeSet ps b) (throughOf chain ps b)
      (functionScopeSet ps b :: chain) [functionScopeSet ps b] b hnl
      (boundInChain_head _ chain name hfs) (boundInChain_singleton _ name)
      (Or.inl (contains_of_mem _ _ hfs))
  · intro fs ft chain g name hmem
    simp only [rewriteExpr]
    rw [shouldRewrite_of_fs fs ft g name (contains_of_mem _ _ hmem)]
    simp

/-- Witness for `c4_shadowed_names_untouched`: the parameter `x` of a
function whose body reads `x` protects the read even when `x` is owned. -/
theorem c4_shadowed_names_untouched_witness :
    (("x" ∈ (["x"] : List String) ∨
        "x" ∈ JsBody.varNames (JsBody.cons (.exprStmt (.ident ("x"))) .nil))
      ∧ bodyNoLex ("x") (JsBody.cons (.exprStmt (.ident ("x"))) .nil) = true
      ∧ "x" ∈ (["x"] : List String))
    ∧ rewriteBody (functionScopeSet ["x"] (JsBody.cons (.exprStmt (.ident ("x"))) .nil))
          (throughOf [] ["x"] (JsBody.cons (.exprStmt (.ident ("x"))) .nil))
          (functionScopeSet ["x"] (JsBody.cons (.exprStmt (.ident ("x"))) .nil) :: [])
          ["x"] (JsBody.cons (.exprStmt (.ident ("x"))) .nil)
        = rewriteBody (functionScopeSet ["x"] (JsBody.cons (.exprStmt (.ident ("x"))) .nil))
            (throughOf [] ["x"] (JsBody.cons (.exprStmt (.ident ("x"))) .nil))
            (functionScopeSet ["x"] (JsBody.cons (.exprStmt (.ident ("x"))) .nil) :: [])
            (["x"].filter (fun x => x ≠ "x")) (JsBody.cons (.exprStmt (.ident ("x"))) .nil) :=
  ⟨⟨Or.inl (by decide), by simp [bodyNoLex, stmtNoLex, exprNoLex], by decide⟩,
    c4_shadowed_names_untouched.1 [] ["x"] ["x"]
      (JsBody.cons (.exprStmt (.ident ("x"))) .nil) ("x")
      (Or.inl (by decide)) (by simp [bodyNoLex, stmtNoLex, exprNoLex])⟩

/-- The C4 counterexample program:
`(function () { { let Foo = 0; Foo = 1; } });` — inside the function, a
block declares `let Foo` and assigns to the block-scoped `Foo`. -/
def c4prog : JsBody :=
  JsBody.cons (.exprStmt (.func []
    (JsBody.cons (.block
      (JsBody.cons (.letDecl ("Foo") (some (.lit 0)))
        (JsBody.cons (.exprStmt (.assign (.ident ("Foo")) (.lit 1))) .nil)))
      .nil)))
    .nil

/-- C4 counterexample: the claim says a name shadowed by a local
declaration is never rewritten inside the shadowing scope.  With
`Foo` owned, the assignment target `Foo` — shadowed by the block-level
`let Foo` right above it — *is* rewritten into
`__package_globals__.Foo`: escope (ecmaVersion 6) resolves the
occurrence in the block scope, but the walker tracks function scopes
only, so neither the tracked scope's `set` nor its resolved `through`
mentions `Foo`. -/
theorem c4_counterexample :
    rewriteFileForPackageGlobals c4prog ["Foo"]
      = some (JsBody.cons (.exprStmt (.func []
          (JsBody.cons (.block
            (JsBody.cons (.letDecl ("Foo") (some (.lit 0)))
              (JsBody.cons (.exprStmt (.assign
                (.member (.ident pgName) (.ident ("Foo"))) (.lit 1))) .nil)))
            .nil)))
          .nil)
      ∧ rewriteFileForPackageGlobals c4prog ["Foo"] ≠ some c4prog := by
  have h1 : rewriteFileForPackageGlobals c4prog ["Foo"]
      = some (JsBody.cons (.exprStmt (.func []
          (JsBody.cons (.block
            (JsBody.cons (.letDecl ("Foo") (some (.lit 0)))
              (JsBody.cons (.exprStmt (.assign
                (.member (.ident pgName) (.ident ("Foo"))) (.lit 1))) .nil)))
            .nil)))
          .nil) := by
    simp [rewriteFileForPackageGlobals, jsParse, c4prog, JsBody.wf, JsStmt.wf, JsExpr.wf,
      JsExpr.isIdent, moduleScopeSet, JsBody.varNames, JsStmt.varNames, JsBody.lexNames,
      JsStmt.lexNames, rewriteBody, rewriteStmt, rewriteExpr, rewriteSkipTop,
      functionScopeSet, blockScopeSet, throughOf, escBody, escStmt, escExpr, escProp,
      boundInChain, shouldRewrite, pgName, declName]
  refine ⟨h1, ?_⟩
  rw [h1]
  simp [c4prog, pgName]

mutual
theorem escExpr_preserved (g : List String) :
    ∀ (fs ft : List String) (chain lc : List (List String)) (e : JsExpr) (n : String),
      exprSlotsSafe g e = true →
      (∀ m, m ∈ escExpr lc e → boundInChain chain m = true → ft.contains m = true) →
      n ∈ escExpr lc e → boundInChain chain n = true →
      n ∈ escExpr lc (rewriteExpr fs ft chain g e)
  | fs, ft, chain, lc, .ident k, n, _, hcoh, h3, h4 => by
    have hft : ft.contains n = true := hcoh n h3 h4
    simp only [escExpr] at h3
    by_cases hb : boundInChain lc k = true
    · rw [if_pos hb] at h3
      simp at h3
    · rw [if_neg hb] at h3
      simp at h3
      subst h3
      have hrw : rewriteExpr fs ft chain g (.ident n) = .ident n := by
        simp only [rewriteExpr]
        rw [shouldRewrite_of_ft fs ft g n hft]
        simp
      rw [hrw]
      simp only [escExpr]
      rw [if_neg hb]
      simp
  | fs, ft, chain, lc, .member o p, n, hs, hcoh, h3, h4 => by
    simp only [exprSlotsSafe, Bool.and_eq_true] at hs
    simp only [escExpr] at h3
    simp only [rewriteExpr, escExpr]
    rcases List.mem_append.mp h3 with h5 | h5
    · exact List.mem_append.mpr (Or.inl (escExpr_preserved g fs ft chain lc o n hs.1
        (fun m hm hb2 => hcoh m (by simp only [escExpr]; exact List.mem_append.mpr (Or.inl hm)) hb2) h5 h4))
    · exact List.mem_append.mpr (Or.inr (escProp_preserved g fs ft chain lc p n hs.2
        (fun m hm hb2 => hcoh m (by simp only [escExpr]; exact List.mem_append.mpr (Or.inr hm)) hb2) h5 h4))
  | fs, ft, chain, lc, .assign l r, n, hs, hcoh, h3, h4 => by
    simp only [exprSlotsSafe, Bool.and_eq_true] at hs
    simp only [escExpr] at h3
    simp only [rewriteExpr, escExpr]
    rcases List.mem_append.mp h3 with h5 | h5
    · exact List.mem_append.mpr (Or.inl (escExpr_preserved g fs ft chain lc l n hs.1
        (fun m hm hb2 => hcoh m (by simp only [escExpr]; exact List.mem_append.mpr (Or.inl hm)) hb2) h5 h4))
    · exact List.mem_append.mpr (Or.inr (escExpr_preserved g fs ft chain lc r n hs.2
        (fun m hm hb2 => hcoh m (by simp only [escExpr]; exact List.mem_append.mpr (Or.inr hm)) hb2) h5 h4))
  | fs, ft, chain, lc, .binop l r, n, hs, hcoh, h3, h4 => by
    simp only [exprSlotsSafe, Bool.and_eq_true] at hs
    simp only [escExpr] at h3
    simp only [rewriteExpr, escExpr]
    rcases List.mem_append.mp h3 with h5 | h5
    · exact List.mem_append.mpr (Or.inl (escExpr_preserved g fs ft chain lc l n hs.1
        (fun m hm hb2 => hcoh m (by simp only [escExpr]; exact List.mem_append.mpr (Or.inl hm)) hb2) h5 h4))
    · exact List.mem_append.mpr (Or.inr (escExpr_preserved g fs ft chain lc r n hs.2
        (fun m hm hb2 => hcoh m (by simp only [escExpr]; exact List.mem_append.mpr (Or.inr hm)) hb2) h5 h4))
  | fs, ft, chain, lc, .call f a, n, hs, hcoh, h3, h4 => by
    simp only [exprSlotsSafe, Bool.and_eq_true] at hs
    simp only [escExpr] at h3
    simp only [rewriteExpr, escExpr]
    rcases List.mem_append.mp h3 with h5 | h5
    · exact List.mem_append.mpr (Or.inl (escExpr_preserved g fs ft chain lc f n hs.1
        (fun m hm hb2 => hcoh m (by simp only [escExpr]; exact List.mem_append.mpr (Or.inl hm)) hb2) h5 h4))
    · exact List.mem_append.mpr (Or.inr (escExpr_preserved g fs ft chain lc a n hs.2
        (fun m hm hb2 => hcoh m (by simp only [escExpr]; exact List.mem_append.mpr (Or.inr hm)) hb2) h5 h4))
  | fs, ft, chain, lc, .objectLit k v, n, hs, hcoh, h3, h4 => by
    simp only [exprSlotsSafe] at hs
    simp only [escExpr] at h3
    simp only [rewriteExpr, escExpr]
    exact escSkip_preserved g fs ft chain lc v n hs
      (fun m hm hb2 => hcoh m (by simpa only [escExpr] using hm) hb2) h3 h4
  | fs, ft, chain, lc, .lit v, n, _, _, h3, _ => by simp [escExpr] at h3
  | fs, ft, chain, lc, .func ps b, n, hs, hcoh, h3, h4 => by
    simp only [exprSlotsSafe] at hs
    simp only [escExpr] at h3
    simp only [rewriteExpr, escExpr]
    rw [rewriteBody_functionScopeSet (functionScopeSet ps b) (throughOf chain ps b)
      (functionScopeSet ps b :: chain) g ps b hs]
    refine escBody_preserved g (functionScopeSet ps b) (throughOf chain ps b)
      (functionScopeSet ps b :: chain) (functionScopeSet ps b :: lc) b n hs ?_ h3
      (boundInChain_tail _ chain n h4)
    intro m hm hbm
    have hub2 := escBody_unbound m (functionScopeSet ps b :: lc) b hm
    rw [boundInChain_cons_eq] at hub2
    have hfsm : (functionScopeSet ps b).contains m = false := by
      cases hx : (functionScopeSet ps b).contains m
      · rfl
      · rw [hx] at hub2
        simp at hub2
    have hm2 : m ∈ escBody [functionScopeSet ps b] b := by
      apply escBody_mono m [functionScopeSet ps b] lc b
      rw [List.singleton_append]
      exact hm
    rw [boundInChain_cons_eq, hfsm, Bool.false_or] at hbm
    show (throughOf (functionScopeSet ps b :: chain).tail ps b).contains m = true
    unfold throughOf
    exact contains_of_mem _ _ (List.mem_filter.mpr ⟨hm2, hbm⟩)
termination_by f t c l e n p1 p2 p3 p4 => (sizeOf e, 1)
theorem escProp_preserved (g : List String) :
    ∀ (fs ft : List String) (chain lc : List (List String)) (e : JsExpr) (n : String),
      exprSlotsSafe g e = true →
      (∀ m, m ∈ escProp lc e → boundInChain chain m = true → ft.contains m = true) →
      n ∈ escProp lc e → boundInChain chain n = true →
      n ∈ escProp lc (rewriteSkipTop fs ft chain g e)
  | fs, ft, chain, lc, .ident k, n, _, _, h3, _ => by simp [escProp] at h3
  | fs, ft, chain, lc, .member o p, n, hs, hcoh, h3, h4 => by
    rw [escProp_eq_of_not_ident lc (.member o p) rfl] at h3 hcoh
    rw [rewriteSkipTop_of_not_ident fs ft chain g (.member o p) rfl,
      escProp_eq_of_not_ident lc (rewriteExpr fs ft chain g (.member o p))
        (rewriteExpr_isIdent fs ft chain g (.member o p) rfl)]
    exact escExpr_preserved g fs ft chain lc (.member o p) n hs hcoh h3 h4
  | fs, ft, chain, lc, .assign l r, n, hs, hcoh, h3, h4 => by
    rw [escProp_eq_of_not_ident lc (.assign l r) rfl] at h3 hcoh
    rw [rewriteSkipTop_of_not_ident fs ft chain g (.assign l r) rfl,
      escProp_eq_of_not_ident lc (rewriteExpr fs ft chain g (.assign l r))
        (rewriteExpr_isIdent fs ft chain g (.assign l r) rfl)]
    exact escExpr_preserved g fs ft chain lc (.assign l r) n hs hcoh h3 h4
  | fs, ft, chain, lc, .binop l r, n, hs, hcoh, h3, h4 => by
    rw [escProp_eq_of_not_ident lc (.binop l r) rfl] at h3 hcoh
    rw [rewriteSkipTop_of_not_ident fs ft chain g (.binop l r) rfl,
      escProp_eq_of_not_ident lc (rewriteExpr fs ft chain g (.binop l r))
        (rewriteExpr_isIdent fs ft chain g (.binop l r) rfl)]
    exact escExpr_preserved g fs ft chain lc (.binop l r) n hs hcoh h3 h4
  | fs, ft, chain, lc, .call f a, n, hs, hcoh, h3, h4 => by
    rw [escProp_eq_of_not_ident lc (.call f a) rfl] at h3 hcoh
    rw [rewriteSkipTop_of_not_ident fs ft chain g (.call f a) rfl,
      escProp_eq_of_not_ident lc (rewriteExpr fs ft chain g (.call f a))
        (rewriteExpr_isIdent fs ft chain g (.call f a) rfl)]
    exact escExpr_preserved g fs ft chain lc (.call f a) n hs hcoh h3 h4
  | fs, ft, chain, lc, .objectLit k v, n, hs, hcoh, h3, h4 => by
    rw [escProp_eq_of_not_ident lc (.objectLit k v) rfl] at h3 hcoh
    rw [rewriteSkipTop_of_not_ident fs ft chain g (.objectLit k v) rfl,
      escProp_eq_of_not_ident lc (rewriteExpr fs ft chain g (.objectLit k v))
        (rewriteExpr_isIdent fs ft chain g (.objectLit k v) rfl)]
    exact escExpr_preserved g fs ft chain lc (.objectLit k v) n hs hcoh h3 h4
  | fs, ft, chain, lc, .lit v, n, hs, hcoh, h3, h4 => by
    rw [escProp_eq_of_not_ident lc (.lit v) rfl] at h3
    simp [escExpr] at h3
  | fs, ft, chain, lc, .func ps b, n, hs, hcoh, h3, h4 => by
    rw [escProp_eq_of_not_ident lc (.func ps b) rfl] at h3 hcoh
    rw [rewriteSkipTop_of_not_ident fs ft chain g (.func ps b) rfl,
      escProp_eq_of_not_ident lc (rewriteExpr fs ft chain g (.func ps b))
        (rewriteExpr_isIdent fs ft chain g (.func ps b) rfl)]
    exact escExpr_preserved g fs ft chain lc (.func ps b) n hs hcoh h3 h4
termination_by f t c l e n p1 p2 p3 p4 => (sizeOf e, 2)
theorem escSkip_preserved (g : List String) :
    ∀ (fs ft : List String) (chain lc : List (List String)) (e : JsExpr) (n : String),
      exprSlotsSafe g e = true →
      (∀ m, m ∈ escExpr lc e → boundInChain chain m = true → ft.contains m = true) →
      n ∈ escExpr lc e → boundInChain chain n = true →
      n ∈ escExpr lc (rewriteSkipTop fs ft chain g e)
  | fs, ft, chain, lc, .ident k, n, _, _, h3, _ => by
    simpa only [rewriteSkipTop] using h3
  | fs, ft, chain, lc, .member o p, n, hs, hcoh, h3, h4 => by
    rw [rewriteSkipTop_of_not_ident fs ft chain g (.member o p) rfl]
    exact escExpr_preserved g fs ft chain lc (.member o p) n hs hcoh h3 h4
  | fs, ft, chain, lc, .assign l r, n, hs, hcoh, h3, h4 => by
    rw [rewriteSkipTop_of_not_ident fs ft chain g (.assign l r) rfl]
    exact escExpr_preserved g fs ft chain lc (.assign l r) n hs hcoh h3 h4
  | fs, ft, chain, lc, .binop l r, n, hs, hcoh, h3, h4 => by
    rw [rewriteSkipTop_of_not_ident fs ft chain g (.binop l r) rfl]
    exact escExpr_preserved g fs ft chain lc (.binop l r) n hs hcoh h3 h4
  | fs, ft, chain, lc, .call f a, n, hs, hcoh, h3, h4 => by
    rw [rewriteSkipTop_of_not_ident fs ft chain g (.call f a) rfl]
    exact escExpr_preserved g fs ft chain lc (.call f a) n hs hcoh h3 h4
  | fs, ft, chain, lc, .objectLit k v, n, hs, hcoh, h3, h4 => by
    rw [rewriteSkipTop_of_not_ident fs ft chain g (.objectLit k v) rfl]
    exact escExpr_preserved g fs ft chain lc (.objectLit k v) n hs hcoh h3 h4
  | fs, ft, chain, lc, .lit v, n, hs, hcoh, h3, h4 => by
    simp [escExpr] at h3
  | fs, ft, chain, lc, .func ps b, n, hs, hcoh, h3, h4 => by
    rw [rewriteSkipTop_of_not_ident fs ft chain g (.func ps b) rfl]
    exact escExpr_preserved g fs ft chain lc (.func ps b) n hs hcoh h3 h4
termination_by f t c l e n p1 p2 p3 p4 => (sizeOf e, 2)
theorem escStmt_preserved (g : List String) :
    ∀ (fs ft : List String) (chain lc : List (List String)) (s : JsStmt) (n : String),
      stmtSlotsSafe g s = true →
      (∀ m, m ∈ escStmt lc s → boundInChain chain m = true → ft.contains m = true) →
      n ∈ escStmt lc s → boundInChain chain n = true →
      n ∈ escStmt lc (rewriteStmt fs ft chain g s)
  | fs, ft, chain, lc, .exprStmt e, n, hs, hcoh, h3, h4 => by
    simp only [stmtSlotsSafe] at hs
    simp only [escStmt] at h3
    simp only [rewriteStmt, escStmt]
    exact escExpr_preserved g fs ft chain lc e n hs
      (fun m hm hb2 => hcoh m (by simpa only [escStmt] using hm) hb2) h3 h4
  | fs, ft, chain, lc, .varDecl nm none, n, _, _, h3, _ => by simp [escStmt] at h3
  | fs, ft, chain, lc, .varDecl nm (some e), n, hs, hcoh, h3, h4 => by
    simp only [stmtSlotsSafe] at hs
    simp only [escStmt] at h3
    simp only [rewriteStmt, escStmt]
    exact escSkip_preserved g fs ft chain lc e n hs
      (fun m hm hb2 => hcoh m (by simpa only [escStmt] using hm) hb2) h3 h4
  | fs, ft, chain, lc, .letDecl nm none, n, _, _, h3, _ => by simp [escStmt] at h3
  | fs, ft, chain, lc, .letDecl nm (some e), n, hs, hcoh, h3, h4 => by
    simp only [stmtSlotsSafe] at hs
    simp only [escStmt] at h3
    simp only [rewriteStmt, escStmt]
    exact escSkip_preserved g fs ft chain lc e n hs
      (fun m hm hb2 => hcoh m (by simpa only [escStmt] using hm) hb2) h3 h4
  | fs, ft, chain, lc, .funcDecl nm ps b, n, hs, hcoh, h3, h4 => by
    cases nm with
    | ident w =>
      simp only [stmtSlotsSafe, Bool.and_eq_true] at hs
      simp only [escStmt] at h3
      simp only [rewriteStmt, escStmt]
      rw [rewriteBody_functionScopeSet (functionScopeSet ps b) (throughOf chain ps b)
        (functionScopeSet ps b :: chain) g ps b hs.2]
      refine escBody_preserved g (functionScopeSet ps b) (throughOf chain ps b)
        (functionScopeSet ps b :: chain) (functionScopeSet ps b :: lc) b n hs.2 ?_ h3
        (boundInChain_tail _ chain n h4)
      intro m hm hbm
      have hub2 := escBody_unbound m (functionScopeSet ps b :: lc) b hm
      rw [boundInChain_cons_eq] at hub2
      have hfsm : (functionScopeSet ps b).contains m = false := by
        cases hx : (functionScopeSet ps b).contains m
        · rfl
        · rw [hx] at hub2
          simp at hub2
      have hm2 : m ∈ escBody [functionScopeSet ps b] b := by
        apply escBody_mono m [functionScopeSet ps b] lc b
        rw [List.singleton_append]
        exact hm
      rw [boundInChain_cons_eq, hfsm, Bool.false_or] at hbm
      show (throughOf (functionScopeSet ps b :: chain).tail ps b).contains m = true
      unfold throughOf
      exact contains_of_mem _ _ (List.mem_filter.mpr ⟨hm2, hbm⟩)
    | member o p => simp [stmtSlotsSafe] at hs
    | assign l r => simp [stmtSlotsSafe] at hs
    | binop l r => simp [stmtSlotsSafe] at hs
    | call f a => simp [stmtSlotsSafe] at hs
    | objectLit k v => simp [stmtSlotsSafe] at hs
    | lit v => simp [stmtSlotsSafe] at hs
    | func ps2 b2 => simp [stmtSlotsSafe] at hs
  | fs, ft, chain, lc, .block b, n, hs, hcoh, h3, h4 => by
    simp only [stmtSlotsSafe] at hs
    simp only [escStmt] at h3
    simp only [rewriteStmt, escStmt]
    rw [rewriteBody_blockScopeSet fs ft (blockScopeSet b :: chain) g b hs]
    refine escBody_preserved g fs ft (blockScopeSet b :: chain) (blockScopeSet b :: lc) b n
      hs ?_ h3 (boundInChain_tail _ chain n h4)
    intro m hm hbm
    have hub2 := escBody_unbound m (blockScopeSet b :: lc) b hm
    rw [boundInChain_cons_eq] at hub2
    have hbsm : (blockScopeSet b).contains m = false := by
      cases hx : (blockScopeSet b).contains m
      · rfl
      · rw [hx] at hub2
        simp at hub2
    rw [boundInChain_cons_eq, hbsm, Bool.false_or] at hbm
    exact hcoh m (by simpa only [escStmt] using hm) hbm
  | fs, ft, chain, lc, .labeled l s, n, hs, hcoh, h3, h4 => by
    cases l with
    | ident w =>
      simp only [stmtSlotsSafe, Bool.and_eq_true] at hs
      simp only [escStmt] at h3
      simp only [rewriteStmt, escStmt]
      exact escStmt_preserved g fs ft chain lc s n hs.2
        (fun m hm hb2 => hcoh m (by simpa only [escStmt] using hm) hb2) h3 h4
    | member o p => simp [stmtSlotsSafe] at hs
    | assign l2 r => simp [stmtSlotsSafe] at hs
    | binop l2 r => simp [stmtSlotsSafe] at hs
    | call f a => simp [stmtSlotsSafe] at hs
    | objectLit k v => simp [stmtSlotsSafe] at hs
    | lit v => simp [stmtSlotsSafe] at hs
    | func ps b => simp [stmtSlotsSafe] at hs
  | fs, ft, chain, lc, .ret none, n, _, _, h3, _ => by simp [escStmt] at h3
  | fs, ft, chain, lc, .ret (some e), n, hs, hcoh, h3, h4 => by
    simp only [stmtSlotsSafe] at hs
    simp only [escStmt] at h3
    simp only [rewriteStmt, escStmt]
    exact escExpr_preserved g fs ft chain lc e n hs
      (fun m hm hb2 => hcoh m (by simpa only [escStmt] using hm) hb2) h3 h4
termination_by f t c l s n p1 p2 p3 p4 => (sizeOf s, 0)
theorem escBody_preserved (g : List String) :
    ∀ (fs ft : List String) (chain lc : List (List String)) (b : JsBody) (n : String),
      bodySlotsSafe g b = true →
      (∀ m, m ∈ escBody lc b → boundInChain chain m = true → ft.contains m = true) →
      n ∈ escBody lc b → boundInChain chain n = true →
      n ∈ escBody lc (rewriteBody fs ft chain g b)
  | fs, ft, chain, lc, .nil, n, _, _, h3, _ => by simp [escBody] at h3
  | fs, ft, chain, lc, .cons s rest, n, hs, hcoh, h3, h4 => by
    simp only [bodySlotsSafe, Bool.and_eq_true] at hs
    simp only [escBody] at h3
    simp only [rewriteBody, escBody]
    rcases List.mem_append.mp h3 with h5 | h5
    · exact List.mem_append.mpr (Or.inl (escStmt_preserved g fs ft chain lc s n hs.1
        (fun m hm hb2 => hcoh m (by simp only [escBody]; exact List.mem_append.mpr (Or.inl hm)) hb2) h5 h4))
    · exact List.mem_append.mpr (Or.inr (escBody_preserved g fs ft chain lc rest n hs.2
        (fun m hm hb2 => hcoh m (by simp only [escBody]; exact List.mem_append.mpr (Or.inr hm)) hb2) h5 h4))
termination_by f t c l b n p1 p2 p3 p4 => (sizeOf b, 0)
end

theorem contains_throughOf (chain : List (List String)) (ps : List String) (b : JsBody)
    (m : String) (h1 : m ∈ escBody [functionScopeSet ps b] b)
    (h2 : boundInChain chain m = true) :
    (throughOf chain ps b).contains m = true := by
  unfold throughOf
  exact contains_of_mem _ _ (List.mem_filter.mpr ⟨h1, h2⟩)

theorem throughOf_contains (chain : List (List String)) (ps : List String) (b : JsBody)
    (m : String) (h : (throughOf chain ps b).contains m = true) :
    m ∈ escBody [functionScopeSet ps b] b ∧ boundInChain chain m = true := by
  unfold throughOf at h
  exact List.mem_filter.mp (mem_of_contains _ m h)

mutual
theorem rwExpr_idem (g : List String) (hpg : g.contains pgName = false) :
    ∀ (fs ft ftb : List String) (chain : List (List String)) (e : JsExpr),
      exprSlotsSafe g e = true →
      (∀ m, ft.contains m = true → ftb.contains m = true) →
      rewriteExpr fs ftb chain g (rewriteExpr fs ft chain g e)
        = rewriteExpr fs ft chain g e
  | fs, ft, ftb, chain, .ident n, _, hsub => by
    by_cases hc : shouldRewrite fs ft g n = true
    · have h1 : rewriteExpr fs ft chain g (.ident n)
          = .member (.ident pgName) (.ident n) := by
        simp only [rewriteExpr]
        rw [if_pos hc]
      rw [h1]
      have hpg2 : shouldRewrite fs ftb g pgName = false :=
        shouldRewrite_of_not_g _ _ g pgName hpg
      simp only [rewriteExpr, rewriteSkipTop]
      rw [hpg2]
      simp
    · have hc2 : shouldRewrite fs ft g n = false := Bool.eq_false_iff.mpr hc
      have h1 : rewriteExpr fs ft chain g (.ident n) = .ident n := by
        simp only [rewriteExpr]
        rw [hc2]
        simp
      rw [h1]
      have hc3 : shouldRewrite fs ftb g n = false :=
        shouldRewrite_false_mono fs ft ftb g n hc2 (hsub n)
      simp only [rewriteExpr]
      rw [hc3]
      simp
  | fs, ft, ftb, chain, .member o p, hs, hsub => by
    simp only [exprSlotsSafe, Bool.and_eq_true] at hs
    simp only [rewriteExpr]
    rw [rwExpr_idem g hpg fs ft ftb chain o hs.1 hsub,
      rwSkip_idem g hpg fs ft ftb chain p hs.2 hsub]
  | fs, ft, ftb, chain, .assign l r, hs, hsub => by
    simp only [exprSlotsSafe, Bool.and_eq_true] at hs
    simp only [rewriteExpr]
    rw [rwExpr_idem g hpg fs ft ftb chain l hs.1 hsub,
      rwExpr_idem g hpg fs ft ftb chain r hs.2 hsub]
  | fs, ft, ftb, chain, .binop l r, hs, hsub => by
    simp only [exprSlotsSafe, Bool.and_eq_true] at hs
    simp only [rewriteExpr]
    rw [rwExpr_idem g hpg fs ft ftb chain l hs.1 hsub,
      rwExpr_idem g hpg fs ft ftb chain r hs.2 hsub]
  | fs, ft, ftb, chain, .call f a, hs, hsub => by
    simp only [exprSlotsSafe, Bool.and_eq_true] at hs
    simp only [rewriteExpr]
    rw [rwExpr_idem g hpg fs ft ftb chain f hs.1 hsub,
      rwExpr_idem g hpg fs ft ftb chain a hs.2 hsub]
  | fs, ft, ftb, chain, .objectLit k v, hs, hsub => by
    simp only [exprSlotsSafe] at hs
    simp only [rewriteExpr]
    rw [rwSkip_idem g hpg fs ft ftb chain v hs hsub]
  | fs, ft, ftb, chain, .lit v, _, _ => by simp [rewriteExpr]
  | fs, ft, ftb, chain, .func ps b, hs, hsub => by
    simp only [exprSlotsSafe] at hs
    simp only [rewriteExpr]
    rw [rewriteBody_functionScopeSet (functionScopeSet ps b) (throughOf chain ps b)
      (functionScopeSet ps b :: chain) g ps b hs]
    have hsub2 : ∀ m, (throughOf chain ps b).contains m = true →
        (throughOf chain ps (rewriteBody (functionScopeSet ps b) (throughOf chain ps b)
          (functionScopeSet ps b :: chain) g b)).contains m = true := by
      intro m hm
      have h5 := throughOf_contains chain ps b m hm
      have h6 : m ∈ escBody [functionScopeSet ps b]
          (rewriteBody (functionScopeSet ps b) (throughOf chain ps b)
            (functionScopeSet ps b :: chain) g b) := by
        refine escBody_preserved g (functionScopeSet ps b) (throughOf chain ps b)
          (functionScopeSet ps b :: chain) [functionScopeSet ps b] b m hs ?_ h5.1
          (boundInChain_tail _ chain m h5.2)
        intro w hw hbw
        have hub := escBody_unbound w [functionScopeSet ps b] b hw
        rw [boundInChain_singleton] at hub
        rw [boundInChain_cons_eq, hub, Bool.false_or] at hbw
        exact contains_throughOf chain ps b w hw hbw
      refine contains_throughOf chain ps (rewriteBody (functionScopeSet ps b)
        (throughOf chain ps b) (functionScopeSet ps b :: chain) g b) m ?_ h5.2
      rw [rewriteBody_functionScopeSet (functionScopeSet ps b) (throughOf chain ps b)
        (functionScopeSet ps b :: chain) g ps b hs]
      exact h6
    rw [rwBody_idem g hpg (functionScopeSet ps b) (throughOf chain ps b)
      (throughOf chain ps (rewriteBody (functionScopeSet ps b) (throughOf chain ps b)
        (functionScopeSet ps b :: chain) g b))
      (functionScopeSet ps b :: chain) b hs hsub2]
termination_by f t tb c e p1 p2 => (sizeOf e, 1)
theorem rwSkip_idem (g : List String) (hpg : g.contains pgName = false) :
    ∀ (fs ft ftb : List String) (chain : List (List String)) (e : JsExpr),
      exprSlotsSafe g e = true →
      (∀ m, ft.contains m = true → ftb.contains m = true) →
      rewriteSkipTop fs ftb chain g (rewriteSkipTop fs ft chain g e)
        = rewriteSkipTop fs ft chain g e
  | fs, ft, ftb, chain, .ident n, _, _ => by simp only [rewriteSkipTop]
  | fs, ft, ftb, chain, .member o p, hs, hsub => by
    rw [rewriteSkipTop_of_not_ident fs ft chain g (.member o p) rfl,
      rewriteSkipTop_of_not_ident fs ftb chain g (rewriteExpr fs ft chain g (.member o p))
        (rewriteExpr_isIdent fs ft chain g (.member o p) rfl)]
    exact rwExpr_idem g hpg fs ft ftb chain (.member o p) hs hsub
  | fs, ft, ftb, chain, .assign l r, hs, hsub => by
    rw [rewriteSkipTop_of_not_ident fs ft chain g (.assign l r) rfl,
      rewriteSkipTop_of_not_ident fs ftb chain g (rewriteExpr fs ft chain g (.assign l r))
        (rewriteExpr_isIdent fs ft chain g (.assign l r) rfl)]
    exact rwExpr_idem g hpg fs ft ftb chain (.assign l r) hs hsub
  | fs, ft, ftb, chain, .binop l r, hs, hsub => by
    rw [rewriteSkipTop_of_not_ident fs ft chain g (.binop l r) rfl,
      rewriteSkipTop_of_not_ident fs ftb chain g (rewriteExpr fs ft chain g (.binop l r))
        (rewriteExpr_isIdent fs ft chain g (.binop l r) rfl)]
    exact rwExpr_idem g hpg fs ft ftb chain (.binop l r) hs hsub
  | fs, ft, ftb, chain, .call f a, hs, hsub => by
    rw [rewriteSkipTop_of_not_ident fs ft chain g (.call f a) rfl,
      rewriteSkipTop_of_not_ident fs ftb chain g (rewriteExpr fs ft chain g (.call f a))
        (rewriteExpr_isIdent fs ft chain g (.call f a) rfl)]
    exact rwExpr_idem g hpg fs ft ftb chain (.call f a) hs hsub
  | fs, ft, ftb, chain, .objectLit k v, hs, hsub => by
    rw [rewriteSkipTop_of_not_ident fs ft chain g (.objectLit k v) rfl,
      rewriteSkipTop_of_not_ident fs ftb chain g (rewriteExpr fs ft chain g (.objectLit k v))
        (rewriteExpr_isIdent fs ft chain g (.objectLit k v) rfl)]
    exact rwExpr_idem g hpg fs ft ftb chain (.objectLit k v) hs hsub
  | fs, ft, ftb, chain, .lit v, hs, hsub => by
    rw [rewriteSkipTop_of_not_ident fs ft chain g (.lit v) rfl,
      rewriteSkipTop_of_not_ident fs ftb chain g (rewriteExpr fs ft chain g (.lit v))
        (rewriteExpr_isIdent fs ft chain g (.lit v) rfl)]
    exact rwExpr_idem g hpg fs ft ftb chain (.lit v) hs hsub
  | fs, ft, ftb, chain, .func ps b, hs, hsub => by
    rw [rewriteSkipTop_of_not_ident fs ft chain g (.func ps b) rfl,
      rewriteSkipTop_of_not_ident fs ftb chain g (rewriteExpr fs ft chain g (.func ps b))
        (rewriteExpr_isIdent fs ft chain g (.func ps b) rfl)]
    exact rwExpr_idem g hpg fs ft ftb chain (.func ps b) hs hsub
termination_by f t tb c e p1 p2 => (sizeOf e, 2)
theorem rwStmt_idem (g : List String) (hpg : g.contains pgName = false) :
    ∀ (fs ft ftb : List String) (chain : List (List String)) (s : JsStmt),
      stmtSlotsSafe g s = true →
      (∀ m, ft.contains m = true → ftb.contains m = true) →
      rewriteStmt fs ftb chain g (rewriteStmt fs ft chain g s)
        = rewriteStmt fs ft chain g s
  | fs, ft, ftb, chain, .exprStmt e, hs, hsub => by
    simp only [stmtSlotsSafe] at hs
    simp only [rewriteStmt]
    rw [rwExpr_idem g hpg fs ft ftb chain e hs hsub]
  | fs, ft, ftb, chain, .varDecl n none, _, _ => by simp [rewriteStmt]
  | fs, ft, ftb, chain, .varDecl n (some e), hs, hsub => by
    simp only [stmtSlotsSafe] at hs
    simp only [rewriteStmt]
    rw [rwSkip_idem g hpg fs ft ftb chain e hs hsub]
  | fs, ft, ftb, chain, .letDecl n none, _, _ => by simp [rewriteStmt]
  | fs, ft, ftb, chain, .letDecl n (some e), hs, hsub => by
    simp only [stmtSlotsSafe] at hs
    simp only [rewriteStmt]
    rw [rwSkip_idem g hpg fs ft ftb chain e hs hsub]
  | fs, ft, ftb, chain, .funcDecl nm ps b, hs, hsub => by
    cases nm with
    | ident m =>
      simp only [stmtSlotsSafe, Bool.and_eq_true] at hs
      have hm : g.contains m = false := by simpa using hs.1
      simp only [rewriteStmt]
      have hname1 : rewriteExpr (functionScopeSet ps b) (throughOf chain ps b)
          (functionScopeSet ps b :: chain) g (.ident m) = .ident m := by
        simp only [rewriteExpr]
        rw [shouldRewrite_of_not_g _ _ g m hm]
        simp
      rw [hname1]
      rw [rewriteBody_functionScopeSet (functionScopeSet ps b) (throughOf chain ps b)
        (functionScopeSet ps b :: chain) g ps b hs.2]
      have hname2 : rewriteExpr (functionScopeSet ps b)
          (throughOf chain ps (rewriteBody (functionScopeSet ps b) (throughOf chain ps b)
            (functionScopeSet ps b :: chain) g b))
          (functionScopeSet ps b :: chain) g (.ident m) = .ident m := by
        simp only [rewriteExpr]
        rw [shouldRewrite_of_not_g _ _ g m hm]
        simp
      rw [hname2]
      have hsub2 : ∀ w, (throughOf chain ps b).contains w = true →
          (throughOf chain ps (rewriteBody (functionScopeSet ps b) (throughOf chain ps b)
            (functionScopeSet ps b :: chain) g b)).contains w = true := by
        intro w hw
        have h5 := throughOf_contains chain ps b w hw
        have h6 : w ∈ escBody [functionScopeSet ps b]
            (rewriteBody (functionScopeSet ps b) (throughOf chain ps b)
              (functionScopeSet ps b :: chain) g b) := by
          refine escBody_preserved g (functionScopeSet ps b) (throughOf chain ps b)
            (functionScopeSet ps b :: chain) [functionScopeSet ps b] b w hs.2 ?_ h5.1
            (boundInChain_tail _ chain w h5.2)
          intro u hu hbu
          have hub := escBody_unbound u [functionScopeSet ps b] b hu
          rw [boundInChain_singleton] at hub
          rw [boundInChain_cons_eq, hub, Bool.false_or] at hbu
          exact contains_throughOf chain ps b u hu hbu
        refine contains_throughOf chain ps (rewriteBody (functionScopeSet ps b)
          (throughOf chain ps b) (functionScopeSet ps b :: chain) g b) w ?_ h5.2
        rw [rewriteBody_functionScopeSet (functionScopeSet ps b) (throughOf chain ps b)
          (functionScopeSet ps b :: chain) g ps b hs.2]
        exact h6
      rw [rwBody_idem g hpg (functionScopeSet ps b) (throughOf chain ps b)
        (throughOf chain ps (rewriteBody (functionScopeSet ps b) (throughOf chain ps b)
          (functionScopeSet ps b :: chain) g b))
        (functionScopeSet ps b :: chain) b hs.2 hsub2]
    | member o p => simp [stmtSlotsSafe] at hs
    | assign l r => simp [stmtSlotsSafe] at hs
    | binop l r => simp [stmtSlotsSafe] at hs
    | call f a => simp [stmtSlotsSafe] at hs
    | objectLit k v => simp [stmtSlotsSafe] at hs
    | lit v => simp [stmtSlotsSafe] at hs
    | func ps2 b2 => simp [stmtSlotsSafe] at hs
  | fs, ft, ftb, chain, .block b, hs, hsub => by
    simp only [stmtSlotsSafe] at hs
    simp only [rewriteStmt]
    rw [rewriteBody_blockScopeSet fs ft (blockScopeSet b :: chain) g b hs]
    rw [rwBody_idem g hpg fs ft ftb (blockScopeSet b :: chain) b hs hsub]
  | fs, ft, ftb, chain, .labeled l s, hs, hsub => by
    cases l with
    | ident m =>
      simp only [stmtSlotsSafe, Bool.and_eq_true] at hs
      have hm : g.contains m = false := by simpa using hs.1
      simp only [rewriteStmt]
      have hname1 : rewriteExpr fs ft chain g (.ident m) = .ident m := by
        simp only [rewriteExpr]
        rw [shouldRewrite_of_not_g fs ft g m hm]
        simp
      have hname2 : rewriteExpr fs ftb chain g (.ident m) = .ident m := by
        simp only [rewriteExpr]
        rw [shouldRewrite_of_not_g fs ftb g m hm]
        simp
      rw [hname1, hname2]
      rw [rwStmt_idem g hpg fs ft ftb chain s hs.2 hsub]
    | member o p => simp [stmtSlotsSafe] at hs
    | assign l2 r => simp [stmtSlotsSafe] at hs
    | binop l2 r => simp [stmtSlotsSafe] at hs
    | call f a => simp [stmtSlotsSafe] at hs
    | objectLit k v => simp [stmtSlotsSafe] at hs
    | lit v => simp [stmtSlotsSafe] at hs
    | func ps b => simp [stmtSlotsSafe] at hs
  | fs, ft, ftb, chain, .ret none, _, _ => by simp [rewriteStmt]
  | fs, ft, ftb, chain, .ret (some e), hs, hsub => by
    simp only [stmtSlotsSafe] at hs
    simp only [rewriteStmt]
    rw [rwExpr_idem g hpg fs ft ftb chain e hs hsub]
termination_by f t tb c s p1 p2 => (sizeOf s, 0)
theorem rwBody_idem (g : List String) (hpg : g.contains pgName = false) :
    ∀ (fs ft ftb : List String) (chain : List (List String)) (b : JsBody),
      bodySlotsSafe g b = true →
      (∀ m, ft.contains m = true → ftb.contains m = true) →
      rewriteBody fs ftb chain g (rewriteBody fs ft chain g b)
        = rewriteBody fs ft chain g b
  | fs, ft, ftb, chain, .nil, _, _ => by simp [rewriteBody]
  | fs, ft, ftb, chain, .cons s rest, hs, hsub => by
    simp only [bodySlotsSafe, Bool.and_eq_true] at hs
    simp only [rewriteBody]
    rw [rwStmt_idem g hpg fs ft ftb chain s hs.1 hsub,
      rwBody_idem g hpg fs ft ftb chain rest hs.2 hsub]
termination_by f t tb c b p1 p2 => (sizeOf b, 0)
end

